import Mathlib

/-!
Shallow embedding of the `bible-reading-progress` repository core:

* `src/range_query.rs` — the generic `RangeMap<K, V>` (a `BTreeMap<K, (K, V)>`
  from range start to (range end, value)), its `insert_with`, `insert_replace`,
  `range`, `range_biinclusive` and `coalesce_in_range` operations, and the
  blanket `CanCoalesce` implementation for `Eq` types (fuse iff equal).
* `src/progress.rs` — `InsideBookBibleReference`, `ReadingRecord`,
  `ReadingProgress` and its `mark_read` / `set_read_count` operations.
* `src/widgets/tree_builder.rs` — `get_verse_read_counts`,
  `calculate_chapter_read_stats`, `calculate_testament_min_read_count`,
  `determine_chapter_color` and `format_last_read_date`.

The `BTreeMap` substrate is modelled as a list of `(start, end, value)`
triples kept in strictly increasing key order; `btInsert` inserts at the
sorted position and replaces an entry with an equal key, exactly as
`BTreeMap::insert` does, `btRemove` removes the entry with the given key, and
`setEntry` models the in-place mutation of an entry's `(end, value)` payload
obtained through `range_mut`.  Dates are modelled as day numbers (`ℕ` in the
domain layer, `ℤ` at the chrono boundary of `format_last_read_date`).
-/

namespace RQ

/-- One stored entry of the `BTreeMap<K, (K, V)>`: `(start, (end, value))`. -/
abbrev RMap (α V : Type) : Type := List (α × α × V)

variable {α : Type} [LinearOrder α] {V : Type} [DecidableEq V]

/-- A kernel-reducible decision procedure for `List.Chain'`, so that the
invariant can be checked on concrete maps by `decide`. -/
def decChain' {β : Type} {R : β → β → Prop} [i : DecidableRel R] :
    (l : List β) → Decidable (List.Chain' R l)
  | [] => isTrue List.chain'_nil
  | [a] => isTrue (List.chain'_singleton a)
  | a :: b :: t =>
    @decidable_of_iff _ _ List.chain'_cons.symm
      (@instDecidableAnd _ _ (i a b) (decChain' (b :: t)))

instance (priority := 2000) {β : Type} {R : β → β → Prop} [DecidableRel R]
    (l : List β) : Decidable (List.Chain' R l) := decChain' l

/-- The blanket `impl<T: Eq + Clone> CanCoalesce for T`: `Some(self.clone())`
iff the two values are equal, `None` otherwise (range_query.rs lines 12-20).
This is the only `CanCoalesce` implementation in the repository, and being a
blanket implementation it is the only possible one. -/
def coalesce (a b : V) : Option V := if a = b then some a else none

/-- `self.map.range(..x).next_back()`: the stored entry with the greatest
start strictly below `x`, if any. -/
def btFindPred (m : RMap α V) (x : α) : Option (α × α × V) :=
  (m.filter fun e => decide (e.1 < x)).getLast?

/-- `BTreeMap::insert`: insert at the sorted position, replacing an entry
with an equal key. -/
def btInsert (m : RMap α V) (s : α) (ev : α × V) : RMap α V :=
  match m with
  | [] => [(s, ev.1, ev.2)]
  | e :: t =>
    if s < e.1 then (s, ev.1, ev.2) :: e :: t
    else if s = e.1 then (s, ev.1, ev.2) :: t
    else e :: btInsert t s ev

/-- `BTreeMap::remove` by key. -/
def btRemove (m : RMap α V) (s : α) : RMap α V :=
  m.filter fun e => decide (e.1 ≠ s)

/-- In-place mutation of the `(end, value)` payload of the entry whose key is
`s` (the effect of writing through a `range_mut` / `get_mut` reference). -/
def setEntry (m : RMap α V) (s : α) (ev : α × V) : RMap α V :=
  m.map fun e => if e.1 = s then (s, ev.1, ev.2) else e

/-- `self.map.range(lo..hi)` (also `range_mut`): the stored entries with
`lo ≤ start < hi`, in ascending start order. -/
def between (m : RMap α V) (lo hi : α) : RMap α V :=
  m.filter fun e => decide (lo ≤ e.1) && decide (e.1 < hi)

/-- Accumulated effect of the middle sweep of `insert_with`
(range_query.rs lines 107-133): in-place entry updates, deferred
insertions, deferred removals, the final `start_cursor` and the final
`coalesced_value`. -/
structure SweepOut (α V : Type) : Type where
  upds : List (α × α × V)
  ins : List (α × α × V)
  rem : List α
  cur : α
  coal : V

/-- The middle sweep of `insert_with`: the loop
`for (s, (e, v)) in self.map.range_mut(range.start..range.end)` threading
`start_cursor` and `coalesced_value` (range_query.rs lines 109-133). -/
def sweep (value : V) (re : α) (merge : V → V → V) :
    RMap α V → α → V → SweepOut α V
  | [], cur, coal => ⟨[], [], [], cur, coal⟩
  | (s, e, v) :: rest, cur, coal =>
    match coalesce v coal with
    | some v2 =>
      let r := sweep value re merge rest cur v2
      ⟨r.upds, r.ins, s :: r.rem, r.cur, r.coal⟩
    | none =>
      let ins1 : List (α × α × V) := if cur < s then [(cur, s, coal)] else []
      let coal1 : V := if cur < s then value else coal
      if e ≤ re then
        let r := sweep value re merge rest e coal1
        ⟨(s, e, merge v coal1) :: r.upds, ins1 ++ r.ins, r.rem, r.cur, r.coal⟩
      else
        let r := sweep value re merge rest re coal1
        ⟨(s, re, merge v coal1) :: r.upds, ins1 ++ (re, e, v) :: r.ins,
          r.rem, r.cur, r.coal⟩

/-- `RangeMap::range_biinclusive` (range_query.rs lines 58-70): the last
entry starting before `lo` provided its end is `≥ lo`, followed by the
entries with `lo ≤ start ≤ hi`. -/
def range_biinclusive (m : RMap α V) (lo hi : α) : RMap α V :=
  (match btFindPred m lo with
   | some (s, e, v) => if lo ≤ e then [(s, e, v)] else []
   | none => []) ++
  m.filter fun e => decide (lo ≤ e.1) && decide (e.1 ≤ hi)

/-- The cursor loop of `coalesce_in_range` (range_query.rs lines 152-181):
returns the keys to remove and the `(start, end, value)` rewrites to apply.
The cursor carries `(start, end, value, count)`. -/
def coalescePass : RMap α V → Option (α × α × V × Nat) → List α × List (α × α × V)
  | [], none => ([], [])
  | [], some (s, e, v, cnt) => ([], if 1 < cnt then [(s, e, v)] else [])
  | (s1, e1, v1) :: rest, none => coalescePass rest (some (s1, e1, v1, 1))
  | (s1, e1, v1) :: rest, some (s, e, v, cnt) =>
    if s1 = e then
      match coalesce v1 v with
      | some v2 =>
        let r := coalescePass rest (some (s, e1, v2, cnt + 1))
        (s1 :: r.1, r.2)
      | none =>
        let r := coalescePass rest (some (s1, e1, v1, 1))
        (r.1, (if 1 < cnt then [(s, e, v)] else []) ++ r.2)
    else
      let r := coalescePass rest (some (s1, e1, v1, 1))
      (r.1, (if 1 < cnt then [(s, e, v)] else []) ++ r.2)

/-- Apply a list of in-place `(start, end, value)` rewrites (`to_update`,
or the in-place mutations of the middle sweep). -/
def updApply (m : RMap α V) (l : List (α × α × V)) : RMap α V :=
  l.foldl (fun acc u => setEntry acc u.1 (u.2.1, u.2.2)) m

/-- Apply a list of deferred removals (`to_remove`). -/
def remApply (m : RMap α V) (l : List α) : RMap α V :=
  l.foldl (fun acc s => btRemove acc s) m

/-- Apply a list of deferred insertions (`to_insert`) in push order. -/
def insApply (m : RMap α V) (l : List (α × α × V)) : RMap α V :=
  l.foldl (fun acc e => btInsert acc e.1 (e.2.1, e.2.2)) m

/-- `RangeMap::coalesce_in_range` (range_query.rs lines 151-195): run the
cursor loop over the biinclusive window, then apply the removals, then the
updates. -/
def coalesce_in_range (m : RMap α V) (lo hi : α) : RMap α V :=
  let p := coalescePass (range_biinclusive m lo hi) none
  updApply (remApply m p.1) p.2

/-- The left-boundary block of `insert_with` (range_query.rs lines 84-105):
returns the possibly mutated map, the left contributions to `to_insert`,
and the new `start_cursor`. -/
def leftBlock (m : RMap α V) (rs re : α) (value : V) (merge : V → V → V) :
    RMap α V × List (α × α × V) × α :=
  match btFindPred m rs with
  | none => (m, [], rs)
  | some (s, e, v) =>
    if rs = e then
      match coalesce v value with
      | some v2 => (setEntry m s (e, v2), [], s)
      | none => (m, [], rs)
    else if rs < e then
      match coalesce v value with
      | some v2 => (setEntry m s (e, v2), [], s)
      | none =>
        ((setEntry m s (rs, v)),
         (if re < e then [(re, e, v)] else []) ++ [(rs, min e re, merge v value)],
         min e re)
    else (m, [], rs)

/-- `RangeMap::insert_with` (range_query.rs lines 75-149).  `step1` is the
left-boundary block (lines 84-105) producing the possibly mutated map, the
left contributions to `to_insert` and the new `start_cursor`; then the
middle sweep runs, in-place updates are applied, removals are applied, the
accumulated `to_insert` entries (left block first, sweep next, tail last)
are inserted in push order, and finally `coalesce_in_range` runs on
`range.start..=range.end`. -/
def insert_with (m : RMap α V) (rs re : α) (value : V) (merge : V → V → V) :
    RMap α V :=
  let step1 := leftBlock m rs re value merge
  let m1 := step1.1
  let st := sweep value re merge (between m1 rs re) step1.2.2 value
  let tl : List (α × α × V) := if st.cur < re then [(st.cur, re, st.coal)] else []
  let m4 := insApply (remApply (updApply m1 st.upds) st.rem)
    (step1.2.1 ++ st.ins ++ tl)
  coalesce_in_range m4 rs re

/-- `RangeMap::insert_replace` (range_query.rs lines 198-200). -/
def insert_replace (m : RMap α V) (rs re : α) (value : V) : RMap α V :=
  insert_with m rs re value (fun _ new => new)

/-- `RangeMap::range` (range_query.rs lines 47-56): the last entry starting
before `lo` provided its end is `> lo`, followed by the entries with
`lo ≤ start < hi`. -/
def rangeQuery (m : RMap α V) (lo hi : α) : RMap α V :=
  (match btFindPred m lo with
   | some (s, e, v) => if lo < e then [(s, e, v)] else []
   | none => []) ++
  m.filter fun e => decide (lo ≤ e.1) && decide (e.1 < hi)

/-- The value stored at a single point: the payload of the entry whose
half-open range contains `p`, if any. -/
def valueAt (m : RMap α V) (p : α) : Option V :=
  (m.find? fun e => decide (e.1 ≤ p) && decide (p < e.2.1)).map (fun e => e.2.2)

/-- The adjacency discipline between consecutive stored entries demanded by
the documented invariant: the earlier entry ends no later than the later one
starts, and if they touch their values must not be coalesce-fusable (for the
blanket `Eq` implementation: must differ). -/
def pairOK (a b : α × α × V) : Prop :=
  a.2.1 ≤ b.1 ∧ (a.2.1 = b.1 → a.2.2 ≠ b.2.2)

instance : DecidableRel (pairOK (α := α) (V := V)) :=
  fun a b => inferInstanceAs (Decidable (_ ∧ _))

/-- The `RangeMap` invariant: every stored entry is a non-empty half-open
range, and consecutive entries are disjoint, in ascending order, and never
coalesce-fusable across a touching boundary. -/
def Inv (m : RMap α V) : Prop :=
  (∀ e ∈ m, e.1 < e.2.1) ∧ m.Chain' pairOK

instance : DecidablePred (Inv (α := α) (V := V)) :=
  fun m => inferInstanceAs (Decidable (_ ∧ _))

/-- A sequence of `insert_with` calls (each carrying its own merge function)
applied to the empty map. -/
def applyOps (ops : List (α × α × V × (V → V → V))) : RMap α V :=
  ops.foldl (fun m op => insert_with m op.1 op.2.1 op.2.2.1 op.2.2.2) []

end RQ

namespace RQ

/-! ### Domain layer: `progress.rs` -/

/-- `InsideBookBibleReference` (progress.rs lines 10-13), with the derived
lexicographic `Ord` (chapter major, verse minor). -/
structure Ref : Type where
  chapter : ℕ
  verse : ℕ
deriving DecidableEq, Repr

instance : LinearOrder Ref where
  le a b := a.chapter < b.chapter ∨ (a.chapter = b.chapter ∧ a.verse ≤ b.verse)
  le_refl a := Or.inr ⟨rfl, le_refl _⟩
  le_trans a b c hab hbc := by
    rcases hab with h | ⟨h1, h2⟩ <;> rcases hbc with h' | ⟨h1', h2'⟩
    · exact Or.inl (h.trans h')
    · exact Or.inl (h1' ▸ h)
    · exact Or.inl (h1 ▸ h')
    · exact Or.inr ⟨h1.trans h1', h2.trans h2'⟩
  le_antisymm a b hab hba := by
    rcases hab with h | ⟨h1, h2⟩ <;> rcases hba with h' | ⟨h1', h2'⟩
    · exact absurd (h.trans h') (lt_irrefl _)
    · exact absurd h (h1' ▸ lt_irrefl _)
    · exact absurd h' (h1 ▸ lt_irrefl _)
    · cases a; cases b; simp_all; omega
  le_total a b := by
    rcases Nat.lt_trichotomy a.chapter b.chapter with h | h | h
    · exact Or.inl (Or.inl h)
    · rcases Nat.le_total a.verse b.verse with h' | h'
      · exact Or.inl (Or.inr ⟨h, h'⟩)
      · exact Or.inr (Or.inr ⟨h.symm, h'⟩)
    · exact Or.inr (Or.inl h)
  decidableLE a b := inferInstanceAs (Decidable (_ ∨ _))
  decidableEq a b := inferInstanceAs (Decidable (a = b))

/-- `ReadingRecord` (progress.rs lines 17-22), with dates as day numbers. -/
structure ReadingRecord : Type where
  read_count : ℕ
  last_read : ℕ
deriving DecidableEq, Repr

/-- `ReadingRecord::default()`: `read_count = 1`, `last_read = today`
(progress.rs lines 24-31), with the current day passed explicitly. -/
def freshRecord (today : ℕ) : ReadingRecord := ⟨1, today⟩

/-- The merge function of `mark_read` (progress.rs lines 62-65). -/
def markReadMerge (old new : ReadingRecord) : ReadingRecord :=
  ⟨old.read_count + new.read_count, new.last_read⟩

/-- `ReadingProgress::mark_read` on a single book's map
(progress.rs lines 51-67): insert the half-open single-verse interval
`[reference, (chapter, verse + 1))` carrying a fresh record, merging by
adding read counts and keeping the later date. -/
def mark_read (m : RMap Ref ReadingRecord) (r : Ref) (today : ℕ) :
    RMap Ref ReadingRecord :=
  insert_with m r ⟨r.chapter, r.verse + 1⟩ (freshRecord today) markReadMerge

/-- `ReadingProgress` (progress.rs lines 36-41): the `books` map, modelled
as an association list from book name to that book's `RangeMap`. -/
abbrev ReadingProgress : Type := List (String × RMap Ref ReadingRecord)

/-- `self.books.get(book)`. -/
def lookupBook (p : ReadingProgress) (b : String) :
    Option (RMap Ref ReadingRecord) :=
  (p.find? fun e => decide (e.1 = b)).map (fun e => e.2)

/-- `self.books.entry(book).or_insert_with(RangeMap::new)` followed by a
mutation of the per-book map. -/
def withBook (p : ReadingProgress) (b : String)
    (f : RMap Ref ReadingRecord → RMap Ref ReadingRecord) : ReadingProgress :=
  match p with
  | [] => [(b, f [])]
  | e :: t => if e.1 = b then (b, f e.2) :: t else e :: withBook t b f

/-- `ReadingProgress::set_read_count` (progress.rs lines 69-85): note the
inserted interval is `reference..reference`, i.e. zero-width. -/
def set_read_count (p : ReadingProgress) (b : String) (r : Ref)
    (read_count : ℕ) (last_read : Option ℕ) (today : ℕ) : ReadingProgress :=
  withBook p b fun m => insert_replace m r r ⟨read_count, last_read.getD today⟩

/-- `ReadingProgress::mark_read` at the `books` level. -/
def progress_mark_read (p : ReadingProgress) (b : String) (r : Ref)
    (today : ℕ) : ReadingProgress :=
  withBook p b fun m => mark_read m r today

/-! ### Statistics layer: `widgets/tree_builder.rs` -/

/-- `u32::MAX`, the sentinel used by `calculate_chapter_read_stats`. -/
def U32MAX : ℕ := 4294967295

/-- `get_verse_read_counts` (tree_builder.rs lines 437-462) read back at a
single verse: the maximum `read_count` over the queried ranges that lie
within the chapter and cover the verse; `0` if none
(`verse_read_counts.get(&verse).copied().unwrap_or(0)`). -/
def get_verse_read_counts (chapter max_verse : ℕ)
    (records : RMap Ref ReadingRecord) (v : ℕ) : ℕ :=
  (rangeQuery records ⟨chapter, 1⟩ ⟨chapter, max_verse + 1⟩).foldl
    (fun acc e =>
      if e.1.chapter = chapter ∧ e.2.1.chapter = chapter ∧
          e.1.verse ≤ v ∧ v < e.2.1.verse ∧ acc < e.2.2.read_count
      then e.2.2.read_count else acc) 0

/-- `calculate_chapter_read_stats` (tree_builder.rs lines 466-503). -/
def calculate_chapter_read_stats (chapter max_verse : ℕ)
    (book_records : Option (RMap Ref ReadingRecord)) : ℕ × ℕ × ℕ :=
  match book_records with
  | none => (0, 0, 0)
  | some records =>
    let cnt := get_verse_read_counts chapter max_verse records
    let minR := (List.range' 1 max_verse).foldl
      (fun acc v => if cnt v < acc then cnt v else acc) U32MAX
    if minR = U32MAX then (0, 0, 0)
    else
      ((minR),
       (List.range' 1 max_verse).foldl
         (fun acc v => if minR < cnt v then acc + 1 else acc) 0,
       max_verse)

/-- `Iterator::min` on a list of naturals. -/
def listMin : List ℕ → Option ℕ
  | [] => none
  | x :: xs => some (xs.foldl (fun a b => if b < a then b else a) x)

/-- The `all_verse_read_counts` vector built by
`calculate_testament_min_read_count` (tree_builder.rs lines 553-568): books
without a records map are skipped entirely. -/
def testament_all_verse_read_counts (t : List (String × List ℕ))
    (p : ReadingProgress) : List ℕ :=
  t.flatMap fun bk =>
    match lookupBook p bk.1 with
    | none => []
    | some records =>
      bk.2.enum.flatMap fun ce =>
        (List.range' 1 ce.2).map
          (get_verse_read_counts (ce.1 + 1) ce.2 records)

/-- `calculate_testament_min_read_count` (tree_builder.rs lines 549-575). -/
def calculate_testament_min_read_count (t : List (String × List ℕ))
    (p : ReadingProgress) : ℕ :=
  let c := testament_all_verse_read_counts t p
  if c.isEmpty then 0 else (listMin c).getD 0

/-- The foreground colours used by the dashboard tree. -/
inductive TuiColor : Type where
  | white
  | yellow
  | green
deriving DecidableEq, Repr

/-- `determine_chapter_color` (tree_builder.rs lines 581-606), with the
per-verse read counts passed as a function as read back from the hash map
with default `0`. -/
def determine_chapter_color (chapter_min book_min : ℕ)
    (verse_read_counts : ℕ → ℕ) (max_verse : ℕ) : TuiColor :=
  if chapter_min = book_min then TuiColor.white
  else if (List.range' 1 max_verse).any
      (fun v => decide (book_min + 1 ≤ verse_read_counts v)) then
    TuiColor.green
  else TuiColor.yellow

/-- `format_last_read_date` (tree_builder.rs lines 670-697) as a function of
the signed day difference `days_ago = today - date`; the ISO rendering of
the date (chrono's `%Y-%m-%d`, library code outside this repository) is
passed in as `iso`. -/
def format_last_read_date (days_ago : ℤ) (iso : String) : String :=
  if days_ago = 0 then "today"
  else if days_ago = 1 then "yesterday"
  else if 2 ≤ days_ago ∧ days_ago ≤ 7 then toString days_ago ++ " days ago"
  else if 8 ≤ days_ago ∧ days_ago ≤ 14 then "last week"
  else if 15 ≤ days_ago ∧ days_ago ≤ 30 then
    (if days_ago / 7 = 1 then "1 week ago"
     else toString (days_ago / 7) ++ " weeks ago")
  else if 31 ≤ days_ago ∧ days_ago ≤ 60 then
    (if days_ago / 30 = 1 then "1 month ago"
     else toString (days_ago / 30) ++ " months ago")
  else iso

end RQ

namespace RQ

/-! ### Validation of the embedding against the unit tests of
`range_query.rs` (values encoded as naturals: `"A" ↦ 0`, `"B" ↦ 1`, …). -/

example : insert_with (insert_replace ([] : RMap ℕ ℕ) 2 4 1) 1 3 0
    (fun _ n => n) = [(1, 3, 0), (3, 4, 1)] := by decide

example : insert_replace ([] : RMap ℕ ℕ) 0 10 0 = [(0, 10, 0)] := by decide

example : insert_replace (insert_replace (insert_replace ([] : RMap ℕ ℕ)
    0 5 0) 10 15 1) 20 25 2 = [(0, 5, 0), (10, 15, 1), (20, 25, 2)] := by
  decide

example : insert_replace (insert_replace ([] : RMap ℕ ℕ) 0 5 0) 5 10 1 =
    [(0, 5, 0), (5, 10, 1)] := by decide

example : insert_replace (insert_replace ([] : RMap ℕ ℕ) 0 10 0) 5 15 1 =
    [(0, 5, 0), (5, 15, 1)] := by decide

example : insert_replace (insert_replace ([] : RMap ℕ ℕ) 5 10 0) 0 20 1 =
    [(0, 20, 1)] := by decide

example : insert_replace (insert_replace (insert_replace (insert_replace
    ([] : RMap ℕ ℕ) 0 5 0) 10 15 1) 20 25 2) 3 22 3 =
    [(0, 3, 0), (3, 22, 3), (22, 25, 2)] := by decide

example : insert_replace (insert_replace ([] : RMap ℕ ℕ) 0 5 0) 5 10 0 =
    [(0, 10, 0)] := by decide

example : insert_replace (insert_replace ([] : RMap ℕ ℕ) 0 5 0) 3 8 0 =
    [(0, 8, 0)] := by decide

example : insert_with (insert_replace ([] : RMap ℕ ℕ) 0 10 10) 5 15 20
    (fun o n => o + n) = [(0, 5, 10), (5, 10, 30), (10, 15, 20)] := by decide

example : insert_with (insert_replace ([] : RMap ℕ ℕ) 0 10 0) 5 15 1
    (fun o _ => o) = [(0, 10, 0), (10, 15, 1)] := by decide

example : insert_replace (insert_replace ([] : RMap ℕ ℕ) 0 20 0) 5 15 1 =
    [(0, 5, 0), (5, 15, 1), (15, 20, 0)] := by decide

example : insert_with (insert_replace (insert_replace (insert_replace
    ([] : RMap ℕ ℕ) 0 5 1) 10 15 2) 20 25 3) 3 23 10
    (fun o n => o + n) =
    [(0, 3, 1), (3, 5, 11), (5, 10, 10), (10, 15, 12), (15, 20, 10),
     (20, 23, 13), (23, 25, 3)] := by decide

example : insert_replace (insert_replace ([] : RMap ℕ ℕ) 5 6 0) 5 6 1 =
    [(5, 6, 1)] := by decide

example : rangeQuery (insert_replace (insert_replace (insert_replace
    ([] : RMap ℕ ℕ) 0 5 0) 10 15 1) 20 25 2) 4 11 =
    [(0, 5, 0), (10, 15, 1)] := by decide

example : rangeQuery (insert_replace (insert_replace (insert_replace
    ([] : RMap ℕ ℕ) 0 5 0) 10 15 1) 20 25 2) 3 22 =
    [(0, 5, 0), (10, 15, 1), (20, 25, 2)] := by decide

example : rangeQuery (insert_replace (insert_replace ([] : RMap ℕ ℕ)
    0 5 0) 5 10 1) 5 5 = [] := by decide

example : rangeQuery (insert_replace (insert_replace ([] : RMap ℕ ℕ)
    0 5 0) 5 10 1) 4 6 = [(0, 5, 0), (5, 10, 1)] := by decide

end RQ

namespace RQ

variable {α : Type} [LinearOrder α] {V : Type} [DecidableEq V]

/-! ### Helper lemmas: small computations of `insert_with` -/

/-- Inserting a well-formed range into the empty map stores exactly that
range. -/
theorem insert_with_nil (rs re : α) (v : V) (mg : V → V → V) (h : rs < re) :
    insert_with ([] : RMap α V) rs re v mg = [(rs, re, v)] := by
  simp [insert_with, leftBlock, btFindPred, between, sweep, coalesce_in_range,
    range_biinclusive, coalescePass, btInsert, updApply, remApply, insApply,
    h, le_of_lt h, lt_irrefl]

/-- Re-inserting over exactly the stored range: an equal value is absorbed
by coalescing, a different value is merged. -/
theorem insert_with_single_same (rs re : α) (v1 v2 : V) (mg : V → V → V)
    (h : rs < re) :
    insert_with [(rs, re, v1)] rs re v2 mg =
      if v1 = v2 then [(rs, re, v1)] else [(rs, re, mg v1 v2)] := by
  by_cases h12 : v1 = v2 <;>
    simp [insert_with, leftBlock, btFindPred, between, sweep, coalesce,
      coalesce_in_range, range_biinclusive, coalescePass, btInsert, btRemove,
      setEntry, updApply, remApply, insApply, h, le_of_lt h, h12, lt_irrefl]

omit [DecidableEq V] in
/-- Reading a single-entry map at a covered point. -/
theorem valueAt_single (rs re : α) (w : V) (p : α) (h1 : rs ≤ p)
    (h2 : p < re) : valueAt [(rs, re, w)] p = some w := by
  simp [valueAt, List.find?, h1, h2]

/-! ### Helper lemmas: `Iterator::min`-style folds -/

/-- The running-minimum fold used by the statistics code never exceeds its
seed. -/
theorem foldl_min_le_init (l : List ℕ) (a : ℕ) :
    l.foldl (fun x b => if b < x then b else x) a ≤ a := by
  induction l generalizing a with
  | nil => simp
  | cons x xs ih =>
    simp only [List.foldl_cons]
    split
    · exact le_trans (ih x) (le_of_lt (by assumption))
    · exact ih a

/-- The running-minimum fold is a lower bound of every list element. -/
theorem foldl_min_le_mem (l : List ℕ) (a : ℕ) :
    ∀ x ∈ l, l.foldl (fun x b => if b < x then b else x) a ≤ x := by
  induction l generalizing a with
  | nil => simp
  | cons y ys ih =>
    intro x hx
    rcases List.mem_cons.1 hx with rfl | hx
    · simp only [List.foldl_cons]
      split
      · exact foldl_min_le_init ys x
      · exact le_trans (foldl_min_le_init ys a) (not_lt.1 (by assumption))
    · exact ih _ x hx

/-- The running-minimum fold returns its seed or a list element. -/
theorem foldl_min_mem (l : List ℕ) (a : ℕ) :
    l.foldl (fun x b => if b < x then b else x) a = a ∨
      l.foldl (fun x b => if b < x then b else x) a ∈ l := by
  induction l generalizing a with
  | nil => simp
  | cons y ys ih =>
    simp only [List.foldl_cons]
    split
    · rcases ih y with h | h
      · exact Or.inr (by rw [h]; exact List.mem_cons_self y ys)
      · exact Or.inr (List.mem_cons_of_mem y h)
    · rcases ih a with h | h
      · exact Or.inl h
      · exact Or.inr (List.mem_cons_of_mem y h)

/-- `listMin` of a non-empty list is a member and a lower bound. -/
theorem listMin_spec (l : List ℕ) (h : l ≠ []) :
    (listMin l).getD 0 ∈ l ∧ ∀ x ∈ l, (listMin l).getD 0 ≤ x := by
  match l with
  | [] => exact absurd rfl h
  | x :: xs =>
    simp only [listMin, Option.getD_some]
    constructor
    · rcases foldl_min_mem xs x with h' | h'
      · rw [h']; exact List.mem_cons_self x xs
      · exact List.mem_cons_of_mem x h'
    · intro y hy
      rcases List.mem_cons.1 hy with rfl | hy
      · exact foldl_min_le_init xs y
      · exact foldl_min_le_mem xs x y hy

/-- A min-fold over elements that are all zero, started from a positive
seed, returns zero. -/
theorem foldl_min_all_zero (cnt : ℕ → ℕ) (l : List ℕ) (a : ℕ)
    (h : ∀ v ∈ l, cnt v = 0) (ha : 0 < a) (hl : l ≠ []) :
    l.foldl (fun acc v => if cnt v < acc then cnt v else acc) a = 0 := by
  have aux : ∀ l' : List ℕ,
      l'.foldl (fun acc v => if cnt v < acc then cnt v else acc) 0 = 0 := by
    intro l'
    induction l' with
    | nil => rfl
    | cons y ys ih => simp only [List.foldl_cons, if_neg (Nat.not_lt_zero _)]; exact ih
  match l with
  | [] => exact absurd rfl hl
  | x :: xs =>
    have hx : cnt x = 0 := h x (List.mem_cons_self x xs)
    simp only [List.foldl_cons, hx, if_pos ha]
    exact aux xs

/-- A counting fold over elements that are all zero counts nothing. -/
theorem foldl_count_zero (cnt : ℕ → ℕ) (l : List ℕ)
    (h : ∀ v ∈ l, cnt v = 0) (a : ℕ) :
    l.foldl (fun acc v => if 0 < cnt v then acc + 1 else acc) a = a := by
  induction l generalizing a with
  | nil => rfl
  | cons y ys ih =>
    have hy : cnt y = 0 := h y (List.mem_cons_self y ys)
    simp only [List.foldl_cons, hy, if_neg (lt_irrefl 0)]
    exact ih (fun v hv => h v (List.mem_cons_of_mem y hv)) a

/-! ### Machinery: ordered association lists -/

omit [DecidableEq V] in
/-- `btInsert` walks past a prefix of strictly smaller keys. -/
theorem btInsert_append_of_lt (A B : RMap α V) (s : α) (ev : α × V)
    (hA : ∀ a ∈ A, a.1 < s) : btInsert (A ++ B) s ev = A ++ btInsert B s ev := by
  induction A with
  | nil => rfl
  | cons a A ih =>
    have ha := hA a (List.mem_cons_self a A)
    simp only [List.cons_append, btInsert, if_neg (not_lt.2 (le_of_lt ha)),
      if_neg (ne_of_gt ha), List.append_eq]
    rw [ih (fun x hx => hA x (List.mem_cons_of_mem a hx))]

omit [DecidableEq V] in
/-- `btInsert` in front of a strictly larger key. -/
theorem btInsert_cons_of_lt (b : α × α × V) (B : RMap α V) (s : α) (ev : α × V)
    (h : s < b.1) : btInsert (b :: B) s ev = (s, ev.1, ev.2) :: b :: B := by
  simp [btInsert, h]

omit [DecidableEq V] in
/-- `btInsert` replaces an entry with an equal key. -/
theorem btInsert_cons_of_eq (b : α × α × V) (B : RMap α V) (s : α) (ev : α × V)
    (h : s = b.1) : btInsert (b :: B) s ev = (s, ev.1, ev.2) :: B := by
  subst h
  simp [btInsert]

omit [DecidableEq V] in
/-- `setEntry` distributes over append. -/
theorem setEntry_append (X Y : RMap α V) (s : α) (ev : α × V) :
    setEntry (X ++ Y) s ev = setEntry X s ev ++ setEntry Y s ev :=
  List.map_append _ _ _

omit [DecidableEq V] in
/-- `setEntry` fixes a list whose keys all differ from the touched key. -/
theorem setEntry_of_ne (X : RMap α V) (s : α) (ev : α × V)
    (h : ∀ x ∈ X, x.1 ≠ s) : setEntry X s ev = X := by
  induction X with
  | nil => rfl
  | cons x X ih =>
    simp only [setEntry, List.map_cons,
      if_neg (h x (List.mem_cons_self x X))]
    have := ih (fun y hy => h y (List.mem_cons_of_mem x hy))
    simp only [setEntry] at this
    rw [this]

omit [DecidableEq V] in
/-- `setEntry` rewrites the head entry when the key matches. -/
theorem setEntry_cons_of_eq (x : α × α × V) (X : RMap α V) (s : α)
    (ev : α × V) (h : x.1 = s) :
    setEntry (x :: X) s ev = (s, ev.1, ev.2) :: setEntry X s ev := by
  simp only [setEntry, List.map_cons, if_pos h]

omit [DecidableEq V] in
/-- `btRemove` distributes over append. -/
theorem btRemove_append (X Y : RMap α V) (s : α) :
    btRemove (X ++ Y) s = btRemove X s ++ btRemove Y s :=
  List.filter_append _ _

omit [DecidableEq V] in
/-- `btRemove` fixes a list whose keys all differ from the removed key. -/
theorem btRemove_of_ne (X : RMap α V) (s : α) (h : ∀ x ∈ X, x.1 ≠ s) :
    btRemove X s = X :=
  List.filter_eq_self.mpr (fun a ha => by simpa using h a ha)

omit [DecidableEq V] in
/-- `btRemove` drops the head entry when the key matches. -/
theorem btRemove_cons_of_eq (x : α × α × V) (X : RMap α V) (s : α)
    (h : x.1 = s) : btRemove (x :: X) s = btRemove X s := by
  simp [btRemove, List.filter_cons, h]

omit [DecidableEq V] in
/-- Splitting a key-sorted list at a pivot key. -/
theorem split_at_key (m : RMap α V) (c : α)
    (hs : m.Pairwise fun a b => a.1 < b.1) :
    ∃ X Y, m = X ++ Y ∧ (∀ x ∈ X, x.1 < c) ∧ ∀ y ∈ Y, c ≤ y.1 := by
  induction m with
  | nil => exact ⟨[], [], rfl, by simp, by simp⟩
  | cons e t ih =>
    obtain ⟨X, Y, rfl, hX, hY⟩ := ih (List.Pairwise.of_cons hs)
    by_cases he : e.1 < c
    · exact ⟨e :: X, Y, rfl, fun x hx => by
        rcases List.mem_cons.1 hx with rfl | hx
        · exact he
        · exact hX x hx, hY⟩
    · refine ⟨[], e :: X ++ Y, rfl, by simp, ?_⟩
      intro y hy
      rcases List.mem_cons.1 hy with rfl | hy
      · exact not_lt.1 he
      · exact le_of_lt (lt_of_le_of_lt (not_lt.1 he)
          (List.rel_of_pairwise_cons hs hy))

omit [DecidableEq V] in
/-- Characterising `btFindPred` on a split list. -/
theorem btFindPred_eq_of_split (X Y : RMap α V) (c : α)
    (hX : ∀ x ∈ X, x.1 < c) (hY : ∀ y ∈ Y, c ≤ y.1) :
    btFindPred (X ++ Y) c = X.getLast? := by
  unfold btFindPred
  rw [List.filter_append,
    List.filter_eq_self.mpr (fun a ha => by simpa using hX a ha),
    List.filter_eq_nil_iff.mpr (fun a ha => by simpa using not_lt.2 (hY a ha)),
    List.append_nil]

omit [DecidableEq V] in
/-- Characterising `between` on a three-way split list. -/
theorem between_eq_of_split (X Y Z : RMap α V) (lo hi : α)
    (hX : ∀ x ∈ X, x.1 < lo) (hY : ∀ y ∈ Y, lo ≤ y.1 ∧ y.1 < hi)
    (hZ : ∀ z ∈ Z, hi ≤ z.1) :
    between (X ++ Y ++ Z) lo hi = Y := by
  unfold between
  rw [List.filter_append, List.filter_append,
    List.filter_eq_nil_iff.mpr (fun a ha => by
      simp only [Bool.and_eq_true, decide_eq_true_eq, not_and]
      intro hc
      exact absurd hc (not_le.2 (hX a ha))),
    List.filter_eq_self.mpr (fun a ha => by
      simp only [Bool.and_eq_true, decide_eq_true_eq]
      exact hY a ha),
    List.filter_eq_nil_iff.mpr (fun a ha => by
      simp only [Bool.and_eq_true, decide_eq_true_eq, not_and]
      intro _
      exact not_lt.2 (hZ a ha)),
    List.nil_append, List.append_nil]

omit [DecidableEq V] in
/-- A zero-width window selects nothing. -/
theorem between_self (m : RMap α V) (c : α) : between m c c = [] :=
  List.filter_eq_nil_iff.mpr (fun a _ => by
    simp only [Bool.and_eq_true, decide_eq_true_eq, not_and]
    intro h1
    exact not_lt.2 h1)

/-! ### Machinery: the transitive envelope of the invariant -/

/-- The transitive relation packaging disjointness, key order,
well-formedness of the later entry, and non-fusability. -/
def entRel (a b : α × α × V) : Prop :=
  a.2.1 ≤ b.1 ∧ a.1 < b.1 ∧ b.1 < b.2.1 ∧ (a.2.1 = b.1 → a.2.2 ≠ b.2.2)

omit [DecidableEq V] in
theorem entRel_trans {a b c : α × α × V} (h1 : entRel a b) (h2 : entRel b c) :
    entRel a c := by
  obtain ⟨h11, h12, h13, -⟩ := h1
  obtain ⟨h21, h22, h23, -⟩ := h2
  have key : a.2.1 < c.1 := lt_of_le_of_lt h11 (lt_of_lt_of_le h13 h21)
  exact ⟨le_of_lt key, lt_trans h12 h22, h23, fun he => absurd he (ne_of_lt key)⟩

omit [DecidableEq V] in
/-- An invariant-satisfying map is `entRel`-pairwise. -/
theorem inv_pairwise_entRel (m : RMap α V) (h : Inv m) : m.Pairwise entRel := by
  obtain ⟨hwf, hch⟩ := h
  induction m with
  | nil => exact List.Pairwise.nil
  | cons a t ih =>
    have hch' := List.chain'_cons'.1 hch
    have hwf' : ∀ e ∈ t, e.1 < e.2.1 :=
      fun e he => hwf e (List.mem_cons_of_mem a he)
    have hp_t : t.Pairwise entRel := ih hwf' hch'.2
    refine List.Pairwise.cons ?_ hp_t
    intro b hb
    match t, hb with
    | b0 :: t', hb =>
      have hab0 : entRel a b0 := by
        have hpk := hch'.1 b0 rfl
        exact ⟨hpk.1, lt_of_lt_of_le (hwf a (List.mem_cons_self a _)) hpk.1,
          hwf' b0 (List.mem_cons_self b0 t'), hpk.2⟩
      rcases List.mem_cons.1 hb with rfl | hb
      · exact hab0
      · exact entRel_trans hab0 (List.rel_of_pairwise_cons hp_t hb)

omit [DecidableEq V] in
/-- Strict key sorting, from the invariant. -/
theorem inv_pairwise_keys (m : RMap α V) (h : Inv m) :
    m.Pairwise fun a b => a.1 < b.1 :=
  (inv_pairwise_entRel m h).imp (fun hr => hr.2.1)

omit [DecidableEq V] in
/-- No two entries of an invariant-satisfying map are fusable, even
non-adjacent ones (disjointness forces a strict gap across intermediate
entries). -/
theorem inv_pairwise_nofuse (m : RMap α V) (h : Inv m) :
    m.Pairwise fun a b => ¬(a.2.1 = b.1 ∧ a.2.2 = b.2.2) :=
  (inv_pairwise_entRel m h).imp (fun hr hc => hr.2.2.2 hc.1 hc.2)

/-! ### Machinery: `coalesce_in_range` fixes an already-coalesced window -/

/-- The cursor loop finds nothing to do along a fuse-free chain. -/
theorem coalescePass_nofuse_aux (I : RMap α V) :
    ∀ s e : α, ∀ v : V,
      ((s, e, v) :: I).Chain' (fun a b => ¬(a.2.1 = b.1 ∧ a.2.2 = b.2.2)) →
      coalescePass I (some (s, e, v, 1)) = ([], []) := by
  induction I with
  | nil => intro s e v _; rfl
  | cons x rest ih =>
    intro s e v h
    obtain ⟨x1, x2, x3⟩ := x
    have hpair : ¬(e = x1 ∧ v = x3) := (List.chain'_cons.1 h).1
    have htail := (List.chain'_cons.1 h).2
    by_cases hx : x1 = e
    · have hv : ¬ x3 = v := fun hv => hpair ⟨hx.symm, hv.symm⟩
      simp only [coalescePass, if_pos hx, coalesce, if_neg hv]
      rw [ih x1 x2 x3 htail]
      rfl
    · simp only [coalescePass, if_neg hx]
      rw [ih x1 x2 x3 htail]
      rfl

/-- The cursor loop of `coalesce_in_range` finds nothing to do on a
fuse-free item list. -/
theorem coalescePass_nofuse (I : RMap α V)
    (h : I.Chain' fun a b => ¬(a.2.1 = b.1 ∧ a.2.2 = b.2.2)) :
    coalescePass I none = ([], []) := by
  match I with
  | [] => rfl
  | (s, e, v) :: rest =>
    simp only [coalescePass]
    exact coalescePass_nofuse_aux rest s e v h

/-- `coalesce_in_range` is the identity when its pass finds nothing. -/
theorem coalesce_in_range_of_pass_nil (m : RMap α V) (lo hi : α)
    (h : coalescePass (range_biinclusive m lo hi) none = ([], [])) :
    coalesce_in_range m lo hi = m := by
  unfold coalesce_in_range
  rw [h]
  rfl

omit [DecidableEq V] in
/-- The biinclusive window is a sublist of a key-sorted map. -/
theorem biinclusive_sublist (m : RMap α V) (lo hi : α)
    (hs : m.Pairwise fun a b => a.1 < b.1) :
    (range_biinclusive m lo hi).Sublist m := by
  obtain ⟨X, Y, rfl, hX, hY⟩ := split_at_key m lo hs
  unfold range_biinclusive
  rw [btFindPred_eq_of_split X Y lo hX hY]
  have hfilter : ∀ l : RMap α V,
      (l.filter fun e => decide (lo ≤ e.1) && decide (e.1 ≤ hi)).Sublist l :=
    fun l => List.filter_sublist l
  have hXfilter :
      (X.filter fun e => decide (lo ≤ e.1) && decide (e.1 ≤ hi)) = [] :=
    List.filter_eq_nil_iff.mpr (fun a ha => by
      simp only [Bool.and_eq_true, decide_eq_true_eq, not_and]
      intro hc
      exact absurd hc (not_le.2 (hX a ha)))
  rw [List.filter_append, hXfilter, List.nil_append]
  refine List.Sublist.append ?_ (hfilter Y)
  cases hX0 : X.getLast? with
  | none => exact List.nil_sublist X
  | some a =>
    obtain ⟨s, e, v⟩ := a
    have hmem : (s, e, v) ∈ X := by
      obtain ⟨h9, h10⟩ := List.mem_getLast?_eq_getLast hX0
      rw [h10]
      exact List.getLast_mem h9
    show ((if lo ≤ e then [(s, e, v)] else []) : RMap α V).Sublist X
    by_cases hle : lo ≤ e
    · rw [if_pos hle]
      exact List.singleton_sublist.mpr hmem
    · rw [if_neg hle]
      exact List.nil_sublist X

/-- On an invariant-satisfying map, `coalesce_in_range` is the identity:
every adjacent pair is already fuse-free. -/
theorem coalesce_in_range_of_inv (m : RMap α V) (lo hi : α) (h : Inv m) :
    coalesce_in_range m lo hi = m := by
  refine coalesce_in_range_of_pass_nil m lo hi (coalescePass_nofuse _ ?_)
  exact ((inv_pairwise_nofuse m h).sublist
    (biinclusive_sublist m lo hi (inv_pairwise_keys m h))).chain'

/-! ### Machinery: stage lemmas for the `insert_with` pipeline -/

omit [DecidableEq V] in
theorem updApply_nil (m : RMap α V) : updApply m [] = m := rfl

omit [DecidableEq V] in
theorem remApply_nil (m : RMap α V) : remApply m [] = m := rfl

omit [DecidableEq V] in
theorem remApply_one (m : RMap α V) (s : α) : remApply m [s] = btRemove m s := rfl

omit [DecidableEq V] in
theorem insApply_nil (m : RMap α V) : insApply m [] = m := rfl

omit [DecidableEq V] in
theorem insApply_one (m : RMap α V) (e : α × α × V) :
    insApply m [e] = btInsert m e.1 (e.2.1, e.2.2) := rfl

theorem leftBlock_none (m : RMap α V) (rs re : α) (value : V)
    (mg : V → V → V) (h : btFindPred m rs = none) :
    leftBlock m rs re value mg = (m, [], rs) := by
  rw [leftBlock, h]

theorem leftBlock_far (m : RMap α V) (rs re : α) (value : V) (mg : V → V → V)
    (s e : α) (v : V) (h : btFindPred m rs = some (s, e, v)) (he : e < rs) :
    leftBlock m rs re value mg = (m, [], rs) := by
  rw [leftBlock, h]
  simp only [if_neg (ne_of_gt he), if_neg (not_lt.2 (le_of_lt he))]

theorem leftBlock_touch_ne (m : RMap α V) (rs re : α) (value : V)
    (mg : V → V → V) (s e : α) (v : V) (h : btFindPred m rs = some (s, e, v))
    (he : rs = e) (hv : ¬ v = value) :
    leftBlock m rs re value mg = (m, [], rs) := by
  rw [leftBlock, h]
  simp only [if_pos he, coalesce, if_neg hv]

theorem leftBlock_touch_eq (m : RMap α V) (rs re : α) (value : V)
    (mg : V → V → V) (s e : α) (v : V) (h : btFindPred m rs = some (s, e, v))
    (he : rs = e) (hv : v = value) :
    leftBlock m rs re value mg = (setEntry m s (e, v), [], s) := by
  rw [leftBlock, h]
  simp only [if_pos he, coalesce, if_pos hv]

theorem leftBlock_straddle_eq (m : RMap α V) (rs re : α) (value : V)
    (mg : V → V → V) (s e : α) (v : V) (h : btFindPred m rs = some (s, e, v))
    (hne : ¬ rs = e) (he : rs < e) (hv : v = value) :
    leftBlock m rs re value mg = (setEntry m s (e, v), [], s) := by
  rw [leftBlock, h]
  simp only [if_neg hne, if_pos he, coalesce, if_pos hv]

theorem leftBlock_straddle_ne (m : RMap α V) (rs re : α) (value : V)
    (mg : V → V → V) (s e : α) (v : V) (h : btFindPred m rs = some (s, e, v))
    (hne : ¬ rs = e) (he : rs < e) (hv : ¬ v = value) :
    leftBlock m rs re value mg =
      (setEntry m s (rs, v),
       (if re < e then [(re, e, v)] else []) ++ [(rs, min e re, mg v value)],
       min e re) := by
  rw [leftBlock, h]
  simp only [if_neg hne, if_pos he, coalesce, if_neg hv]

theorem Ref.le_def (a b : Ref) :
    a ≤ b ↔ (a.chapter < b.chapter ∨ (a.chapter = b.chapter ∧ a.verse ≤ b.verse)) :=
  Iff.rfl

theorem ref_lt_next (r : Ref) : r < Ref.mk r.chapter (r.verse + 1) := by
  rw [lt_iff_le_not_le, Ref.le_def, Ref.le_def]
  simp

theorem getLast?_decomp {β : Type} (X : List β) (a : β) (h : X.getLast? = some a) :
    ∃ X₀, X = X₀ ++ [a] :=
  ⟨X.dropLast, (List.dropLast_append_getLast? a h).symm⟩

omit [DecidableEq V] in
theorem setEntry_eq_self (A B : RMap α V) (s e : α) (v : V)
    (hA : ∀ x ∈ A, x.1 ≠ s) (hB : ∀ x ∈ B, x.1 ≠ s) :
    setEntry (A ++ (s, e, v) :: B) s (e, v) = A ++ (s, e, v) :: B := by
  rw [setEntry_append, setEntry_of_ne A s (e, v) hA]
  rw [setEntry_cons_of_eq (s, e, v) B s (e, v) rfl, setEntry_of_ne B s (e, v) hB]

omit [DecidableEq V] in
theorem btInsert_eq_self (A B : RMap α V) (s e : α) (v : V)
    (hA : ∀ x ∈ A, x.1 < s) :
    btInsert (A ++ (s, e, v) :: B) s (e, v) = A ++ (s, e, v) :: B := by
  rw [btInsert_append_of_lt A _ s (e, v) hA, btInsert_cons_of_eq _ _ _ _ rfl]

/-! ### Concrete scenario data used by several claims -/

/-- The end-to-end scenario of claim C6: starting from an empty book map,
`mark_read` of verses `(1, 1)`, `(1, 2)`, `(1, 3)` on each of the three
successive days `100`, `101`, `102`. -/
def c6Scenario : RMap Ref ReadingRecord :=
  let day (m : RMap Ref ReadingRecord) (d : ℕ) : RMap Ref ReadingRecord :=
    mark_read (mark_read (mark_read m ⟨1, 1⟩ d) ⟨1, 2⟩ d) ⟨1, 3⟩ d
  day (day (day [] 100) 101) 102

/-- The book map reached by marking verses `(1, 1)`, `(1, 2)`, `(1, 3)` as
read on day `100`: a single stored interval `[(1,1), (1,4))` carrying
`{ read_count := 1, last_read := 100 }`. -/
def oneDayMap : RMap Ref ReadingRecord :=
  mark_read (mark_read (mark_read [] ⟨1, 1⟩ 100) ⟨1, 2⟩ 100) ⟨1, 3⟩ 100

/-! ### Claim C2 (code bug: contained equal-valued insert truncates) -/

/-- C2: evaluation at the failing input.  The module documentation of
`RangeMap` promises that an overlapping insert merges values on the
intersection of the overlapping ranges; instead, inserting `(2..5, "A")`
into a map holding `(0..10, "A")` silently drops the stored sub-range
`[5, 10)`: the result is `[(0, 5, "A")]`, not the union `[(0, 10, "A")]`
required by the claim. -/
theorem c2_bug_eval :
    insert_replace (insert_replace ([] : RMap ℕ ℕ) 0 10 0) 2 5 0 =
      [(0, 5, 0)] ∧
    insert_replace (insert_replace ([] : RMap ℕ ℕ) 0 10 0) 2 5 0 ≠
      [(0, 10, 0)] := by decide

/-! ### Claim C3 (code bug: `set_read_count` inserts a zero-width range) -/

/-- C3: evaluation at the failing input.  `set_read_count` passes the
interval `reference..reference` to `insert_replace`; on a fresh book the
call stores nothing at all, so querying the verse afterwards yields no
record instead of the claimed `{ read_count := 5, last_read := 7 }`. -/
theorem c3_bug_eval :
    set_read_count ([] : ReadingProgress) "John" ⟨1, 1⟩ 5 (some 7) 9 =
      [("John", [])] ∧
    (lookupBook (set_read_count ([] : ReadingProgress) "John" ⟨1, 1⟩ 5
        (some 7) 9) "John").map (fun m => valueAt m ⟨1, 1⟩) =
      some none := by decide

/-! ### Claim C6 (corrected: the chapter colour is white, not green) -/

set_option maxRecDepth 40000

/-- C6 counterexample: in the three-day scenario the chapter colour computed
by `determine_chapter_color` relative to `book_min = 0` is not green — the
chapter minimum (0) equals the book minimum (0), which is the white case. -/
theorem c6_counterexample :
    determine_chapter_color 0 0 (get_verse_read_counts 1 51 c6Scenario) 51 ≠
      TuiColor.green := by decide

/-- C6 (amended): the three-day scenario produces the single stored interval
`[(1,1), (1,4))` with `read_count = 3` and `last_read` = day 3; the chapter
statistics for John 1 with `max_verse = 51` are `(min, more, total) =
(0, 3, 51)`; and the chapter colour relative to `book_min = 0` is white
(not green), because the chapter minimum equals the book minimum. -/
theorem c6_theorem :
    c6Scenario = [(⟨1, 1⟩, ⟨1, 4⟩, ⟨3, 102⟩)] ∧
    calculate_chapter_read_stats 1 51 (some c6Scenario) = (0, 3, 51) ∧
    determine_chapter_color 0 0 (get_verse_read_counts 1 51 c6Scenario) 51 =
      TuiColor.white := by decide

/-! ### Claim C9 (relative-date formatting) -/

/-- C9: for a date `n` days before today, `format_last_read_date` returns
"today" for `n = 0`, "yesterday" for `n = 1`, "`n` days ago" for
`2 ≤ n ≤ 7`, "last week" for `8 ≤ n ≤ 14`, "`n/7` week(s) ago" (integer
division, singular for quotient 1) for `15 ≤ n ≤ 30`, "`n/30` month(s) ago"
(singular for quotient 1) for `31 ≤ n ≤ 60`, and the ISO date otherwise. -/
theorem c9_theorem (n : ℕ) (iso : String) :
    format_last_read_date (n : ℤ) iso =
      (if n = 0 then "today"
       else if n = 1 then "yesterday"
       else if n ≤ 7 then toString n ++ " days ago"
       else if n ≤ 14 then "last week"
       else if n ≤ 30 then
         (if n / 7 = 1 then "1 week ago" else toString (n / 7) ++ " weeks ago")
       else if n ≤ 60 then
         (if n / 30 = 1 then "1 month ago"
          else toString (n / 30) ++ " months ago")
       else iso) := by
  rcases le_or_lt n 60 with h | h
  · interval_cases n <;> rfl
  · have h6 : ¬ (n : ℤ) = 0 := by omega
    have h7 : ¬ (n : ℤ) = 1 := by omega
    have h8 : ¬ ((2 : ℤ) ≤ (n : ℤ) ∧ (n : ℤ) ≤ 7) := by omega
    have h9 : ¬ ((8 : ℤ) ≤ (n : ℤ) ∧ (n : ℤ) ≤ 14) := by omega
    have h10 : ¬ ((15 : ℤ) ≤ (n : ℤ) ∧ (n : ℤ) ≤ 30) := by omega
    have h11 : ¬ ((31 : ℤ) ≤ (n : ℤ) ∧ (n : ℤ) ≤ 60) := by omega
    rw [format_last_read_date, if_neg h6, if_neg h7, if_neg h8, if_neg h9,
      if_neg h10, if_neg h11, if_neg (by omega : ¬ n = 0),
      if_neg (by omega : ¬ n = 1), if_neg (by omega : ¬ n ≤ 7),
      if_neg (by omega : ¬ n ≤ 14), if_neg (by omega : ¬ n ≤ 30),
      if_neg (by omega : ¬ n ≤ 60)]

/-! ### Claim C5 (corrected: the merged value appears only when v1 ≠ v2) -/

/-- C5 (amended): starting from an empty map, `insert_with(r, v1, merge)`
followed by `insert_with(r, v2, merge)` over the same non-empty range and a
commutative merge yields `merge(v1, v2)` at every point of `r` when
`v1 ≠ v2`; when `v1 = v2` the second insert is absorbed by coalescing of
equal values (the merge function is never invoked) and the value at every
point of `r` remains `v1`. -/
theorem c5_theorem (rs re : α) (v1 v2 : V) (mg : V → V → V)
    (_hcomm : ∀ a b, mg a b = mg b a) (h : rs < re) (p : α) (hp1 : rs ≤ p)
    (hp2 : p < re) :
    valueAt (insert_with (insert_with ([] : RMap α V) rs re v1 mg)
        rs re v2 mg) p =
      some (if v1 = v2 then v1 else mg v1 v2) := by
  rw [insert_with_nil rs re v1 mg h, insert_with_single_same rs re v1 v2 mg h]
  by_cases h12 : v1 = v2
  · rw [if_pos h12, if_pos h12, valueAt_single rs re v1 p hp1 hp2]
  · rw [if_neg h12, if_neg h12, valueAt_single rs re (mg v1 v2) p hp1 hp2]

/-- C5 witness: concrete instance with the commutative merge `(+)` on ℕ and
distinct values 1 and 2 at the point 0 of the range `0..2`. -/
theorem c5_witness :
    valueAt (insert_with (insert_with ([] : RMap ℕ ℕ) 0 2 1
        (fun a b => a + b)) 0 2 2 (fun a b => a + b)) 0 =
      some (if (1 : ℕ) = 2 then 1 else 1 + 2) :=
  c5_theorem 0 2 1 2 (fun a b => a + b) Nat.add_comm (by decide) 0
    (by decide) (by decide)

/-! ### Claim C7 (corrected: books without records are skipped) -/

/-- C7 (amended): the testament minimum is the minimum of
`verse_count` over every verse of every chapter of those books of the
testament that have a records map — books with no records are skipped
entirely, contributing no zeros — and it is `0` when no such verse exists.
The first conjunct characterises the collected multiset of verse counts,
the remaining conjuncts state that the result is `0` exactly on the empty
collection and otherwise is a member of and a lower bound for it. -/
theorem c7_theorem (t : List (String × List ℕ)) (p : ReadingProgress) :
    (∀ c, c ∈ testament_all_verse_read_counts t p ↔
      ∃ bk ∈ t, ∃ rm, lookupBook p bk.1 = some rm ∧
        ∃ i mv, bk.2[i]? = some mv ∧ ∃ v, 1 ≤ v ∧ v ≤ mv ∧
          c = get_verse_read_counts (i + 1) mv rm v) ∧
    (testament_all_verse_read_counts t p = [] →
      calculate_testament_min_read_count t p = 0) ∧
    (∀ c ∈ testament_all_verse_read_counts t p,
      calculate_testament_min_read_count t p ≤ c) ∧
    (testament_all_verse_read_counts t p ≠ [] →
      calculate_testament_min_read_count t p ∈
        testament_all_verse_read_counts t p) := by
  refine ⟨fun c => ?_, fun h => ?_, fun c hc => ?_, fun h => ?_⟩
  · constructor
    · intro hc
      rw [testament_all_verse_read_counts, List.mem_flatMap] at hc
      obtain ⟨bk, hbk, hc⟩ := hc
      cases hlk : lookupBook p bk.1 with
      | none => rw [hlk] at hc; simp at hc
      | some rm =>
        rw [hlk, List.mem_flatMap] at hc
        obtain ⟨⟨i, mv⟩, him, hc⟩ := hc
        rw [List.mem_map] at hc
        obtain ⟨v, hv, hc⟩ := hc
        rw [List.mem_range'_1] at hv
        refine ⟨bk, hbk, rm, hlk, i, mv, ?_, v, hv.1, by omega, hc.symm⟩
        have := List.mk_mem_enum_iff_getElem?.1 him
        exact this
    · rintro ⟨bk, hbk, rm, hlk, i, mv, hi, v, hv1, hv2, rfl⟩
      rw [testament_all_verse_read_counts, List.mem_flatMap]
      refine ⟨bk, hbk, ?_⟩
      rw [hlk, List.mem_flatMap]
      refine ⟨(i, mv), List.mk_mem_enum_iff_getElem?.2 hi, ?_⟩
      rw [List.mem_map]
      exact ⟨v, List.mem_range'_1.2 ⟨hv1, by omega⟩, rfl⟩
  · rw [calculate_testament_min_read_count, h]
    rfl
  · rw [calculate_testament_min_read_count]
    have hne : testament_all_verse_read_counts t p ≠ [] :=
      fun h' => by rw [h'] at hc; exact absurd hc (List.not_mem_nil c)
    rw [if_neg (by simpa [List.isEmpty_iff] using hne)]
    exact (listMin_spec _ hne).2 c hc
  · rw [calculate_testament_min_read_count]
    rw [if_neg (by simpa [List.isEmpty_iff] using h)]
    exact (listMin_spec _ h).1

/-- C7 witness: the two-book testament of the counterexample — the theorem
instantiated there bounds the result by book A's single verse count. -/
theorem c7_witness :
    calculate_testament_min_read_count [("A", [1]), ("B", [1])]
        [("A", [(⟨1, 1⟩, ⟨1, 2⟩, ⟨2, 50⟩)])] ≤
      get_verse_read_counts 1 1 [(⟨1, 1⟩, ⟨1, 2⟩, ⟨2, 50⟩)] 1 :=
  (c7_theorem [("A", [1]), ("B", [1])]
    [("A", [(⟨1, 1⟩, ⟨1, 2⟩, ⟨2, 50⟩)])]).2.2.1 _ (by decide)

/-! ### Claim C8 (corrected: fully unread chapters report (0, 0, max_verse)) -/

/-- C8 (amended): for a chapter all of whose per-verse read counts are zero,
`calculate_chapter_read_stats` returns `(0, 0, 0)` when the book has no
records map at all (or the chapter has no verses), and `(0, 0, max_verse)`
when a records map exists (even one covering only other chapters): the
total component is always `max_verse` once a records map is present and the
chapter is non-empty. -/
theorem c8_theorem (chapter max_verse : ℕ) (records : RMap Ref ReadingRecord)
    (h : ∀ v ∈ List.range' 1 max_verse,
      get_verse_read_counts chapter max_verse records v = 0) :
    calculate_chapter_read_stats chapter max_verse none = (0, 0, 0) ∧
    calculate_chapter_read_stats chapter max_verse (some records) =
      (if max_verse = 0 then (0, 0, 0) else (0, 0, max_verse)) := by
  refine ⟨rfl, ?_⟩
  by_cases h0 : max_verse = 0
  · subst h0
    simp [calculate_chapter_read_stats]
  · rw [if_neg h0]
    have hne : List.range' 1 max_verse ≠ [] := by
      cases hmv : max_verse with
      | zero => exact absurd hmv h0
      | succ k => simp [List.range'_succ]
    have hmin : (List.range' 1 max_verse).foldl
        (fun acc v => if get_verse_read_counts chapter max_verse records v
          < acc then get_verse_read_counts chapter max_verse records v
          else acc) U32MAX = 0 :=
      foldl_min_all_zero _ _ _ h (by simp [U32MAX]) hne
    have hcnt : (List.range' 1 max_verse).foldl
        (fun acc v => if 0 < get_verse_read_counts chapter max_verse records v
          then acc + 1 else acc) 0 = 0 :=
      foldl_count_zero _ _ h 0
    simp only [calculate_chapter_read_stats, hmin, hcnt]
    rw [if_neg (by simp [U32MAX])]

/-- C8 witness: the chapter-2-only records of the counterexample satisfy the
all-zero hypothesis for chapter 1, and the stats are `(0, 0, 3)`. -/
theorem c8_witness :
    calculate_chapter_read_stats 1 3
        (some [(⟨2, 1⟩, ⟨2, 2⟩, ⟨1, 50⟩)]) =
      (if (3 : ℕ) = 0 then (0, 0, 0) else (0, 0, 3)) :=
  (c8_theorem 1 3 [(⟨2, 1⟩, ⟨2, 2⟩, ⟨1, 50⟩)] (by decide)).2

/-! ### Claim C10 (corrected: unchanged only when the entry ends at verse+1) -/

/-- C10 (amended): if the stored entry covering a verse carries exactly the
fresh record `{ read_count := 1, last_read := today }` and ends exactly at
`(chapter, verse + 1)`, then a second `mark_read` of that verse on the same
day leaves the book's RangeMap completely unchanged: the equal value is
absorbed by coalescing and the additive merge function is never invoked.
(Without the condition on the entry's end the map is not left unchanged:
an entry extending beyond the verse is truncated, see the counterexample.) -/
theorem c10_theorem (m : RMap Ref ReadingRecord) (r : Ref) (today : ℕ)
    (hInv : Inv m) (s : Ref)
    (hmem : (s, Ref.mk r.chapter (r.verse + 1), freshRecord today) ∈ m)
    (hcov : s ≤ r) :
    mark_read m r today = m := by
  obtain ⟨A, B, rfl⟩ := List.append_of_mem hmem
  have hpw := inv_pairwise_entRel _ hInv
  rw [List.pairwise_append] at hpw
  have hAE : ∀ a ∈ A, entRel a (s, Ref.mk r.chapter (r.verse + 1), freshRecord today) :=
    fun a ha => hpw.2.2 a ha _ (List.mem_cons_self _ _)
  have hEB : ∀ b ∈ B, entRel (s, Ref.mk r.chapter (r.verse + 1), freshRecord today) b :=
    fun b hb => List.rel_of_pairwise_cons hpw.2.1 hb
  have hrnx : r < Ref.mk r.chapter (r.verse + 1) := ref_lt_next r
  rcases lt_or_eq_of_le hcov with hsr | hsr
  · -- s < r : the covering entry straddles the verse from the left
    have hAk : ∀ a ∈ A, a.1 < s := fun a ha => (hAE a ha).2.1
    have hfp : btFindPred (A ++ (s, Ref.mk r.chapter (r.verse + 1), freshRecord today) :: B) r =
        some (s, Ref.mk r.chapter (r.verse + 1), freshRecord today) := by
      have := btFindPred_eq_of_split
        (A ++ [(s, Ref.mk r.chapter (r.verse + 1), freshRecord today)]) B r
        (by
          intro x hx
          rcases List.mem_append.1 hx with hx | hx
          · exact lt_trans (hAk x hx) hsr
          · simp at hx
            subst hx
            exact hsr)
        (fun b hb => le_of_lt (lt_of_lt_of_le hrnx ((hEB b hb).1)))
      rw [List.append_assoc, List.singleton_append] at this
      rw [this, List.getLast?_concat]
    have hleft := leftBlock_straddle_eq _ r (Ref.mk r.chapter (r.verse + 1))
      (freshRecord today) markReadMerge s (Ref.mk r.chapter (r.verse + 1))
      (freshRecord today) hfp (ne_of_lt hrnx) hrnx rfl
    have hset : setEntry
        (A ++ (s, Ref.mk r.chapter (r.verse + 1), freshRecord today) :: B) s
        (Ref.mk r.chapter (r.verse + 1), freshRecord today) =
        A ++ (s, Ref.mk r.chapter (r.verse + 1), freshRecord today) :: B :=
      setEntry_eq_self A B s _ _ (fun x hx => ne_of_lt (hAk x hx))
        (fun b hb => ne_of_gt (hEB b hb).2.1)
    rw [hset] at hleft
    have hbet : between
        (A ++ (s, Ref.mk r.chapter (r.verse + 1), freshRecord today) :: B) r
        (Ref.mk r.chapter (r.verse + 1)) = [] := by
      have := between_eq_of_split
        (A ++ [(s, Ref.mk r.chapter (r.verse + 1), freshRecord today)]) [] B
        r (Ref.mk r.chapter (r.verse + 1))
        (by
          intro x hx
          rcases List.mem_append.1 hx with hx | hx
          · exact lt_trans (hAk x hx) hsr
          · simp at hx
            subst hx
            exact hsr)
        (by simp)
        (fun b hb => (hEB b hb).1)
      rw [List.append_nil, List.append_assoc, List.singleton_append] at this
      exact this
    rw [mark_read]
    simp only [insert_with, hleft, hbet, sweep]
    rw [updApply_nil, remApply_nil, if_pos (lt_trans hsr hrnx)]
    simp only [List.nil_append]
    rw [insApply_one, btInsert_eq_self A B s _ _ hAk]
    exact coalesce_in_range_of_inv _ _ _ hInv
  · -- s = r : the covering entry is exactly the single-verse interval
    subst hsr
    have hAk : ∀ a ∈ A, a.1 < s := fun a ha => (hAE a ha).2.1
    have hfp : btFindPred (A ++ (s, Ref.mk s.chapter (s.verse + 1), freshRecord today) :: B) s =
        A.getLast? := by
      refine btFindPred_eq_of_split A _ s hAk ?_
      intro y hy
      rcases List.mem_cons.1 hy with rfl | hy
      · exact le_refl s
      · exact le_of_lt (hEB y hy).2.1
    have hleft : leftBlock
        (A ++ (s, Ref.mk s.chapter (s.verse + 1), freshRecord today) :: B) s
        (Ref.mk s.chapter (s.verse + 1)) (freshRecord today) markReadMerge =
        (A ++ (s, Ref.mk s.chapter (s.verse + 1), freshRecord today) :: B, [], s) := by
      cases hA0 : A.getLast? with
      | none => exact leftBlock_none _ _ _ _ _ (hfp.trans hA0)
      | some la =>
        obtain ⟨ls, le, lv⟩ := la
        have hlmem : (ls, le, lv) ∈ A := by
          obtain ⟨h9, h10⟩ := List.mem_getLast?_eq_getLast hA0
          rw [h10]
          exact List.getLast_mem h9
        have hrel := hAE _ hlmem
        by_cases hle : s = le
        · exact leftBlock_touch_ne _ _ _ _ _ _ _ _ (hfp.trans hA0) hle
            (hrel.2.2.2 hle.symm)
        · have hlt : le < s := lt_of_le_of_ne hrel.1 (fun hc => hle hc.symm)
          exact leftBlock_far _ _ _ _ _ _ _ _ (hfp.trans hA0) hlt
    have hbet : between
        (A ++ (s, Ref.mk s.chapter (s.verse + 1), freshRecord today) :: B) s
        (Ref.mk s.chapter (s.verse + 1)) =
        [(s, Ref.mk s.chapter (s.verse + 1), freshRecord today)] := by
      have := between_eq_of_split A
        [(s, Ref.mk s.chapter (s.verse + 1), freshRecord today)] B s
        (Ref.mk s.chapter (s.verse + 1)) hAk
        (by
          intro y hy
          simp at hy
          subst hy
          exact ⟨le_refl s, hrnx⟩)
        (fun b hb => (hEB b hb).1)
      rw [List.append_assoc, List.singleton_append] at this
      exact this
    have hsweep : sweep (freshRecord today) (Ref.mk s.chapter (s.verse + 1))
        markReadMerge
        [(s, Ref.mk s.chapter (s.verse + 1), freshRecord today)] s
        (freshRecord today) =
        ⟨[], [], [s], s, freshRecord today⟩ := by
      simp [sweep, coalesce]
    rw [mark_read]
    simp only [insert_with, hleft, hbet, hsweep]
    rw [updApply_nil, remApply_one, if_pos hrnx]
    simp only [List.nil_append]
    have hrem : btRemove
        (A ++ (s, Ref.mk s.chapter (s.verse + 1), freshRecord today) :: B) s =
        A ++ B := by
      rw [btRemove_append, btRemove_of_ne A s (fun x hx => ne_of_lt (hAk x hx)),
        btRemove_cons_of_eq _ _ _ rfl,
        btRemove_of_ne B s (fun b hb => ne_of_gt (hEB b hb).2.1)]
    rw [hrem, insApply_one]
    have hins : btInsert (A ++ B) s
        (Ref.mk s.chapter (s.verse + 1), freshRecord today) =
        A ++ (s, Ref.mk s.chapter (s.verse + 1), freshRecord today) :: B := by
      rw [btInsert_append_of_lt A B s _ hAk]
      cases B with
      | nil => rfl
      | cons b B' =>
        rw [btInsert_cons_of_lt b B' s _ (hEB b (List.mem_cons_self b B')).2.1]
    rw [hins]
    exact coalesce_in_range_of_inv _ _ _ hInv

/-- C10 witness: a single-verse entry holding the fresh record of day 5 is
untouched by a second `mark_read` on day 5. -/
theorem c10_witness :
    mark_read [(⟨1, 1⟩, ⟨1, 2⟩, ⟨1, 5⟩)] ⟨1, 1⟩ 5 =
      [(⟨1, 1⟩, ⟨1, 2⟩, ⟨1, 5⟩)] :=
  c10_theorem _ ⟨1, 1⟩ 5 (by decide) ⟨1, 1⟩ (by decide) (by decide)

omit [DecidableEq V] in
theorem filter_window_self_nil (m : RMap α V) (c : α) :
    (m.filter fun e => decide (c ≤ e.1) && decide (e.1 < c)) = [] :=
  List.filter_eq_nil_iff.mpr (fun a _ => by
    simp only [Bool.and_eq_true, decide_eq_true_eq, not_and]
    intro h1
    exact not_lt.2 h1)

/-! ### Claim C4 (corrected: zero-width operations are no-ops only away from
the interior of stored ranges) -/

/-- C4 (amended): on an invariant-satisfying map, a zero-width range at a
point `p` that does not lie strictly inside any stored range is harmless:
`range(p..p)` returns no entries and `insert_with(p..p, v, merge)` leaves
the stored entries completely unchanged.  (When some stored range strictly
contains `p` this fails: the query returns that entry and the insert
truncates it — see the counterexample.  Inverted ranges are not modelled:
`BTreeMap::range` panics when `start > end`, so those calls are not total
either.) -/
theorem c4_theorem (m : RMap α V) (p : α) (v : V) (mg : V → V → V)
    (hInv : Inv m) (h : ∀ e ∈ m, ¬(e.1 < p ∧ p < e.2.1)) :
    rangeQuery m p p = [] ∧ insert_with m p p v mg = m := by
  have hpw := inv_pairwise_entRel m hInv
  have hkeys : m.Pairwise (fun a b => a.1 < b.1) := inv_pairwise_keys m hInv
  obtain ⟨X, Y, rfl, hX, hY⟩ := split_at_key m p hkeys
  have hfp : btFindPred (X ++ Y) p = X.getLast? :=
    btFindPred_eq_of_split X Y p hX hY
  constructor
  · -- the zero-width query returns nothing
    rw [rangeQuery, hfp, filter_window_self_nil]
    cases hX0 : X.getLast? with
    | none => rfl
    | some la =>
      obtain ⟨ls, le, lv⟩ := la
      have hlmem : (ls, le, lv) ∈ X := by
        obtain ⟨h9, h10⟩ := List.mem_getLast?_eq_getLast hX0
        rw [h10]; exact List.getLast_mem h9
      have hle : ¬ p < le :=
        fun hc => h _ (List.mem_append.2 (Or.inl hlmem)) ⟨hX _ hlmem, hc⟩
      simp only [if_neg hle, List.nil_append]
  · -- the zero-width insert leaves the map unchanged
    have hid : ∀ hleft : leftBlock (X ++ Y) p p v mg = (X ++ Y, [], p),
        insert_with (X ++ Y) p p v mg = X ++ Y := by
      intro hleft
      simp only [insert_with, hleft, between_self, sweep]
      rw [updApply_nil, remApply_nil, if_neg (lt_irrefl p)]
      simp only [List.append_nil, insApply_nil]
      exact coalesce_in_range_of_inv _ _ _ hInv
    cases hX0 : X.getLast? with
    | none => exact hid (leftBlock_none _ _ _ _ _ (hfp.trans hX0))
    | some la =>
      obtain ⟨ls, le, lv⟩ := la
      have hlmem : (ls, le, lv) ∈ X := by
        obtain ⟨h9, h10⟩ := List.mem_getLast?_eq_getLast hX0
        rw [h10]; exact List.getLast_mem h9
      have hls : ls < p := hX _ hlmem
      have hle : ¬ p < le :=
        fun hc => h _ (List.mem_append.2 (Or.inl hlmem)) ⟨hls, hc⟩
      by_cases hpe : p = le
      · by_cases hveq : lv = v
        · -- coalesce succeeds at the touching end; the rewrite is an identity
          obtain ⟨X₀, hX₀⟩ := getLast?_decomp X _ hX0
          subst hX₀
          have hXpw : ∀ x ∈ X₀, entRel x (ls, le, lv) := fun x hx =>
            (List.pairwise_append.1 (List.pairwise_append.1 hpw).1).2.2 x hx _
              (List.mem_cons_self _ _)
          have hYne : ∀ y ∈ Y, y.1 ≠ ls := fun y hy =>
            ne_of_gt (lt_of_lt_of_le hls (hY y hy))
          have hXne : ∀ x ∈ X₀, x.1 ≠ ls := fun x hx =>
            ne_of_lt ((hXpw x hx).2.1)
          have hassoc : X₀ ++ [(ls, le, lv)] ++ Y = X₀ ++ (ls, le, lv) :: Y := by
            simp
          rw [hassoc] at hInv hfp ⊢
          have hfp' : btFindPred (X₀ ++ (ls, le, lv) :: Y) p = some (ls, le, lv) :=
            hfp.trans (List.getLast?_concat _)
          have hleft : leftBlock (X₀ ++ (ls, le, lv) :: Y) p p v mg =
              (X₀ ++ (ls, le, lv) :: Y, [], ls) := by
            have hlb := leftBlock_touch_eq (X₀ ++ (ls, le, lv) :: Y) p p v mg
              ls le lv hfp' hpe hveq
            rw [setEntry_eq_self X₀ Y ls le lv hXne hYne] at hlb
            exact hlb
          simp only [insert_with, hleft, between_self, sweep]
          rw [updApply_nil, remApply_nil, if_pos hls]
          simp only [List.nil_append]
          rw [insApply_one]
          have hbi : btInsert (X₀ ++ (ls, le, lv) :: Y) ls (p, v) =
              X₀ ++ (ls, le, lv) :: Y := by
            rw [hpe, ← hveq]
            exact btInsert_eq_self X₀ Y ls le lv (fun x hx => (hXpw x hx).2.1)
          rw [hbi]
          exact coalesce_in_range_of_inv _ _ _ hInv
        · exact hid (leftBlock_touch_ne _ _ _ _ _ _ _ _ (hfp.trans hX0) hpe hveq)
      · have hlt : le < p := lt_of_le_of_ne (not_lt.1 hle) (fun hc => hpe hc.symm)
        exact hid (leftBlock_far _ _ _ _ _ _ _ _ (hfp.trans hX0) hlt)

/-- C4 witness: a point to the right of the single stored range. -/
theorem c4_witness :
    rangeQuery [(0, 5, 0)] 7 7 = ([] : RMap ℕ ℕ) ∧
    insert_with [(0, 5, 0)] 7 7 1 (fun _ b => b) = [(0, 5, 0)] :=
  c4_theorem [(0, 5, 0)] 7 1 (fun _ b => b) (by decide) (by decide)

/-! ### Counterexamples for the remaining corrected claims -/

/-- C1 counterexample: the two-insert sequence `insert_replace(0..10, "A")`
then `insert_replace(5..5, "B")` on an initially empty map leaves the
stored entry `(5, 5, "B")`, which violates `start < end`; so the claimed
invariants do not survive arbitrary insert sequences (zero-width inserts
break them). -/
theorem c1_counterexample :
    ¬ Inv (insert_replace (insert_replace ([] : RMap ℕ ℕ) 0 10 0) 5 5 1) := by
  decide

/-- C4 counterexample: with `[(0, 10, "A")]` stored, the zero-width insert
`insert_replace(5..5, "B")` changes the stored entries (it truncates
`(0, 10)` to `(0, 5)` and leaves a zero-width `(5, 5, "B")` entry), and the
zero-width query `range(5..5)` returns the straddling entry rather than no
entries. -/
theorem c4_counterexample :
    insert_replace (insert_replace ([] : RMap ℕ ℕ) 0 10 0) 5 5 1 ≠
      insert_replace ([] : RMap ℕ ℕ) 0 10 0 ∧
    rangeQuery (insert_replace ([] : RMap ℕ ℕ) 0 10 0) 5 5 ≠ [] := by decide

/-- C5 counterexample: inserting `(0..2, 1)` twice with the commutative
merge `(+)` leaves the value `1` on the range — the second insert is
absorbed by coalescing of equal values, so the claimed pointwise value
`merge(v1, v2) = 2` is not produced when `v1 = v2`. -/
theorem c5_counterexample :
    valueAt (insert_with (insert_with ([] : RMap ℕ ℕ) 0 2 1
      (fun a b => a + b)) 0 2 1 (fun a b => a + b)) 0 = some 1 ∧
    (1 : ℕ) + 1 ≠ 1 := by decide

/-- C7 counterexample: testament `{A: [1 chapter, 1 verse], B: [1 chapter,
1 verse]}` where book A's only verse has `read_count = 2` and book B has no
records at all.  The claim demands a testament minimum of `0` (book B is
entirely unread), but `calculate_testament_min_read_count` skips recordless
books and returns `2`. -/
theorem c7_counterexample :
    calculate_testament_min_read_count [("A", [1]), ("B", [1])]
      [("A", [(⟨1, 1⟩, ⟨1, 2⟩, ⟨2, 50⟩)])] = 2 ∧
    calculate_testament_min_read_count [("A", [1]), ("B", [1])]
      [("A", [(⟨1, 1⟩, ⟨1, 2⟩, ⟨2, 50⟩)])] ≠ 0 := by decide

/-- C8 counterexample: a book whose records cover only chapter 2, queried
for chapter 1 with `max_verse = 3`.  Every verse count of chapter 1 is zero,
yet `calculate_chapter_read_stats` returns `(0, 0, 3)` — the claimed
`(0, 0, 0)` is returned only when the records map is absent (or the chapter
has no verses). -/
theorem c8_counterexample :
    (List.range' 1 3).map
      (get_verse_read_counts 1 3 [(⟨2, 1⟩, ⟨2, 2⟩, ⟨1, 50⟩)]) = [0, 0, 0] ∧
    calculate_chapter_read_stats 1 3 (some [(⟨2, 1⟩, ⟨2, 2⟩, ⟨1, 50⟩)]) =
      (0, 0, 3) ∧
    calculate_chapter_read_stats 1 3 (some [(⟨2, 1⟩, ⟨2, 2⟩, ⟨1, 50⟩)]) ≠
      (0, 0, 0) := by decide

/-- C10 counterexample: after marking verses `(1,1)..(1,3)` on day 100 the
book map is the single interval `[(1,1), (1,4))` with record
`{ read_count := 1, last_read := 100 }` — equal to the fresh record — yet a
second `mark_read` of verse `(1, 1)` on the same day does not leave the map
unchanged: the stored interval is truncated to `[(1,1), (1,2))`, dropping
verses 2 and 3. -/
theorem c10_counterexample :
    valueAt oneDayMap ⟨1, 1⟩ = some (freshRecord 100) ∧
    mark_read oneDayMap ⟨1, 1⟩ 100 ≠ oneDayMap ∧
    mark_read oneDayMap ⟨1, 1⟩ 100 = [(⟨1, 1⟩, ⟨1, 2⟩, ⟨1, 100⟩)] := by
  decide

end RQ

namespace RQ

variable {α : Type} [LinearOrder α] {V : Type} [DecidableEq V]

/-- The cumulative effect of the sweep's in-place updates on one entry. -/
def applyUpds (us : List (α × α × V)) (e : α × α × V) : α × α × V :=
  us.foldl (fun e u => if e.1 = u.1 then (u.1, u.2.1, u.2.2) else e) e

omit [DecidableEq V] in
theorem applyUpds_key (us : List (α × α × V)) (e : α × α × V) :
    (applyUpds us e).1 = e.1 := by
  induction us generalizing e with
  | nil => rfl
  | cons u us ih =>
    simp only [applyUpds, List.foldl_cons]
    by_cases h : e.1 = u.1
    · rw [if_pos h]
      have := ih (u.1, u.2.1, u.2.2)
      simp only [applyUpds] at this
      rw [this, h]
    · rw [if_neg h]
      exact ih e

omit [DecidableEq V] in
theorem applyUpds_ne (us : List (α × α × V)) (e : α × α × V)
    (h : ∀ u ∈ us, e.1 ≠ u.1) : applyUpds us e = e := by
  induction us with
  | nil => rfl
  | cons u us ih =>
    simp only [applyUpds, List.foldl_cons,
      if_neg (h u (List.mem_cons_self u us))]
    exact ih (fun x hx => h x (List.mem_cons_of_mem u hx))

omit [DecidableEq V] in
theorem updApply_eq_map (m : RMap α V) (us : List (α × α × V)) :
    updApply m us = m.map (applyUpds us) := by
  induction us generalizing m with
  | nil => exact (List.map_id m).symm
  | cons u us ih =>
    simp only [updApply, List.foldl_cons]
    have h2 := ih (setEntry m u.1 (u.2.1, u.2.2))
    simp only [updApply] at h2
    rw [h2, setEntry, List.map_map]
    rfl

theorem remApply_eq_filter (m : RMap α V) (ks : List α) :
    remApply m ks = m.filter (fun e => decide (e.1 ∉ ks)) := by
  induction ks generalizing m with
  | nil => simp [remApply]
  | cons k ks ih =>
    simp only [remApply, List.foldl_cons]
    have h2 := ih (btRemove m k)
    simp only [remApply] at h2
    rw [h2, btRemove, List.filter_filter]
    refine List.filter_congr ?_
    intro x _
    simp only [List.mem_cons, not_or, Bool.and_eq_true, decide_eq_true_eq]
    rw [Bool.and_comm]
    simp [decide_eq_true_eq, Decidable.not_not]

omit [DecidableEq V] in
theorem insApply_append (m : RMap α V) (l1 l2 : List (α × α × V)) :
    insApply m (l1 ++ l2) = insApply (insApply m l1) l2 := by
  simp [insApply, List.foldl_append]

omit [DecidableEq V] in
theorem insApply_cons (m : RMap α V) (e : α × α × V) (l : List (α × α × V)) :
    insApply m (e :: l) = insApply (btInsert m e.1 (e.2.1, e.2.2)) l := rfl

omit [DecidableEq V] in
theorem btInsert_front (Q : RMap α V) (s : α) (ev : α × V)
    (hQ : ∀ q ∈ Q, s < q.1) : btInsert Q s ev = (s, ev.1, ev.2) :: Q := by
  cases Q with
  | nil => rfl
  | cons q Q' => exact btInsert_cons_of_lt q Q' s ev (hQ q (List.mem_cons_self q Q'))

omit [DecidableEq V] in
theorem btInsert_position (P Q : RMap α V) (s : α) (ev : α × V)
    (hP : ∀ p ∈ P, p.1 < s) (hQ : ∀ q ∈ Q, s < q.1) :
    btInsert (P ++ Q) s ev = P ++ (s, ev.1, ev.2) :: Q := by
  rw [btInsert_append_of_lt P Q s ev hP, btInsert_front Q s ev hQ]

omit [DecidableEq V] in
theorem btInsert_replace_head (P Q : RMap α V) (l : α × α × V) (s : α)
    (ev : α × V) (hP : ∀ p ∈ P, p.1 < s) (hl : l.1 = s) :
    btInsert (P ++ l :: Q) s ev = P ++ (s, ev.1, ev.2) :: Q := by
  rw [btInsert_append_of_lt P (l :: Q) s ev hP,
    btInsert_cons_of_eq l Q s ev hl.symm]

theorem sweep_upds_keys (value : V) (re : α) (mg : V → V → V) :
    ∀ (M : RMap α V) (cur : α) (coal : V),
      ∀ u ∈ (sweep value re mg M cur coal).upds, ∃ x ∈ M, u.1 = x.1 := by
  intro M
  induction M with
  | nil => intro cur coal u hu; simp [sweep] at hu
  | cons x rest ih =>
    intro cur coal u hu
    obtain ⟨s, e, v⟩ := x
    simp only [sweep] at hu
    cases hco : coalesce v coal with
    | some v2 =>
      rw [hco] at hu
      obtain ⟨y, hy, hk⟩ := ih cur v2 u hu
      exact ⟨y, List.mem_cons_of_mem _ hy, hk⟩
    | none =>
      rw [hco] at hu
      by_cases he : e ≤ re
      · rw [if_pos he] at hu
        rcases List.mem_cons.1 hu with rfl | hu
        · exact ⟨_, List.mem_cons_self _ _, rfl⟩
        · obtain ⟨y, hy, hk⟩ := ih e _ u hu
          exact ⟨y, List.mem_cons_of_mem _ hy, hk⟩
      · rw [if_neg he] at hu
        rcases List.mem_cons.1 hu with rfl | hu
        · exact ⟨_, List.mem_cons_self _ _, rfl⟩
        · obtain ⟨y, hy, hk⟩ := ih re _ u hu
          exact ⟨y, List.mem_cons_of_mem _ hy, hk⟩

theorem sweep_rem_keys (value : V) (re : α) (mg : V → V → V) :
    ∀ (M : RMap α V) (cur : α) (coal : V),
      ∀ k ∈ (sweep value re mg M cur coal).rem, ∃ x ∈ M, k = x.1 := by
  intro M
  induction M with
  | nil => intro cur coal k hk; simp [sweep] at hk
  | cons x rest ih =>
    intro cur coal k hk
    obtain ⟨s, e, v⟩ := x
    simp only [sweep] at hk
    cases hco : coalesce v coal with
    | some v2 =>
      rw [hco] at hk
      rcases List.mem_cons.1 hk with rfl | hk
      · exact ⟨_, List.mem_cons_self _ _, rfl⟩
      · obtain ⟨y, hy, hk'⟩ := ih cur v2 k hk
        exact ⟨y, List.mem_cons_of_mem _ hy, hk'⟩
    | none =>
      rw [hco] at hk
      by_cases he : e ≤ re
      · rw [if_pos he] at hk
        obtain ⟨y, hy, hk'⟩ := ih e _ k hk
        exact ⟨y, List.mem_cons_of_mem _ hy, hk'⟩
      · rw [if_neg he] at hk
        obtain ⟨y, hy, hk'⟩ := ih re _ k hk
        exact ⟨y, List.mem_cons_of_mem _ hy, hk'⟩

/-- One in-place update step on an entry whose key matches. -/
theorem applyUpds_cons_eq (u : α × α × V) (us : List (α × α × V))
    (x : α × α × V) (h : x.1 = u.1) :
    applyUpds (u :: us) x = applyUpds us u := by
  show applyUpds us (if x.1 = u.1 then (u.1, u.2.1, u.2.2) else x) =
    applyUpds us u
  rw [if_pos h]

theorem applyUpds_cons_ne (u : α × α × V) (us : List (α × α × V))
    (x : α × α × V) (h : x.1 ≠ u.1) :
    applyUpds (u :: us) x = applyUpds us x := by
  simp only [applyUpds, List.foldl_cons, if_neg h]

/-- Inserting a key `c` greater than every key of `P`, equal to the key of
the at-most-one entry of `L`, and smaller than every key of `Q`, lands (or
replaces) between `P` and `Q`. -/
theorem btInsert_into (P L Q : RMap α V) (c : α) (ev : α × V)
    (hP : ∀ p ∈ P, p.1 < c) (hL : ∀ l ∈ L, l.1 = c) (hL1 : L.length ≤ 1)
    (hQ : ∀ q ∈ Q, c < q.1) :
    btInsert (P ++ L ++ Q) c ev = P ++ (c, ev.1, ev.2) :: Q := by
  cases L with
  | nil =>
    rw [List.append_nil]
    exact btInsert_position P Q c ev hP hQ
  | cons l L2 =>
    cases L2 with
    | nil =>
      rw [List.append_assoc, List.singleton_append]
      exact btInsert_replace_head P Q l c ev hP (hL l (List.mem_cons_self _ _))
    | cons a b =>
      simp only [List.length_cons] at hL1
      omega

theorem sweep_cons_absorb (value : V) (re : α) (mg : V → V → V)
    (s e : α) (v : V) (rest : RMap α V) (cur : α) (coal : V) (v2 : V)
    (hco : coalesce v coal = some v2) :
    sweep value re mg ((s, e, v) :: rest) cur coal =
      ⟨(sweep value re mg rest cur v2).upds,
       (sweep value re mg rest cur v2).ins,
       s :: (sweep value re mg rest cur v2).rem,
       (sweep value re mg rest cur v2).cur,
       (sweep value re mg rest cur v2).coal⟩ := by
  simp [sweep, hco]

theorem sweep_cons_next (value : V) (re : α) (mg : V → V → V)
    (s e : α) (v : V) (rest : RMap α V) (cur : α) (coal : V)
    (hco : coalesce v coal = none) (he : e ≤ re) :
    sweep value re mg ((s, e, v) :: rest) cur coal =
      ⟨(s, e, mg v (if cur < s then value else coal)) ::
         (sweep value re mg rest e (if cur < s then value else coal)).upds,
       (if cur < s then [(cur, s, coal)] else []) ++
         (sweep value re mg rest e (if cur < s then value else coal)).ins,
       (sweep value re mg rest e (if cur < s then value else coal)).rem,
       (sweep value re mg rest e (if cur < s then value else coal)).cur,
       (sweep value re mg rest e (if cur < s then value else coal)).coal⟩ := by
  simp [sweep, hco, he]

theorem sweep_cons_big (value : V) (re : α) (mg : V → V → V)
    (s e : α) (v : V) (rest : RMap α V) (cur : α) (coal : V)
    (hco : coalesce v coal = none) (he : ¬ e ≤ re) :
    sweep value re mg ((s, e, v) :: rest) cur coal =
      ⟨(s, re, mg v (if cur < s then value else coal)) ::
         (sweep value re mg rest re (if cur < s then value else coal)).upds,
       (if cur < s then [(cur, s, coal)] else []) ++
         (re, e, v) ::
           (sweep value re mg rest re (if cur < s then value else coal)).ins,
       (sweep value re mg rest re (if cur < s then value else coal)).rem,
       (sweep value re mg rest re (if cur < s then value else coal)).cur,
       (sweep value re mg rest re (if cur < s then value else coal)).coal⟩ := by
  simp [sweep, hco, he]

/-- The segment of the map spanning the insertion window after the sweep's
updates, removals and insertions (including the final tail) are applied:
the specification of the sweep's net effect. -/
def emitted (value : V) (re : α) (merge : V → V → V) :
    RMap α V → α → V → RMap α V
  | [], cur, coal => if cur < re then [(cur, re, coal)] else []
  | (s, e, v) :: rest, cur, coal =>
    match coalesce v coal with
    | some v2 => emitted value re merge rest cur v2
    | none =>
      (if cur < s then [(cur, s, coal)] else []) ++
      (if e ≤ re then
        (s, e, merge v (if cur < s then value else coal)) ::
          emitted value re merge rest e (if cur < s then value else coal)
      else
        (s, re, merge v (if cur < s then value else coal)) :: (re, e, v) ::
          emitted value re merge rest re (if cur < s then value else coal))

theorem emitted_cons_absorb (value : V) (re : α) (mg : V → V → V)
    (s e : α) (v : V) (rest : RMap α V) (cur : α) (coal : V) (v2 : V)
    (hco : coalesce v coal = some v2) :
    emitted value re mg ((s, e, v) :: rest) cur coal =
      emitted value re mg rest cur v2 := by
  simp [emitted, hco]

theorem emitted_cons_next (value : V) (re : α) (mg : V → V → V)
    (s e : α) (v : V) (rest : RMap α V) (cur : α) (coal : V)
    (hco : coalesce v coal = none) (he : e ≤ re) :
    emitted value re mg ((s, e, v) :: rest) cur coal =
      (if cur < s then [(cur, s, coal)] else []) ++
      (s, e, mg v (if cur < s then value else coal)) ::
        emitted value re mg rest e (if cur < s then value else coal) := by
  simp [emitted, hco, he]

theorem emitted_cons_big (value : V) (re : α) (mg : V → V → V)
    (s e : α) (v : V) (rest : RMap α V) (cur : α) (coal : V)
    (hco : coalesce v coal = none) (he : ¬ e ≤ re) :
    emitted value re mg ((s, e, v) :: rest) cur coal =
      (if cur < s then [(cur, s, coal)] else []) ++
      (s, re, mg v (if cur < s then value else coal)) :: (re, e, v) ::
        emitted value re mg rest re (if cur < s then value else coal) := by
  simp [emitted, hco, he]

theorem sweep_main (value : V) (re : α) (mg : V → V → V) :
    ∀ (M : RMap α V) (cur : α) (coal : V) (P L B : RMap α V),
    (∀ x ∈ M, x.1 < x.2.1) →
    (M.Pairwise fun a b => a.2.1 ≤ b.1) →
    (∀ x ∈ M, cur ≤ x.1) →
    (∀ x ∈ M, x.1 < re) →
    (∀ p ∈ P, p.1 < cur) →
    (∀ b ∈ B, re ≤ b.1) →
    (∀ x ∈ M, ∀ b ∈ B, x.2.1 ≤ b.1) →
    (∀ l ∈ L, l.1 = cur) →
    L.length ≤ 1 →
    (L ≠ [] → (∀ x ∈ M, cur < x.1) ∧ cur < re) →
    insApply
      (P ++ L ++
        ((M.map (applyUpds (sweep value re mg M cur coal).upds)).filter
          (fun y => decide (y.1 ∉ (sweep value re mg M cur coal).rem))) ++ B)
      ((sweep value re mg M cur coal).ins ++
        (if (sweep value re mg M cur coal).cur < re
         then [((sweep value re mg M cur coal).cur, re,
               (sweep value re mg M cur coal).coal)]
         else []))
    = P ++ emitted value re mg M cur coal ++ B := by
  intro M
  induction M with
  | nil =>
    intro cur coal P L B hwf hsort hcur hre hP hB hMB hL hL1 hLne
    simp only [sweep, List.map_nil, List.filter_nil, List.nil_append,
      emitted, List.append_nil]
    by_cases hcr : cur < re
    · rw [if_pos hcr]
      rw [insApply_one]
      rw [btInsert_into P L B cur (re, coal) hP hL hL1
        (fun b hb => lt_of_lt_of_le hcr (hB b hb))]
      simp
    · rw [if_neg hcr]
      have hLnil : L = [] := by
        by_contra hc
        exact hcr (hLne hc).2
      subst hLnil
      simp [insApply]
  | cons x rest ih =>
    intro cur coal P L B hwf hsort hcur hre hP hB hMB hL hL1 hLne
    obtain ⟨s, e, v⟩ := x
    have hse : s < e := hwf _ (List.mem_cons_self _ _)
    have hcs : cur ≤ s := hcur _ (List.mem_cons_self _ _)
    have hsre : s < re := hre _ (List.mem_cons_self _ _)
    have hrest_ge : ∀ y ∈ rest, e ≤ y.1 :=
      fun y hy => List.rel_of_pairwise_cons hsort hy
    have hrest_gt : ∀ y ∈ rest, s < y.1 :=
      fun y hy => lt_of_lt_of_le hse (hrest_ge y hy)
    have hwf2 : ∀ y ∈ rest, y.1 < y.2.1 :=
      fun y hy => hwf y (List.mem_cons_of_mem _ hy)
    have hsort2 : rest.Pairwise (fun a b => a.2.1 ≤ b.1) := hsort.of_cons
    have hre2 : ∀ y ∈ rest, y.1 < re :=
      fun y hy => hre y (List.mem_cons_of_mem _ hy)
    have hMB2 : ∀ y ∈ rest, ∀ b ∈ B, y.2.1 ≤ b.1 :=
      fun y hy => hMB y (List.mem_cons_of_mem _ hy)
    cases hco : coalesce v coal with
    | some v2 =>
      rw [sweep_cons_absorb value re mg s e v rest cur coal v2 hco,
        emitted_cons_absorb value re mg s e v rest cur coal v2 hco]
      have hfilt :
          (((s, e, v) :: rest).map
              (applyUpds (sweep value re mg rest cur v2).upds)).filter
            (fun y => decide (y.1 ∉ s :: (sweep value re mg rest cur v2).rem)) =
          (rest.map (applyUpds (sweep value re mg rest cur v2).upds)).filter
            (fun y => decide (y.1 ∉ (sweep value re mg rest cur v2).rem)) := by
        rw [List.map_cons, List.filter_cons]
        have hhd : (decide
            ((applyUpds (sweep value re mg rest cur v2).upds (s, e, v)).1 ∉
              s :: (sweep value re mg rest cur v2).rem)) = false := by
          rw [applyUpds_key]
          simp
        rw [hhd]
        simp only [Bool.false_eq_true, if_false]
        refine List.filter_congr ?_
        intro y hy
        obtain ⟨z, hz, rfl⟩ := List.mem_map.1 hy
        rw [applyUpds_key, decide_eq_decide]
        have hzs : z.1 ≠ s := ne_of_gt (hrest_gt z hz)
        simp [List.mem_cons, hzs]
      rw [hfilt]
      exact ih cur v2 P L B hwf2 hsort2
        (fun y hy => hcur y (List.mem_cons_of_mem _ hy)) hre2 hP hB hMB2 hL hL1
        (fun h => ⟨fun y hy => (hLne h).1 y (List.mem_cons_of_mem _ hy),
          (hLne h).2⟩)
    | none =>
      by_cases he : e ≤ re
      · -- entry fully inside the window: updated in place
        rw [sweep_cons_next value re mg s e v rest cur coal hco he,
          emitted_cons_next value re mg s e v rest cur coal hco he]
        by_cases hgap : cur < s
        · simp only [if_pos hgap]
          have hfilt :
              (((s, e, v) :: rest).map (applyUpds ((s, e, mg v value) ::
                  (sweep value re mg rest e value).upds))).filter
                (fun y => decide (y.1 ∉ (sweep value re mg rest e value).rem)) =
              (s, e, mg v value) ::
                (rest.map (applyUpds (sweep value re mg rest e value).upds)).filter
                  (fun y => decide (y.1 ∉ (sweep value re mg rest e value).rem)) := by
            rw [List.map_cons,
              applyUpds_cons_eq (s, e, mg v value) _ (s, e, v) rfl,
              applyUpds_ne _ _ (fun u hu => by
                obtain ⟨z, hz, hk⟩ :=
                  sweep_upds_keys value re mg rest e value u hu
                rw [hk]
                exact ne_of_lt (hrest_gt z hz)),
              List.map_congr_left (fun z hz =>
                applyUpds_cons_ne (s, e, mg v value) _ z
                  (ne_of_gt (hrest_gt z hz))),
              List.filter_cons]
            have hhd : (decide ((s, e, mg v value).1 ∉
                (sweep value re mg rest e value).rem)) = true := by
              rw [decide_eq_true_eq]
              intro hmem
              obtain ⟨z, hz, hk⟩ :=
                sweep_rem_keys value re mg rest e value _ hmem
              exact absurd hk (ne_of_lt (hrest_gt z hz))
            rw [hhd, if_pos rfl]
          rw [hfilt, List.append_assoc [(cur, s, coal)], List.singleton_append,
            insApply_cons, List.append_assoc (P ++ L),
            btInsert_into P L _ cur (s, coal) hP hL hL1 (by
              intro q hq
              rcases List.mem_append.1 hq with h1 | h1
              · rcases List.mem_cons.1 h1 with rfl | h1
                · exact hgap
                · obtain ⟨z, hz, rfl⟩ := List.mem_map.1 (List.mem_of_mem_filter h1)
                  rw [applyUpds_key]
                  exact lt_trans hgap (hrest_gt z hz)
              · exact lt_of_lt_of_le (lt_trans hgap hsre) (hB q h1))]
          have hPx : ∀ p ∈ P ++ [(cur, s, coal), (s, e, mg v value)], p.1 < e := by
            intro p hp
            rcases List.mem_append.1 hp with h1 | h1
            · exact lt_trans (hP p h1) (lt_trans hgap hse)
            · rcases List.mem_cons.1 h1 with rfl | h1
              · exact lt_trans hgap hse
              · rcases List.mem_cons.1 h1 with rfl | h1
                · exact hse
                · exact absurd h1 (List.not_mem_nil p)
          have hih := ih e value (P ++ [(cur, s, coal), (s, e, mg v value)]) [] B
            hwf2 hsort2 hrest_ge hre2 hPx hB hMB2
            (fun l hl => absurd hl (List.not_mem_nil l)) (by simp)
            (fun h => absurd rfl h)
          simp only [List.append_assoc, List.cons_append, List.nil_append,
            List.append_nil, List.singleton_append] at hih ⊢
          exact hih
        · -- no gap: the entry starts exactly at the cursor
          simp only [if_neg hgap]
          have hLnil : L = [] := by
            by_contra hc
            exact hgap ((hLne hc).1 (s, e, v) (List.mem_cons_self _ _))
          subst hLnil
          have hfilt :
              (((s, e, v) :: rest).map (applyUpds ((s, e, mg v coal) ::
                  (sweep value re mg rest e coal).upds))).filter
                (fun y => decide (y.1 ∉ (sweep value re mg rest e coal).rem)) =
              (s, e, mg v coal) ::
                (rest.map (applyUpds (sweep value re mg rest e coal).upds)).filter
                  (fun y => decide (y.1 ∉ (sweep value re mg rest e coal).rem)) := by
            rw [List.map_cons,
              applyUpds_cons_eq (s, e, mg v coal) _ (s, e, v) rfl,
              applyUpds_ne _ _ (fun u hu => by
                obtain ⟨z, hz, hk⟩ :=
                  sweep_upds_keys value re mg rest e coal u hu
                rw [hk]
                exact ne_of_lt (hrest_gt z hz)),
              List.map_congr_left (fun z hz =>
                applyUpds_cons_ne (s, e, mg v coal) _ z
                  (ne_of_gt (hrest_gt z hz))),
              List.filter_cons]
            have hhd : (decide ((s, e, mg v coal).1 ∉
                (sweep value re mg rest e coal).rem)) = true := by
              rw [decide_eq_true_eq]
              intro hmem
              obtain ⟨z, hz, hk⟩ :=
                sweep_rem_keys value re mg rest e coal _ hmem
              exact absurd hk (ne_of_lt (hrest_gt z hz))
            rw [hhd, if_pos rfl]
          rw [hfilt]
          have hPx : ∀ p ∈ P ++ [(s, e, mg v coal)], p.1 < e := by
            intro p hp
            rcases List.mem_append.1 hp with h1 | h1
            · exact lt_of_lt_of_le (lt_of_lt_of_le (hP p h1) hcs) (le_of_lt hse)
            · rcases List.mem_cons.1 h1 with rfl | h1
              · exact hse
              · exact absurd h1 (List.not_mem_nil p)
          have hih := ih e coal (P ++ [(s, e, mg v coal)]) [] B
            hwf2 hsort2 hrest_ge hre2 hPx hB hMB2
            (fun l hl => absurd hl (List.not_mem_nil l)) (by simp)
            (fun h => absurd rfl h)
          simp only [List.append_assoc, List.cons_append, List.nil_append,
            List.append_nil, List.singleton_append] at hih ⊢
          exact hih
      · -- entry straddles the right boundary: split, rest is empty
        have hrestnil : rest = [] := by
          cases rest with
          | nil => rfl
          | cons y ys =>
            exact absurd
              (le_of_lt (lt_of_le_of_lt (hrest_ge y (List.mem_cons_self _ _))
                (hre2 y (List.mem_cons_self _ _)))) he
        subst hrestnil
        rw [sweep_cons_big value re mg s e v [] cur coal hco he,
          emitted_cons_big value re mg s e v [] cur coal hco he]
        have hBgt : ∀ b ∈ B, re < b.1 := fun b hb =>
          lt_of_lt_of_le (lt_of_not_le he) (hMB (s, e, v) (List.mem_cons_self _ _) b hb)
        by_cases hgap : cur < s
        · simp only [if_pos hgap, sweep, emitted]
          rw [if_neg (lt_irrefl re)]
          have hfilt :
              (((s, e, v) :: ([] : RMap α V)).map
                  (applyUpds [(s, re, mg v value)])).filter
                (fun y => decide (y.1 ∉ ([] : List α))) = [(s, re, mg v value)] := by
            simp [applyUpds]
          rw [hfilt]
          rw [List.append_nil, List.singleton_append, insApply_cons,
            List.append_assoc (P ++ L),
            btInsert_into P L _ cur (s, coal) hP hL hL1 (by
              intro q hq
              rcases List.mem_append.1 hq with h1 | h1
              · rcases List.mem_cons.1 h1 with rfl | h1
                · exact hgap
                · exact absurd h1 (List.not_mem_nil q)
              · exact lt_trans (lt_trans hgap hsre) (hBgt q h1))]
          rw [insApply_cons, insApply_nil]
          have hstep2 := btInsert_position
            (P ++ [(cur, s, coal), (s, re, mg v value)]) B re (e, v) (by
              intro p hp
              rcases List.mem_append.1 hp with h1 | h1
              · exact lt_trans (hP p h1) (lt_trans hgap hsre)
              · rcases List.mem_cons.1 h1 with rfl | h1
                · exact lt_trans hgap hsre
                · rcases List.mem_cons.1 h1 with rfl | h1
                  · exact hsre
                  · exact absurd h1 (List.not_mem_nil p)) hBgt
          simp only [List.append_assoc, List.cons_append, List.nil_append,
            List.append_nil, List.singleton_append] at hstep2 ⊢
          exact hstep2
        · simp only [if_neg hgap, sweep, emitted]
          rw [if_neg (lt_irrefl re)]
          have hLnil : L = [] := by
            by_contra hc
            exact hgap ((hLne hc).1 (s, e, v) (List.mem_cons_self _ _))
          subst hLnil
          have hfilt :
              (((s, e, v) :: ([] : RMap α V)).map
                  (applyUpds [(s, re, mg v coal)])).filter
                (fun y => decide (y.1 ∉ ([] : List α))) = [(s, re, mg v coal)] := by
            simp [applyUpds]
          rw [hfilt]
          rw [List.nil_append, List.append_nil, List.append_nil,
            insApply_cons, insApply_nil]
          have hstep2 := btInsert_position
            (P ++ [(s, re, mg v coal)]) B re (e, v) (by
              intro p hp
              rcases List.mem_append.1 hp with h1 | h1
              · exact lt_of_le_of_lt (le_trans (le_of_lt (hP p h1)) hcs) hsre
              · rcases List.mem_cons.1 h1 with rfl | h1
                · exact hsre
                · exact absurd h1 (List.not_mem_nil p)) hBgt
          simp only [List.append_assoc, List.cons_append, List.nil_append,
            List.append_nil, List.singleton_append] at hstep2 ⊢
          exact hstep2

/-- Fusing a window around a cursor entry: consecutive entries that touch
the cursor's end and carry the cursor's value are absorbed; otherwise the
finished run is emitted and the entry starts a new run. The specification
of the net effect of the `coalesce_in_range` cursor loop. -/
def fuseAux : RMap α V → α × α × V → RMap α V
  | [], c => [c]
  | (s1, e1, v1) :: rest, (s, e, v) =>
    if s1 = e ∧ v1 = v then fuseAux rest (s, e1, v)
    else (s, e, v) :: fuseAux rest (s1, e1, v1)

/-- Fusing a whole window. -/
def fuse : RMap α V → RMap α V
  | [] => []
  | w :: ws => fuseAux ws w

theorem coalescePass_keys (W : RMap α V) :
    ∀ (c : α × α × V) (cnt : Nat),
      (∀ k ∈ (coalescePass W (some (c.1, c.2.1, c.2.2, cnt))).1,
        ∃ x ∈ W, k = x.1) ∧
      (∀ u ∈ (coalescePass W (some (c.1, c.2.1, c.2.2, cnt))).2,
        u.1 = c.1 ∨ ∃ x ∈ W, u.1 = x.1) := by
  induction W with
  | nil =>
    intro c cnt
    constructor
    · intro k hk
      simp [coalescePass] at hk
    · intro u hu
      simp only [coalescePass] at hu
      by_cases h1 : 1 < cnt
      · rw [if_pos h1] at hu
        rcases List.mem_cons.1 hu with rfl | hu
        · exact Or.inl rfl
        · exact absurd hu (List.not_mem_nil u)
      · rw [if_neg h1] at hu
        exact absurd hu (List.not_mem_nil u)
  | cons x rest ih =>
    intro c cnt
    obtain ⟨s1, e1, v1⟩ := x
    obtain ⟨s, e, v⟩ := c
    simp only [coalescePass]
    by_cases hx : s1 = e
    · rw [if_pos hx]
      cases hco : coalesce v1 v with
      | some v2 =>
        have hv : v1 = v := by
          by_contra hc
          simp [coalesce, hc] at hco
        have hv2 : v2 = v1 := by
          simp [coalesce, hv] at hco
          rw [← hco]
          exact hv.symm
        subst hv2
        constructor
        · intro k hk
          rcases List.mem_cons.1 hk with rfl | hk
          · exact ⟨_, List.mem_cons_self _ _, rfl⟩
          · rcases (ih (s, e1, v2) (cnt + 1)).1 k hk with ⟨y, hy, h2⟩
            exact ⟨y, List.mem_cons_of_mem _ hy, h2⟩
        · intro u hu
          rcases (ih (s, e1, v2) (cnt + 1)).2 u hu with h2 | ⟨y, hy, h2⟩
          · exact Or.inl h2
          · exact Or.inr ⟨y, List.mem_cons_of_mem _ hy, h2⟩
      | none =>
        constructor
        · intro k hk
          rcases (ih (s1, e1, v1) 1).1 k hk with ⟨y, hy, h2⟩
          exact ⟨y, List.mem_cons_of_mem _ hy, h2⟩
        · intro u hu
          rcases List.mem_append.1 hu with h2 | h2
          · by_cases h1 : 1 < cnt
            · rw [if_pos h1] at h2
              rcases List.mem_cons.1 h2 with rfl | h2
              · exact Or.inl rfl
              · exact absurd h2 (List.not_mem_nil u)
            · rw [if_neg h1] at h2
              exact absurd h2 (List.not_mem_nil u)
          · rcases (ih (s1, e1, v1) 1).2 u h2 with h3 | ⟨y, hy, h3⟩
            · exact Or.inr ⟨(s1, e1, v1), List.mem_cons_self _ _, h3⟩
            · exact Or.inr ⟨y, List.mem_cons_of_mem _ hy, h3⟩
    · rw [if_neg hx]
      constructor
      · intro k hk
        rcases (ih (s1, e1, v1) 1).1 k hk with ⟨y, hy, h2⟩
        exact ⟨y, List.mem_cons_of_mem _ hy, h2⟩
      · intro u hu
        rcases List.mem_append.1 hu with h2 | h2
        · by_cases h1 : 1 < cnt
          · rw [if_pos h1] at h2
            rcases List.mem_cons.1 h2 with rfl | h2
            · exact Or.inl rfl
            · exact absurd h2 (List.not_mem_nil u)
          · rw [if_neg h1] at h2
            exact absurd h2 (List.not_mem_nil u)
        · rcases (ih (s1, e1, v1) 1).2 u h2 with h3 | ⟨y, hy, h3⟩
          · exact Or.inr ⟨(s1, e1, v1), List.mem_cons_self _ _, h3⟩
          · exact Or.inr ⟨y, List.mem_cons_of_mem _ hy, h3⟩

omit [DecidableEq V] in
theorem applyUpds_append (l1 l2 : List (α × α × V)) (x : α × α × V) :
    applyUpds (l1 ++ l2) x = applyUpds l2 (applyUpds l1 x) := by
  simp [applyUpds, List.foldl_append]

omit [DecidableEq V] in
theorem updApply_cons_entry (m : RMap α V) (x : α × α × V)
    (us : List (α × α × V)) :
    updApply (x :: m) us = applyUpds us x :: updApply m us := by
  rw [updApply_eq_map, updApply_eq_map, List.map_cons]

theorem remApply_cons (m : RMap α V) (k : α) (ks : List α) :
    remApply m (k :: ks) = remApply (btRemove m k) ks := rfl

theorem remApply_cons_notmem (m : RMap α V) (x : α × α × V) (ks : List α)
    (h : x.1 ∉ ks) : remApply (x :: m) ks = x :: remApply m ks := by
  rw [remApply_eq_filter, remApply_eq_filter]
  simp only [List.filter_cons]
  rw [if_pos (decide_eq_true h)]

theorem btRemove_head_match (x y : α × α × V) (t : RMap α V) (k : α)
    (hx : x.1 ≠ k) (hy : y.1 = k) (ht : ∀ z ∈ t, z.1 ≠ k) :
    btRemove (x :: y :: t) k = x :: t := by
  unfold btRemove
  simp only [List.filter_cons]
  rw [if_pos (decide_eq_true hx), if_neg (by simp [hy])]
  congr 1
  exact List.filter_eq_self.mpr (fun a ha => decide_eq_true (ht a ha))

/-- Auxiliary: when the pass's run breaks at the head of `W`, the deferred
removals and updates realise one emitted cursor entry followed by the fused
remainder. -/
theorem coalescePass_apply_break
    (rest : RMap α V) (s1 e1 : α) (v1 : V) (s e0 e : α) (v : V) (cnt : Nat)
    (hW : ∀ w ∈ (s1, e1, v1) :: rest, s < w.1)
    (hsort : ((s1, e1, v1) :: rest).Pairwise fun a b => a.1 < b.1)
    (hcnt : 1 < cnt ∨ e = e0)
    (hIH : updApply (remApply ((s1, e1, v1) :: rest)
        (coalescePass rest (some (s1, e1, v1, 1))).1)
        (coalescePass rest (some (s1, e1, v1, 1))).2 =
      fuseAux rest (s1, e1, v1)) :
    updApply (remApply ((s, e0, v) :: (s1, e1, v1) :: rest)
        (coalescePass rest (some (s1, e1, v1, 1))).1)
      ((if 1 < cnt then [(s, e, v)] else []) ++
        (coalescePass rest (some (s1, e1, v1, 1))).2)
    = (s, e, v) :: fuseAux rest (s1, e1, v1) := by
  have hs1 : s < s1 := hW _ (List.mem_cons_self _ _)
  have hRk := (coalescePass_keys rest (s1, e1, v1) 1).1
  have hUk := (coalescePass_keys rest (s1, e1, v1) 1).2
  have hsR : (s : α) ∉ (coalescePass rest (some (s1, e1, v1, 1))).1 := by
    intro hmem
    obtain ⟨x, hx, hk⟩ := hRk _ hmem
    exact absurd hk (ne_of_lt (hW x (List.mem_cons_of_mem _ hx)))
  rw [remApply_cons_notmem _ _ _ hsR, updApply_cons_entry]
  have hhead : applyUpds ((if 1 < cnt then [(s, e, v)] else []) ++
      (coalescePass rest (some (s1, e1, v1, 1))).2) (s, e0, v) = (s, e, v) := by
    rw [applyUpds_append]
    have hmid : applyUpds (if 1 < cnt then [(s, e, v)] else [])
        ((s, e0, v) : α × α × V) = (s, e, v) := by
      rcases hcnt with h | h
      · rw [if_pos h, applyUpds_cons_eq (s, e, v) [] (s, e0, v) rfl]
        rfl
      · subst h
        by_cases h1 : 1 < cnt
        · rw [if_pos h1, applyUpds_cons_eq (s, e, v) [] (s, e, v) rfl]
          rfl
        · rw [if_neg h1]
          rfl
    rw [hmid]
    refine applyUpds_ne _ _ ?_
    intro u hu
    rcases hUk u hu with h2 | ⟨x, hx, h2⟩
    · rw [h2]
      exact ne_of_lt hs1
    · rw [h2]
      exact ne_of_lt (hW x (List.mem_cons_of_mem _ hx))
  have htail : updApply (remApply ((s1, e1, v1) :: rest)
      (coalescePass rest (some (s1, e1, v1, 1))).1)
      ((if 1 < cnt then [(s, e, v)] else []) ++
        (coalescePass rest (some (s1, e1, v1, 1))).2) =
      updApply (remApply ((s1, e1, v1) :: rest)
        (coalescePass rest (some (s1, e1, v1, 1))).1)
        (coalescePass rest (some (s1, e1, v1, 1))).2 := by
    rw [updApply_eq_map, updApply_eq_map]
    refine List.map_congr_left ?_
    intro z hz
    have hz2 : z ∈ (s1, e1, v1) :: rest := by
      rw [remApply_eq_filter] at hz
      exact List.mem_of_mem_filter hz
    have hzgt : s < z.1 := hW z hz2
    rw [applyUpds_append]
    congr 1
    refine applyUpds_ne _ _ ?_
    intro u hu
    by_cases h1 : 1 < cnt
    · rw [if_pos h1] at hu
      rcases List.mem_cons.1 hu with rfl | hu
      · exact ne_of_gt hzgt
      · exact absurd hu (List.not_mem_nil u)
    · rw [if_neg h1] at hu
      exact absurd hu (List.not_mem_nil u)
  rw [hhead, htail, hIH]

/-- The deferred removals and updates produced by the cursor loop realise
exactly the fused window (relative to the run-start entry `(s, e0, v)`
still stored with its original end `e0`). -/
theorem coalescePass_apply (W : RMap α V) :
    ∀ (s e0 e : α) (v : V) (cnt : Nat),
    (∀ w ∈ W, s < w.1) →
    (W.Pairwise fun a b => a.1 < b.1) →
    1 ≤ cnt →
    (1 < cnt ∨ e = e0) →
    updApply
      (remApply ((s, e0, v) :: W)
        (coalescePass W (some (s, e, v, cnt))).1)
      (coalescePass W (some (s, e, v, cnt))).2
    = fuseAux W (s, e, v) := by
  induction W with
  | nil =>
    intro s e0 e v cnt hW hsort hcnt1 hcnt
    simp only [coalescePass, fuseAux, remApply_nil]
    rcases hcnt with h | h
    · rw [if_pos h]
      rw [show updApply [(s, e0, v)] [(s, e, v)] =
        setEntry [(s, e0, v)] s (e, v) from rfl]
      simp [setEntry]
    · subst h
      by_cases h1 : 1 < cnt
      · rw [if_pos h1]
        rw [show updApply [(s, e, v)] [(s, e, v)] =
          setEntry [(s, e, v)] s (e, v) from rfl]
        simp [setEntry]
      · rw [if_neg h1]
        rfl
  | cons x rest ih =>
    intro s e0 e v cnt hW hsort hcnt1 hcnt
    obtain ⟨s1, e1, v1⟩ := x
    have hs1 : s < s1 := hW _ (List.mem_cons_self _ _)
    have hrest_gt : ∀ y ∈ rest, s1 < y.1 :=
      fun y hy => List.rel_of_pairwise_cons hsort hy
    by_cases hx : s1 = e
    · cases hco : coalesce v1 v with
      | some v2 =>
        have hv1v : v1 = v := by
          by_contra hc
          simp [coalesce, hc] at hco
        have hv2v : v2 = v1 := by
          simp only [coalesce, if_pos hv1v] at hco
          exact (Option.some.inj hco).symm
        have hco2 : coalesce v v = some v := by
          simp [coalesce]
        have hpass : coalescePass ((s1, e1, v1) :: rest) (some (s, e, v, cnt)) =
            (s1 :: (coalescePass rest (some (s, e1, v, cnt + 1))).1,
             (coalescePass rest (some (s, e1, v, cnt + 1))).2) := by
          simp [coalescePass, hx, hv1v, hco2]
        rw [hpass]
        have h1 : btRemove ((s, e0, v) :: (s1, e1, v1) :: rest) s1 =
            (s, e0, v) :: rest :=
          btRemove_head_match _ _ _ _ (ne_of_lt hs1) rfl
            (fun z hz => ne_of_gt (hrest_gt z hz))
        rw [remApply_cons, h1]
        rw [ih s e0 e1 v (cnt + 1)
          (fun w hw => hW w (List.mem_cons_of_mem _ hw)) hsort.of_cons
          (Nat.le_succ_of_le hcnt1) (Or.inl (Nat.lt_succ_of_le hcnt1))]
        simp [fuseAux, hx, hv1v]
      | none =>
        have hvne : ¬ v1 = v := by
          intro hc
          simp [coalesce, hc] at hco
        have hpass : coalescePass ((s1, e1, v1) :: rest) (some (s, e, v, cnt)) =
            ((coalescePass rest (some (s1, e1, v1, 1))).1,
             (if 1 < cnt then [(s, e, v)] else []) ++
               (coalescePass rest (some (s1, e1, v1, 1))).2) := by
          simp [coalescePass, hx, hco]
        rw [hpass]
        have hfa : fuseAux ((s1, e1, v1) :: rest) (s, e, v) =
            (s, e, v) :: fuseAux rest (s1, e1, v1) := by
          simp only [fuseAux]
          rw [if_neg (fun hc => hvne hc.2)]
        rw [hfa]
        exact coalescePass_apply_break rest s1 e1 v1 s e0 e v cnt hW hsort hcnt
          (ih s1 e1 e1 v1 1 hrest_gt hsort.of_cons (le_refl 1) (Or.inr rfl))
    · have hpass : coalescePass ((s1, e1, v1) :: rest) (some (s, e, v, cnt)) =
          ((coalescePass rest (some (s1, e1, v1, 1))).1,
           (if 1 < cnt then [(s, e, v)] else []) ++
             (coalescePass rest (some (s1, e1, v1, 1))).2) := by
        simp [coalescePass, hx]
      rw [hpass]
      have hfa : fuseAux ((s1, e1, v1) :: rest) (s, e, v) =
          (s, e, v) :: fuseAux rest (s1, e1, v1) := by
        simp only [fuseAux]
        rw [if_neg (fun hc => hx hc.1)]
      rw [hfa]
      exact coalescePass_apply_break rest s1 e1 v1 s e0 e v cnt hW hsort hcnt
        (ih s1 e1 e1 v1 1 hrest_gt hsort.of_cons (le_refl 1) (Or.inr rfl))

/-- Structure of a fused window: the head keeps the cursor's start and
value, the last entry keeps the final `(end, value)` payload, every entry
is a non-empty range, and consecutive entries satisfy the full invariant
relation. -/
theorem fuseAux_spec (W : RMap α V) :
    ∀ (c : α × α × V),
    c.1 < c.2.1 →
    (∀ w ∈ W, w.1 < w.2.1) →
    ((c :: W).Chain' fun a b => a.2.1 ≤ b.1) →
    (∃ e2 T, fuseAux W c = (c.1, e2, c.2.2) :: T ∧ c.2.1 ≤ e2) ∧
    ((fuseAux W c).map (fun x => x.2)).getLast? =
      ((c :: W).map (fun x => x.2)).getLast? ∧
    (∀ x ∈ fuseAux W c, x.1 < x.2.1) ∧
    (fuseAux W c).Chain' pairOK := by
  induction W with
  | nil =>
    intro c hc _ _
    refine ⟨⟨c.2.1, [], rfl, le_refl _⟩, rfl, ?_, ?_⟩
    · intro x hx
      rcases List.mem_cons.1 hx with rfl | hx
      · exact hc
      · exact absurd hx (List.not_mem_nil x)
    · exact List.chain'_singleton _
  | cons w rest ih =>
    intro c hc hW hch
    obtain ⟨s1, e1, v1⟩ := w
    obtain ⟨s, e, v⟩ := c
    have hw1 : s1 < e1 := hW _ (List.mem_cons_self _ _)
    have hlink : e ≤ s1 := (List.chain'_cons.1 hch).1
    have hch1 : ((s1, e1, v1) :: rest).Chain' (fun a b => a.2.1 ≤ b.1) :=
      (List.chain'_cons.1 hch).2
    have hWr : ∀ w ∈ rest, w.1 < w.2.1 :=
      fun w hw => hW w (List.mem_cons_of_mem _ hw)
    by_cases hf : s1 = e ∧ v1 = v
    · have hfa : fuseAux ((s1, e1, v1) :: rest) (s, e, v) =
          fuseAux rest (s, e1, v) := by
        simp only [fuseAux]
        rw [if_pos hf]
      have hc2 : (s : α) < e1 := lt_of_le_of_lt (le_of_lt hc)
        (lt_of_le_of_lt hlink hw1)
      have hch2 : (((s, e1, v) : α × α × V) :: rest).Chain'
          (fun a b => a.2.1 ≤ b.1) := by
        rw [List.chain'_cons']
        exact ⟨fun y hy => (List.chain'_cons'.1 hch1).1 y hy,
          (List.chain'_cons'.1 hch1).2⟩
      obtain ⟨hhead, hlast, hwf, hchain⟩ := ih (s, e1, v) hc2 hWr hch2
      rw [hfa]
      refine ⟨?_, ?_, hwf, hchain⟩
      · obtain ⟨e2, T, hT, he2⟩ := hhead
        exact ⟨e2, T, hT, le_trans (le_trans hlink (le_of_lt hw1)) he2⟩
      · rw [hlast]
        simp only [List.map_cons]
        rw [List.getLast?_cons_cons]
        congr 1
        rw [hf.2]
    · have hfa : fuseAux ((s1, e1, v1) :: rest) (s, e, v) =
          (s, e, v) :: fuseAux rest (s1, e1, v1) := by
        simp only [fuseAux]
        rw [if_neg hf]
      obtain ⟨hhead, hlast, hwf, hchain⟩ := ih (s1, e1, v1) hw1 hWr hch1
      obtain ⟨e2, T, hT, he2⟩ := hhead
      rw [hfa]
      refine ⟨⟨e, fuseAux rest (s1, e1, v1), rfl, le_refl _⟩, ?_, ?_, ?_⟩
      · simp only [List.map_cons]
        rw [hT]
        simp only [List.map_cons]
        rw [List.getLast?_cons_cons, List.getLast?_cons_cons]
        rw [hT] at hlast
        simp only [List.map_cons] at hlast
        exact hlast
      · intro x hx
        rcases List.mem_cons.1 hx with rfl | hx
        · exact hc
        · exact hwf x hx
      · rw [List.chain'_cons']
        refine ⟨?_, hchain⟩
        intro y hy
        rw [hT] at hy
        simp only [List.head?_cons, Option.mem_def, Option.some.injEq] at hy
        subst hy
        constructor
        · exact hlink
        · intro heq hveq
          exact hf ⟨heq.symm, hveq.symm⟩

/-- Running `coalesce_in_range` on a decomposed map whose biinclusive
window is the middle segment: the outer segments are untouched and the window is fused. -/
theorem coalesce_in_range_decomp (A W C : RMap α V) (lo hi : α)
    (hwin : range_biinclusive (A ++ W ++ C) lo hi = W)
    (hkeys : (A ++ W ++ C).Pairwise fun a b => a.1 < b.1) :
    coalesce_in_range (A ++ W ++ C) lo hi = A ++ fuse W ++ C := by
  have hsplit := List.pairwise_append.1 hkeys
  have hsplit2 := List.pairwise_append.1 hsplit.1
  have hA_W : ∀ a ∈ A, ∀ w ∈ W, a.1 < w.1 := hsplit2.2.2
  have hW_C : ∀ w ∈ W, ∀ c ∈ C, w.1 < c.1 :=
    fun w hw c hc => hsplit.2.2 w (List.mem_append.2 (Or.inr hw)) c hc
  have hWsort : W.Pairwise fun a b => a.1 < b.1 := hsplit2.2.1
  have hcir : coalesce_in_range (A ++ W ++ C) lo hi =
      updApply
        (remApply (A ++ W ++ C)
          (coalescePass (range_biinclusive (A ++ W ++ C) lo hi) none).1)
        (coalescePass (range_biinclusive (A ++ W ++ C) lo hi) none).2 := rfl
  rw [hcir, hwin]
  cases W with
  | nil => rfl
  | cons w ws =>
    obtain ⟨s, e, v⟩ := w
    have hws_gt : ∀ y ∈ ws, s < y.1 :=
      fun y hy => List.rel_of_pairwise_cons hWsort hy
    have hR := (coalescePass_keys ws (s, e, v) 1).1
    have hU := (coalescePass_keys ws (s, e, v) 1).2
    have hRW : ∀ k ∈ (coalescePass ws (some (s, e, v, 1))).1,
        ∃ x ∈ (s, e, v) :: ws, k = x.1 := by
      intro k hk
      obtain ⟨x, hx, h2⟩ := hR k hk
      exact ⟨x, List.mem_cons_of_mem _ hx, h2⟩
    have hUW : ∀ u ∈ (coalescePass ws (some (s, e, v, 1))).2,
        ∃ x ∈ (s, e, v) :: ws, u.1 = x.1 := by
      intro u hu
      rcases hU u hu with h2 | ⟨x, hx, h2⟩
      · exact ⟨(s, e, v), List.mem_cons_self _ _, h2⟩
      · exact ⟨x, List.mem_cons_of_mem _ hx, h2⟩
    have hpass : coalescePass ((s, e, v) :: ws) none =
        coalescePass ws (some (s, e, v, 1)) := rfl
    rw [hpass]
    have hfA : A.filter
        (fun y => decide (y.1 ∉ (coalescePass ws (some (s, e, v, 1))).1)) = A :=
      List.filter_eq_self.mpr (fun a ha => by
        rw [decide_eq_true_eq]
        intro hmem
        obtain ⟨x, hx, h2⟩ := hRW _ hmem
        exact absurd h2 (ne_of_lt (hA_W a ha x hx)))
    have hfC : C.filter
        (fun y => decide (y.1 ∉ (coalescePass ws (some (s, e, v, 1))).1)) = C :=
      List.filter_eq_self.mpr (fun c hc => by
        rw [decide_eq_true_eq]
        intro hmem
        obtain ⟨x, hx, h2⟩ := hRW _ hmem
        exact absurd h2 (ne_of_gt (hW_C x hx c hc)))
    have hrem : remApply (A ++ (s, e, v) :: ws ++ C)
        (coalescePass ws (some (s, e, v, 1))).1 =
        A ++ remApply ((s, e, v) :: ws)
          (coalescePass ws (some (s, e, v, 1))).1 ++ C := by
      rw [remApply_eq_filter, remApply_eq_filter, List.filter_append,
        List.filter_append, hfA, hfC]
    rw [hrem]
    have hmapA : A.map (applyUpds (coalescePass ws (some (s, e, v, 1))).2) = A :=
      (List.map_congr_left (fun a ha => applyUpds_ne _ _ (fun u hu => by
        obtain ⟨x, hx, h2⟩ := hUW u hu
        rw [h2]
        exact ne_of_lt (hA_W a ha x hx)))).trans (List.map_id A)
    have hmapC : C.map (applyUpds (coalescePass ws (some (s, e, v, 1))).2) = C :=
      (List.map_congr_left (fun c hc => applyUpds_ne _ _ (fun u hu => by
        obtain ⟨x, hx, h2⟩ := hUW u hu
        rw [h2]
        exact ne_of_gt (hW_C x hx c hc)))).trans (List.map_id C)
    have hupd : updApply (A ++ remApply ((s, e, v) :: ws)
        (coalescePass ws (some (s, e, v, 1))).1 ++ C)
        (coalescePass ws (some (s, e, v, 1))).2 =
        A ++ updApply (remApply ((s, e, v) :: ws)
          (coalescePass ws (some (s, e, v, 1))).1)
          (coalescePass ws (some (s, e, v, 1))).2 ++ C := by
      rw [updApply_eq_map, updApply_eq_map, List.map_append, List.map_append,
        hmapA, hmapC]
    rw [hupd]
    rw [coalescePass_apply ws s e e v 1 hws_gt hWsort.of_cons (le_refl 1)
      (Or.inr rfl)]
    rfl

/-- The biinclusive window of a decomposed map when the entry preceding
`lo` reaches the window. -/
theorem window_pred (A : RMap α V) (w0 : α × α × V) (W1 C : RMap α V)
    (lo hi : α) (hlohi : lo ≤ hi)
    (hA : ∀ a ∈ A, a.1 < w0.1)
    (hw0 : w0.1 < lo) (hw0e : lo ≤ w0.2.1)
    (hW1 : ∀ w ∈ W1, lo ≤ w.1 ∧ w.1 ≤ hi)
    (hC : ∀ c ∈ C, hi < c.1) :
    range_biinclusive (A ++ (w0 :: W1) ++ C) lo hi = w0 :: W1 := by
  obtain ⟨s, e, v⟩ := w0
  have hw0s : s < lo := hw0
  have hw0e2 : lo ≤ e := hw0e
  have hA2 : ∀ a ∈ A, a.1 < s := hA
  unfold range_biinclusive
  have hsplit : A ++ ((s, e, v) :: W1) ++ C = (A ++ [(s, e, v)]) ++ (W1 ++ C) := by
    simp [List.append_assoc]
  rw [hsplit, btFindPred_eq_of_split (A ++ [(s, e, v)]) (W1 ++ C) lo
    (by
      intro x hx
      rcases List.mem_append.1 hx with h | h
      · exact lt_trans (hA2 x h) hw0s
      · rcases List.mem_cons.1 h with rfl | h
        · exact hw0s
        · exact absurd h (List.not_mem_nil x))
    (by
      intro y hy
      rcases List.mem_append.1 hy with h | h
      · exact (hW1 y h).1
      · exact le_trans hlohi (le_of_lt (hC y h)))]
  rw [List.getLast?_concat]
  show (if lo ≤ e then [(s, e, v)] else []) ++
      List.filter (fun x => decide (lo ≤ x.1) && decide (x.1 ≤ hi))
        (A ++ [(s, e, v)] ++ (W1 ++ C)) = (s, e, v) :: W1
  rw [if_pos hw0e2]
  rw [List.filter_append, List.filter_append, List.filter_append]
  rw [List.filter_eq_nil_iff.mpr (fun a ha => by
    simp only [Bool.and_eq_true, decide_eq_true_eq, not_and]
    intro hc
    exact absurd hc (not_le.2 (lt_trans (hA2 a ha) hw0s)))]
  rw [show (List.filter (fun x => decide (lo ≤ x.1) && decide (x.1 ≤ hi))
      [((s, e, v) : α × α × V)]) = [] from by
    simp [not_le.2 hw0s]]
  rw [List.filter_eq_self.mpr (fun w hw => by
    simp only [Bool.and_eq_true, decide_eq_true_eq]
    exact hW1 w hw)]
  rw [List.filter_eq_nil_iff.mpr (fun c hc => by
    simp only [Bool.and_eq_true, decide_eq_true_eq, not_and]
    intro _
    exact not_le.2 (hC c hc))]
  simp

/-- The biinclusive window of a decomposed map when no entry before `lo`
reaches it. -/
theorem window_nopred (A W C : RMap α V) (lo hi : α) (hlohi : lo ≤ hi)
    (hA : ∀ a ∈ A, a.1 < lo)
    (hAe : ∀ a ∈ A.getLast?, a.2.1 < lo)
    (hW : ∀ w ∈ W, lo ≤ w.1 ∧ w.1 ≤ hi)
    (hC : ∀ c ∈ C, hi < c.1) :
    range_biinclusive (A ++ W ++ C) lo hi = W := by
  unfold range_biinclusive
  have hsplit : A ++ W ++ C = A ++ (W ++ C) := by
    simp [List.append_assoc]
  rw [hsplit, btFindPred_eq_of_split A (W ++ C) lo hA
    (by
      intro y hy
      rcases List.mem_append.1 hy with h | h
      · exact (hW y h).1
      · exact le_trans hlohi (le_of_lt (hC y h)))]
  rw [List.filter_append, List.filter_append]
  rw [List.filter_eq_nil_iff.mpr (fun a ha => by
    simp only [Bool.and_eq_true, decide_eq_true_eq, not_and]
    intro hc
    exact absurd hc (not_le.2 (hA a ha)))]
  rw [List.filter_eq_self.mpr (fun w hw => by
    simp only [Bool.and_eq_true, decide_eq_true_eq]
    exact hW w hw)]
  rw [List.filter_eq_nil_iff.mpr (fun c hc => by
    simp only [Bool.and_eq_true, decide_eq_true_eq, not_and]
    intro _
    exact not_le.2 (hC c hc))]
  cases hlast : A.getLast? with
  | none => simp
  | some a =>
    obtain ⟨s, e, v⟩ := a
    have h2 : e < lo := hAe _ hlast
    show (if lo ≤ e then [(s, e, v)] else []) ++ ([] ++ (W ++ [])) = W
    rw [if_neg (not_le.2 h2)]
    simp

/-- Assembling the invariant for an outer-decomposed map whose fused middle
window carries over boundary compatibility from the original entries. -/
theorem inv_append_fused (A W C : RMap α V)
    (hAwf : ∀ a ∈ A, a.1 < a.2.1) (hAch : A.Chain' pairOK)
    (hCwf : ∀ c ∈ C, c.1 < c.2.1) (hCch : C.Chain' pairOK)
    (hWwf : ∀ w ∈ W, w.1 < w.2.1)
    (hWch : W.Chain' fun a b => a.2.1 ≤ b.1)
    (hAW : ∀ a ∈ A.getLast?, ∀ w ∈ W.head?, pairOK a w)
    (hWC : ∀ p ∈ (W.map fun x => x.2).getLast?, ∀ c ∈ C.head?,
      p.1 ≤ c.1 ∧ (p.1 = c.1 → p.2 ≠ c.2.2))
    (hAC : W = [] → ∀ a ∈ A.getLast?, ∀ c ∈ C.head?, pairOK a c) :
    Inv (A ++ fuse W ++ C) := by
  cases W with
  | nil =>
    refine ⟨?_, ?_⟩
    · intro x hx
      rcases List.mem_append.1 hx with h | h
      · rcases List.mem_append.1 h with h | h
        · exact hAwf x h
        · exact absurd h (List.not_mem_nil x)
      · exact hCwf x h
    · rw [List.chain'_append]
      refine ⟨?_, hCch, ?_⟩
      · rw [List.chain'_append]
        refine ⟨hAch, List.chain'_nil, ?_⟩
        intro x hx y hy
        simp [fuse] at hy
      · intro x hx y hy
        rw [show A ++ fuse ([] : RMap α V) = A from by simp [fuse]] at hx
        exact hAC rfl x hx y hy
  | cons w ws =>
    have hw0wf : w.1 < w.2.1 := hWwf w (List.mem_cons_self _ _)
    have hwswf : ∀ x ∈ ws, x.1 < x.2.1 :=
      fun x hx => hWwf x (List.mem_cons_of_mem _ hx)
    obtain ⟨⟨e2, T, hT, he2⟩, hlast, hwf, hchain⟩ :=
      fuseAux_spec ws w hw0wf hwswf hWch
    have hfuse : fuse (w :: ws) = fuseAux ws w := rfl
    rw [hfuse]
    have hFne : fuseAux ws w ≠ [] := by
      rw [hT]
      exact List.cons_ne_nil _ _
    refine ⟨?_, ?_⟩
    · intro x hx
      rcases List.mem_append.1 hx with h | h
      · rcases List.mem_append.1 h with h | h
        · exact hAwf x h
        · exact hwf x h
      · exact hCwf x h
    · rw [List.chain'_append]
      refine ⟨?_, hCch, ?_⟩
      · rw [List.chain'_append]
        refine ⟨hAch, hchain, ?_⟩
        intro x hx y hy
        rw [hT] at hy
        simp only [List.head?_cons, Option.mem_def, Option.some.injEq] at hy
        subst hy
        have h2 := hAW x hx w rfl
        exact ⟨h2.1, h2.2⟩
      · intro x hx y hy
        rw [List.getLast?_append_of_ne_nil _ hFne] at hx
        have hx2 : (fuseAux ws w).getLast? = some x := hx
        have h3 : ((fuseAux ws w).map (fun z => z.2)).getLast? = some x.2 := by
          rw [List.getLast?_map, hx2]
          rfl
        have h4 : ((w :: ws).map (fun z => z.2)).getLast? = some x.2 := by
          rw [← hlast]
          exact h3
        have h5 := hWC x.2 h4 y hy
        exact ⟨h5.1, h5.2⟩

/-- The head of the sweep's emitted segment starts at the cursor. -/
theorem emitted_head_key (value : V) (re : α) (mg : V → V → V) :
    ∀ (M : RMap α V) (cur : α) (coal : V),
    (∀ x ∈ M, cur ≤ x.1) →
    ∀ h ∈ (emitted value re mg M cur coal).head?, h.1 = cur := by
  intro M
  induction M with
  | nil =>
    intro cur coal _ h hh
    simp only [emitted] at hh
    by_cases hcr : cur < re
    · rw [if_pos hcr] at hh
      simp only [List.head?_cons, Option.mem_def, Option.some.injEq] at hh
      rw [← hh]
    · rw [if_neg hcr] at hh
      simp at hh
  | cons x rest ih =>
    intro cur coal hcur h hh
    obtain ⟨s1, e1, v1⟩ := x
    cases hco : coalesce v1 coal with
    | some v2 =>
      rw [emitted_cons_absorb value re mg s1 e1 v1 rest cur coal v2 hco] at hh
      exact ih cur v2 (fun y hy => hcur y (List.mem_cons_of_mem _ hy)) h hh
    | none =>
      have hcs : cur ≤ s1 := hcur _ (List.mem_cons_self _ _)
      by_cases he : e1 ≤ re
      · rw [emitted_cons_next value re mg s1 e1 v1 rest cur coal hco he] at hh
        by_cases hgap : cur < s1
        · rw [if_pos hgap, if_pos hgap] at hh
          simp only [List.cons_append, List.head?_cons, Option.mem_def,
            Option.some.injEq] at hh
          rw [← hh]
        · rw [if_neg hgap, if_neg hgap] at hh
          simp only [List.nil_append, List.head?_cons, Option.mem_def,
            Option.some.injEq] at hh
          rw [← hh]
          exact (le_antisymm hcs (not_lt.1 hgap)).symm
      · rw [emitted_cons_big value re mg s1 e1 v1 rest cur coal hco he] at hh
        by_cases hgap : cur < s1
        · rw [if_pos hgap, if_pos hgap] at hh
          simp only [List.cons_append, List.head?_cons, Option.mem_def,
            Option.some.injEq] at hh
          rw [← hh]
        · rw [if_neg hgap, if_neg hgap] at hh
          simp only [List.nil_append, List.head?_cons, Option.mem_def,
            Option.some.injEq] at hh
          rw [← hh]
          exact (le_antisymm hcs (not_lt.1 hgap)).symm

/-- Every entry of the emitted segment is a non-empty range. -/
theorem emitted_wf (value : V) (re : α) (mg : V → V → V) :
    ∀ (M : RMap α V) (cur : α) (coal : V),
    (∀ x ∈ M, x.1 < x.2.1) →
    (M.Pairwise fun a b => a.2.1 ≤ b.1) →
    (∀ x ∈ M, x.1 < re) →
    ∀ y ∈ emitted value re mg M cur coal, y.1 < y.2.1 := by
  intro M
  induction M with
  | nil =>
    intro cur coal _ _ _ y hy
    simp only [emitted] at hy
    by_cases hcr : cur < re
    · rw [if_pos hcr] at hy
      rcases List.mem_cons.1 hy with rfl | hy
      · exact hcr
      · exact absurd hy (List.not_mem_nil y)
    · rw [if_neg hcr] at hy
      exact absurd hy (List.not_mem_nil y)
  | cons x rest ih =>
    intro cur coal hwf hsort hre y hy
    obtain ⟨s1, e1, v1⟩ := x
    have hse : s1 < e1 := hwf _ (List.mem_cons_self _ _)
    have hsre : s1 < re := hre _ (List.mem_cons_self _ _)
    have hrest_ge : ∀ z ∈ rest, e1 ≤ z.1 :=
      fun z hz => List.rel_of_pairwise_cons hsort hz
    have hwf2 : ∀ z ∈ rest, z.1 < z.2.1 :=
      fun z hz => hwf z (List.mem_cons_of_mem _ hz)
    have hre2 : ∀ z ∈ rest, z.1 < re :=
      fun z hz => hre z (List.mem_cons_of_mem _ hz)
    cases hco : coalesce v1 coal with
    | some v2 =>
      rw [emitted_cons_absorb value re mg s1 e1 v1 rest cur coal v2 hco] at hy
      exact ih cur v2 hwf2 hsort.of_cons hre2 y hy
    | none =>
      by_cases he : e1 ≤ re
      · rw [emitted_cons_next value re mg s1 e1 v1 rest cur coal hco he] at hy
        rcases List.mem_append.1 hy with h1 | h1
        · by_cases hgap : cur < s1
          · rw [if_pos hgap] at h1
            rcases List.mem_cons.1 h1 with rfl | h1
            · exact hgap
            · exact absurd h1 (List.not_mem_nil y)
          · rw [if_neg hgap] at h1
            exact absurd h1 (List.not_mem_nil y)
        · rcases List.mem_cons.1 h1 with rfl | h1
          · exact hse
          · exact ih e1 _ hwf2 hsort.of_cons hre2 y h1
      · have hrestnil : rest = [] := by
          cases rest with
          | nil => rfl
          | cons z zs =>
            exact absurd
              (le_of_lt (lt_of_le_of_lt (hrest_ge z (List.mem_cons_self _ _))
                (hre2 z (List.mem_cons_self _ _)))) he
        subst hrestnil
        rw [emitted_cons_big value re mg s1 e1 v1 [] cur coal hco he] at hy
        rcases List.mem_append.1 hy with h1 | h1
        · by_cases hgap : cur < s1
          · rw [if_pos hgap] at h1
            rcases List.mem_cons.1 h1 with rfl | h1
            · exact hgap
            · exact absurd h1 (List.not_mem_nil y)
          · rw [if_neg hgap] at h1
            exact absurd h1 (List.not_mem_nil y)
        · rcases List.mem_cons.1 h1 with rfl | h1
          · exact hsre
          · rcases List.mem_cons.1 h1 with rfl | h1
            · exact not_le.1 he
            · simp only [emitted, if_neg (lt_irrefl re)] at h1
              exact absurd h1 (List.not_mem_nil y)

/-- Consecutive emitted entries are disjoint and in order. -/
theorem emitted_chain (value : V) (re : α) (mg : V → V → V) :
    ∀ (M : RMap α V) (cur : α) (coal : V),
    (∀ x ∈ M, x.1 < x.2.1) →
    (M.Pairwise fun a b => a.2.1 ≤ b.1) →
    (∀ x ∈ M, x.1 < re) →
    (emitted value re mg M cur coal).Chain' (fun a b => a.2.1 ≤ b.1) := by
  intro M
  induction M with
  | nil =>
    intro cur coal _ _ _
    simp only [emitted]
    by_cases hcr : cur < re
    · rw [if_pos hcr]
      exact List.chain'_singleton _
    · rw [if_neg hcr]
      exact List.chain'_nil
  | cons x rest ih =>
    intro cur coal hwf hsort hre
    obtain ⟨s1, e1, v1⟩ := x
    have hrest_ge : ∀ z ∈ rest, e1 ≤ z.1 :=
      fun z hz => List.rel_of_pairwise_cons hsort hz
    have hwf2 : ∀ z ∈ rest, z.1 < z.2.1 :=
      fun z hz => hwf z (List.mem_cons_of_mem _ hz)
    have hre2 : ∀ z ∈ rest, z.1 < re :=
      fun z hz => hre z (List.mem_cons_of_mem _ hz)
    cases hco : coalesce v1 coal with
    | some v2 =>
      rw [emitted_cons_absorb value re mg s1 e1 v1 rest cur coal v2 hco]
      exact ih cur v2 hwf2 hsort.of_cons hre2
    | none =>
      have hcoretail : (((s1, e1, mg v1 (if cur < s1 then value else coal)) ::
          emitted value re mg rest e1 (if cur < s1 then value else coal))
            : RMap α V).Chain' (fun a b => a.2.1 ≤ b.1) := by
        rw [List.chain'_cons']
        refine ⟨?_, ih e1 _ hwf2 hsort.of_cons hre2⟩
        intro z hz
        have hk := emitted_head_key value re mg rest e1 _ hrest_ge z hz
        rw [hk]
      by_cases he : e1 ≤ re
      · rw [emitted_cons_next value re mg s1 e1 v1 rest cur coal hco he]
        by_cases hgap : cur < s1
        · rw [if_pos hgap]
          rw [List.singleton_append, List.chain'_cons]
          exact ⟨le_refl s1, hcoretail⟩
        · rw [if_neg hgap, List.nil_append]
          exact hcoretail
      · have hrestnil : rest = [] := by
          cases rest with
          | nil => rfl
          | cons z zs =>
            exact absurd
              (le_of_lt (lt_of_le_of_lt (hrest_ge z (List.mem_cons_self _ _))
                (hre2 z (List.mem_cons_self _ _)))) he
        subst hrestnil
        rw [emitted_cons_big value re mg s1 e1 v1 [] cur coal hco he]
        have htail2 : (((s1, re, mg v1 (if cur < s1 then value else coal)) ::
            (re, e1, v1) :: emitted value re mg [] re
              (if cur < s1 then value else coal)) : RMap α V).Chain'
            (fun a b => a.2.1 ≤ b.1) := by
          simp only [emitted, if_neg (lt_irrefl re)]
          rw [List.chain'_cons]
          exact ⟨le_refl re, List.chain'_singleton _⟩
        by_cases hgap : cur < s1
        · rw [if_pos hgap]
          rw [List.singleton_append, List.chain'_cons]
          exact ⟨le_refl s1, htail2⟩
        · rw [if_neg hgap, List.nil_append]
          exact htail2

/-- When the window starts strictly below every stored entry, the emitted
segment opens with a gap entry carrying the coalesced value. -/
theorem emitted_head_gap (value : V) (re : α) (mg : V → V → V) :
    ∀ (M : RMap α V) (cur : α) (coal : V),
    (∀ x ∈ M, cur < x.1) → cur < re →
    ∃ e2 T, emitted value re mg M cur coal = (cur, e2, coal) :: T ∧
      ((∃ x ∈ M, e2 = x.1) ∨ e2 = re) := by
  intro M
  induction M with
  | nil =>
    intro cur coal _ hcr
    refine ⟨re, [], ?_, Or.inr rfl⟩
    simp only [emitted]
    rw [if_pos hcr]
  | cons x rest ih =>
    intro cur coal hcur hcr
    obtain ⟨s1, e1, v1⟩ := x
    have hgap : cur < s1 := hcur _ (List.mem_cons_self _ _)
    cases hco : coalesce v1 coal with
    | some v2 =>
      have hv1 : v1 = coal := by
        by_contra hc
        simp [coalesce, hc] at hco
      have hv2 : v2 = coal := by
        simp only [coalesce, if_pos hv1] at hco
        rw [← Option.some.inj hco, hv1]
      obtain ⟨e2, T, hE, hloc⟩ := ih cur v2
        (fun y hy => hcur y (List.mem_cons_of_mem _ hy)) hcr
      rw [emitted_cons_absorb value re mg s1 e1 v1 rest cur coal v2 hco, hE,
        hv2]
      refine ⟨e2, T, rfl, ?_⟩
      rcases hloc with ⟨x, hx, h2⟩ | h2
      · exact Or.inl ⟨x, List.mem_cons_of_mem _ hx, h2⟩
      · exact Or.inr h2
    | none =>
      by_cases he : e1 ≤ re
      · rw [emitted_cons_next value re mg s1 e1 v1 rest cur coal hco he,
          if_pos hgap, if_pos hgap, List.singleton_append]
        exact ⟨s1, _, rfl, Or.inl ⟨(s1, e1, v1), List.mem_cons_self _ _, rfl⟩⟩
      · rw [emitted_cons_big value re mg s1 e1 v1 rest cur coal hco he,
          if_pos hgap, if_pos hgap, List.singleton_append]
        exact ⟨s1, _, rfl, Or.inl ⟨(s1, e1, v1), List.mem_cons_self _ _, rfl⟩⟩

/-- The last emitted entry either ends inside the window or is the split
remainder of a stored entry straddling the right boundary. -/
theorem emitted_last (value : V) (re : α) (mg : V → V → V) :
    ∀ (M : RMap α V) (cur : α) (coal : V),
    (M.Pairwise fun a b => a.2.1 ≤ b.1) →
    (∀ x ∈ M, x.1 < re) →
    ∀ l ∈ (emitted value re mg M cur coal).getLast?,
      l.2.1 ≤ re ∨ ∃ x ∈ M, l = (re, x.2.1, x.2.2) ∧ re < x.2.1 := by
  intro M
  induction M with
  | nil =>
    intro cur coal _ _ l hl
    simp only [emitted] at hl
    by_cases hcr : cur < re
    · rw [if_pos hcr] at hl
      simp only [List.getLast?_singleton, Option.mem_def, Option.some.injEq] at hl
      rw [← hl]
      exact Or.inl (le_refl re)
    · rw [if_neg hcr] at hl
      simp at hl
  | cons x rest ih =>
    intro cur coal hsort hre l hl
    obtain ⟨s1, e1, v1⟩ := x
    have hrest_ge : ∀ z ∈ rest, e1 ≤ z.1 :=
      fun z hz => List.rel_of_pairwise_cons hsort hz
    have hre2 : ∀ z ∈ rest, z.1 < re :=
      fun z hz => hre z (List.mem_cons_of_mem _ hz)
    cases hco : coalesce v1 coal with
    | some v2 =>
      rw [emitted_cons_absorb value re mg s1 e1 v1 rest cur coal v2 hco] at hl
      rcases ih cur v2 hsort.of_cons hre2 l hl with h | ⟨x, hx, h2, h3⟩
      · exact Or.inl h
      · exact Or.inr ⟨x, List.mem_cons_of_mem _ hx, h2, h3⟩
    | none =>
      by_cases he : e1 ≤ re
      · rw [emitted_cons_next value re mg s1 e1 v1 rest cur coal hco he] at hl
        rw [List.getLast?_append_of_ne_nil _ (List.cons_ne_nil _ _)] at hl
        cases hE : emitted value re mg rest e1
            (if cur < s1 then value else coal) with
        | nil =>
          rw [hE] at hl
          simp only [List.getLast?_singleton, Option.mem_def,
            Option.some.injEq] at hl
          rw [← hl]
          exact Or.inl he
        | cons r0 R =>
          rw [hE, List.getLast?_cons_cons] at hl
          rw [← hE] at hl
          rcases ih e1 _ hsort.of_cons hre2 l hl with h | ⟨x, hx, h2, h3⟩
          · exact Or.inl h
          · exact Or.inr ⟨x, List.mem_cons_of_mem _ hx, h2, h3⟩
      · have hrestnil : rest = [] := by
          cases rest with
          | nil => rfl
          | cons z zs =>
            exact absurd
              (le_of_lt (lt_of_le_of_lt (hrest_ge z (List.mem_cons_self _ _))
                (hre2 z (List.mem_cons_self _ _)))) he
        subst hrestnil
        rw [emitted_cons_big value re mg s1 e1 v1 [] cur coal hco he] at hl
        rw [List.getLast?_append_of_ne_nil _ (List.cons_ne_nil _ _)] at hl
        simp only [emitted, if_neg (lt_irrefl re)] at hl
        rw [List.getLast?_cons_cons] at hl
        simp only [List.getLast?_singleton, Option.mem_def,
          Option.some.injEq] at hl
        rw [← hl]
        exact Or.inr ⟨(s1, e1, v1), List.mem_cons_self _ _, rfl, not_le.1 he⟩

/-- With a non-degenerate window the sweep always emits something. -/
theorem emitted_ne (value : V) (re : α) (mg : V → V → V) :
    ∀ (M : RMap α V) (cur : α) (coal : V), cur < re →
    emitted value re mg M cur coal ≠ [] := by
  intro M
  induction M with
  | nil =>
    intro cur coal hcr
    simp only [emitted]
    rw [if_pos hcr]
    exact List.cons_ne_nil _ _
  | cons x rest ih =>
    intro cur coal hcr
    obtain ⟨s1, e1, v1⟩ := x
    cases hco : coalesce v1 coal with
    | some v2 =>
      rw [emitted_cons_absorb value re mg s1 e1 v1 rest cur coal v2 hco]
      exact ih cur v2 hcr
    | none =>
      by_cases he : e1 ≤ re
      · rw [emitted_cons_next value re mg s1 e1 v1 rest cur coal hco he]
        intro h
        exact List.cons_ne_nil _ _ (List.append_eq_nil.1 h).2
      · rw [emitted_cons_big value re mg s1 e1 v1 rest cur coal hco he]
        intro h
        exact List.cons_ne_nil _ _ (List.append_eq_nil.1 h).2

/-- Every emitted key lies inside the window `[cur, re]`. -/
theorem emitted_keys (value : V) (re : α) (mg : V → V → V) :
    ∀ (M : RMap α V) (cur : α) (coal : V),
    (∀ x ∈ M, x.1 < x.2.1) →
    (M.Pairwise fun a b => a.2.1 ≤ b.1) →
    (∀ x ∈ M, cur ≤ x.1) →
    (∀ x ∈ M, x.1 < re) →
    cur ≤ re →
    ∀ y ∈ emitted value re mg M cur coal, cur ≤ y.1 ∧ y.1 ≤ re := by
  intro M
  induction M with
  | nil =>
    intro cur coal _ _ _ _ hcr y hy
    simp only [emitted] at hy
    by_cases h : cur < re
    · rw [if_pos h] at hy
      rcases List.mem_cons.1 hy with rfl | hy
      · exact ⟨le_refl _, hcr⟩
      · exact absurd hy (List.not_mem_nil y)
    · rw [if_neg h] at hy
      exact absurd hy (List.not_mem_nil y)
  | cons x rest ih =>
    intro cur coal hwf hsort hcur hre hcr y hy
    obtain ⟨s1, e1, v1⟩ := x
    have hcs : cur ≤ s1 := hcur _ (List.mem_cons_self _ _)
    have hse1 : s1 < e1 := hwf _ (List.mem_cons_self _ _)
    have hwf2 : ∀ z ∈ rest, z.1 < z.2.1 :=
      fun z hz => hwf z (List.mem_cons_of_mem _ hz)
    have hsre : s1 < re := hre _ (List.mem_cons_self _ _)
    have hrest_ge : ∀ z ∈ rest, e1 ≤ z.1 :=
      fun z hz => List.rel_of_pairwise_cons hsort hz
    have hre2 : ∀ z ∈ rest, z.1 < re :=
      fun z hz => hre z (List.mem_cons_of_mem _ hz)
    cases hco : coalesce v1 coal with
    | some v2 =>
      rw [emitted_cons_absorb value re mg s1 e1 v1 rest cur coal v2 hco] at hy
      exact ih cur v2 hwf2 hsort.of_cons
        (fun z hz => hcur z (List.mem_cons_of_mem _ hz)) hre2 hcr y hy
    | none =>
      by_cases he : e1 ≤ re
      · rw [emitted_cons_next value re mg s1 e1 v1 rest cur coal hco he] at hy
        rcases List.mem_append.1 hy with h1 | h1
        · by_cases hgap : cur < s1
          · rw [if_pos hgap] at h1
            rcases List.mem_cons.1 h1 with rfl | h1
            · exact ⟨le_refl _, hcr⟩
            · exact absurd h1 (List.not_mem_nil y)
          · rw [if_neg hgap] at h1
            exact absurd h1 (List.not_mem_nil y)
        · rcases List.mem_cons.1 h1 with rfl | h1
          · exact ⟨hcs, le_of_lt hsre⟩
          · have h2 := ih e1 _ hwf2 hsort.of_cons hrest_ge hre2 he y h1
            exact ⟨le_trans hcs (le_trans (le_of_lt hse1) h2.1), h2.2⟩
      · have hrestnil : rest = [] := by
          cases rest with
          | nil => rfl
          | cons z zs =>
            exact absurd
              (le_of_lt (lt_of_le_of_lt (hrest_ge z (List.mem_cons_self _ _))
                (hre2 z (List.mem_cons_self _ _)))) he
        subst hrestnil
        rw [emitted_cons_big value re mg s1 e1 v1 [] cur coal hco he] at hy
        rcases List.mem_append.1 hy with h1 | h1
        · by_cases hgap : cur < s1
          · rw [if_pos hgap] at h1
            rcases List.mem_cons.1 h1 with rfl | h1
            · exact ⟨le_refl _, hcr⟩
            · exact absurd h1 (List.not_mem_nil y)
          · rw [if_neg hgap] at h1
            exact absurd h1 (List.not_mem_nil y)
        · rcases List.mem_cons.1 h1 with rfl | h1
          · exact ⟨hcs, le_of_lt hsre⟩
          · rcases List.mem_cons.1 h1 with rfl | h1
            · exact ⟨le_trans hcs (le_of_lt hsre), le_refl _⟩
            · simp only [emitted, if_neg (lt_irrefl re)] at h1
              exact absurd h1 (List.not_mem_nil y)

/-- A disjoint chain of non-empty ranges is disjoint pairwise. -/
theorem chain_wf_pairwise (l : RMap α V) (hwf : ∀ x ∈ l, x.1 < x.2.1)
    (hch : l.Chain' fun a b => a.2.1 ≤ b.1) :
    l.Pairwise fun a b => a.2.1 ≤ b.1 := by
  induction l with
  | nil => exact List.Pairwise.nil
  | cons a t ih =>
    have h1 := List.chain'_cons'.1 hch
    have hpt := ih (fun x hx => hwf x (List.mem_cons_of_mem _ hx)) h1.2
    refine List.Pairwise.cons ?_ hpt
    intro b hb
    match t, hb with
    | b0 :: t', hb =>
      have hab0 : a.2.1 ≤ b0.1 := h1.1 b0 rfl
      rcases List.mem_cons.1 hb with rfl | hb
      · exact hab0
      · exact le_trans hab0 (le_trans
          (le_of_lt (hwf b0 (List.mem_cons_of_mem _ (List.mem_cons_self _ _))))
          (List.rel_of_pairwise_cons hpt hb))

/-- Splitting the right outer segment at the window's inclusive right end:
either its first entry starts exactly at `re`, or everything starts
strictly beyond. -/
theorem bsplit (B : RMap α V) (re : α)
    (hB : ∀ b ∈ B, re ≤ b.1) (hsort : B.Pairwise fun a b => a.1 < b.1) :
    (∃ b B2, B = b :: B2 ∧ b.1 = re ∧ ∀ c ∈ B2, re < c.1) ∨
    (∀ b ∈ B, re < b.1) := by
  cases B with
  | nil => exact Or.inr (fun b hb => absurd hb (List.not_mem_nil b))
  | cons b B2 =>
    by_cases hbe : b.1 = re
    · refine Or.inl ⟨b, B2, rfl, hbe, ?_⟩
      intro c hc
      rw [← hbe]
      exact List.rel_of_pairwise_cons hsort hc
    · refine Or.inr ?_
      have hbgt : re < b.1 :=
        lt_of_le_of_ne (hB b (List.mem_cons_self _ _)) (Ne.symm hbe)
      intro c hc
      rcases List.mem_cons.1 hc with rfl | hc
      · exact hbgt
      · exact lt_trans hbgt (List.rel_of_pairwise_cons hsort hc)

/-- The sweep's in-place updates and deferred removals only touch the
middle segment. -/
theorem outer_untouched (P0 M B : RMap α V) (us : List (α × α × V))
    (ks : List α)
    (hus : ∀ u ∈ us, ∃ x ∈ M, u.1 = x.1)
    (hks : ∀ k ∈ ks, ∃ x ∈ M, k = x.1)
    (hP0 : ∀ p ∈ P0, ∀ x ∈ M, p.1 ≠ x.1)
    (hB : ∀ b ∈ B, ∀ x ∈ M, b.1 ≠ x.1) :
    remApply (updApply (P0 ++ M ++ B) us) ks =
      P0 ++ ((M.map (applyUpds us)).filter (fun y => decide (y.1 ∉ ks))) ++ B := by
  rw [updApply_eq_map, remApply_eq_filter, List.map_append, List.map_append,
    List.filter_append, List.filter_append]
  have hmapP : P0.map (applyUpds us) = P0 :=
    (List.map_congr_left (fun p hp => applyUpds_ne _ _ (fun u hu => by
      obtain ⟨x, hx, h2⟩ := hus u hu
      rw [h2]
      exact hP0 p hp x hx))).trans (List.map_id P0)
  have hmapB : B.map (applyUpds us) = B :=
    (List.map_congr_left (fun b hb => applyUpds_ne _ _ (fun u hu => by
      obtain ⟨x, hx, h2⟩ := hus u hu
      rw [h2]
      exact hB b hb x hx))).trans (List.map_id B)
  rw [hmapP, hmapB]
  have hfP : P0.filter (fun y => decide (y.1 ∉ ks)) = P0 :=
    List.filter_eq_self.mpr (fun p hp => by
      rw [decide_eq_true_eq]
      intro hmem
      obtain ⟨x, hx, h2⟩ := hks _ hmem
      exact hP0 p hp x hx h2)
  have hfB : B.filter (fun y => decide (y.1 ∉ ks)) = B :=
    List.filter_eq_self.mpr (fun b hb => by
      rw [decide_eq_true_eq]
      intro hmem
      obtain ⟨x, hx, h2⟩ := hks _ hmem
      exact hB b hb x hx h2)
  rw [hfP, hfB]

/-- The `insert_with` pipeline with the left-boundary step's result
substituted. -/
theorem insert_with_eq (m : RMap α V) (rs re : α) (value : V)
    (mg : V → V → V) (m1 : RMap α V) (lb : List (α × α × V)) (c0 : α)
    (hLB : leftBlock m rs re value mg = (m1, lb, c0)) :
    insert_with m rs re value mg =
      coalesce_in_range
        (insApply
          (remApply
            (updApply m1 (sweep value re mg (between m1 rs re) c0 value).upds)
            (sweep value re mg (between m1 rs re) c0 value).rem)
          (lb ++ (sweep value re mg (between m1 rs re) c0 value).ins ++
            (if (sweep value re mg (between m1 rs re) c0 value).cur < re
             then [((sweep value re mg (between m1 rs re) c0 value).cur, re,
                   (sweep value re mg (between m1 rs re) c0 value).coal)]
             else [])))
        rs re := by
  show coalesce_in_range _ rs re = _
  rw [show (leftBlock m rs re value mg).1 = m1 from by rw [hLB],
    show (leftBlock m rs re value mg).2.1 = lb from by rw [hLB],
    show (leftBlock m rs re value mg).2.2 = c0 from by rw [hLB]]

/-- When no stored entry straddles the right boundary, every emitted key
is strictly inside the window. -/
theorem emitted_key_lt (value : V) (re : α) (mg : V → V → V) :
    ∀ (M : RMap α V) (cur : α) (coal : V),
    (∀ x ∈ M, x.1 < x.2.1) →
    (∀ x ∈ M, x.2.1 ≤ re) →
    ∀ y ∈ emitted value re mg M cur coal, y.1 < re := by
  intro M
  induction M with
  | nil =>
    intro cur coal _ _ y hy
    simp only [emitted] at hy
    by_cases h : cur < re
    · rw [if_pos h] at hy
      rcases List.mem_cons.1 hy with rfl | hy
      · exact h
      · exact absurd hy (List.not_mem_nil y)
    · rw [if_neg h] at hy
      exact absurd hy (List.not_mem_nil y)
  | cons x rest ih =>
    intro cur coal hwf hends y hy
    obtain ⟨s1, e1, v1⟩ := x
    have he1 : e1 ≤ re := hends _ (List.mem_cons_self _ _)
    have hs1 : s1 < re := lt_of_lt_of_le (hwf _ (List.mem_cons_self _ _)) he1
    have hwf2 : ∀ z ∈ rest, z.1 < z.2.1 :=
      fun z hz => hwf z (List.mem_cons_of_mem _ hz)
    have hends2 : ∀ z ∈ rest, z.2.1 ≤ re :=
      fun z hz => hends z (List.mem_cons_of_mem _ hz)
    cases hco : coalesce v1 coal with
    | some v2 =>
      rw [emitted_cons_absorb value re mg s1 e1 v1 rest cur coal v2 hco] at hy
      exact ih cur v2 hwf2 hends2 y hy
    | none =>
      rw [emitted_cons_next value re mg s1 e1 v1 rest cur coal hco he1] at hy
      rcases List.mem_append.1 hy with h1 | h1
      · by_cases hgap : cur < s1
        · rw [if_pos hgap] at h1
          rcases List.mem_cons.1 h1 with rfl | h1
          · exact lt_trans hgap hs1
          · exact absurd h1 (List.not_mem_nil y)
        · rw [if_neg hgap] at h1
          exact absurd h1 (List.not_mem_nil y)
      · rcases List.mem_cons.1 h1 with rfl | h1
        · exact hs1
        · exact ih e1 _ hwf2 hends2 y h1

theorem map2_getLast_concat (L : RMap α V) (b : α × α × V) :
    ((L ++ [b]).map (fun x => x.2)).getLast? = some b.2 := by
  rw [List.map_append, List.map_cons, List.map_nil, List.getLast?_concat]

omit [LinearOrder α] [DecidableEq V] in
theorem getLast?_mem {l : RMap α V} {a : α × α × V} (h : l.getLast? = some a) :
    a ∈ l := by
  obtain ⟨h9, h10⟩ := List.mem_getLast?_eq_getLast h
  rw [h10]
  exact List.getLast_mem h9

omit [LinearOrder α] [DecidableEq V] in
theorem pairwise_three {R : (α × α × V) → (α × α × V) → Prop}
    (A W C : RMap α V)
    (hA : A.Pairwise R) (hW : W.Pairwise R) (hC : C.Pairwise R)
    (hAW : ∀ a ∈ A, ∀ w ∈ W, R a w)
    (hAC : ∀ a ∈ A, ∀ c ∈ C, R a c)
    (hWC : ∀ w ∈ W, ∀ c ∈ C, R w c) :
    (A ++ W ++ C).Pairwise R := by
  rw [List.pairwise_append]
  refine ⟨List.pairwise_append.mpr ⟨hA, hW, hAW⟩, hC, ?_⟩
  intro x hx c hc
  rcases List.mem_append.1 hx with h | h
  · exact hAC x h c hc
  · exact hWC x h c hc

/-- Final composition: a correctly decomposed window is fused and the
result satisfies the invariant. -/
theorem inv_fused_final (A W C : RMap α V) (lo hi : α)
    (hwin : range_biinclusive (A ++ W ++ C) lo hi = W)
    (hkeysAll : (A ++ W ++ C).Pairwise fun a b => a.1 < b.1)
    (hAwf : ∀ a ∈ A, a.1 < a.2.1) (hAch : A.Chain' pairOK)
    (hCwf : ∀ c ∈ C, c.1 < c.2.1) (hCch : C.Chain' pairOK)
    (hWwf : ∀ w ∈ W, w.1 < w.2.1)
    (hWch : W.Chain' fun a b => a.2.1 ≤ b.1)
    (hAW : ∀ a ∈ A.getLast?, ∀ w ∈ W.head?, pairOK a w)
    (hWC : ∀ p ∈ (W.map fun x => x.2).getLast?, ∀ c ∈ C.head?,
      p.1 ≤ c.1 ∧ (p.1 = c.1 → p.2 ≠ c.2.2))
    (hAC : W = [] → ∀ a ∈ A.getLast?, ∀ c ∈ C.head?, pairOK a c) :
    Inv (coalesce_in_range (A ++ W ++ C) lo hi) := by
  rw [coalesce_in_range_decomp A W C lo hi hwin hkeysAll]
  exact inv_append_fused A W C hAwf hAch hCwf hCch hWwf hWch hAW hWC hAC

/-- The no-op left-boundary cases: the emitted window starts exactly at
`range.start` and the stored prefix ends at or before it. -/
theorem inv_window_noop (X E B : RMap α V) (rs re : α) (hlt : rs < re)
    (hXwf : ∀ x ∈ X, x.1 < x.2.1)
    (hXent : X.Pairwise entRel)
    (hX : ∀ x ∈ X, x.1 < rs)
    (hXe : ∀ a ∈ X.getLast?, a.2.1 ≤ rs)
    (hBwf : ∀ b ∈ B, b.1 < b.2.1)
    (hBent : B.Pairwise entRel)
    (hB : ∀ b ∈ B, re ≤ b.1)
    (hEwf : ∀ y ∈ E, y.1 < y.2.1)
    (hEch : E.Chain' fun a b => a.2.1 ≤ b.1)
    (hEkeys : ∀ y ∈ E, rs ≤ y.1 ∧ y.1 ≤ re)
    (hEne : E ≠ [])
    (hEhead : ∀ h ∈ E.head?, h.1 = rs)
    (hECle : ∀ l ∈ E.getLast?, ∀ c ∈ B, l.2.1 ≤ c.1)
    (hECne : ∀ l ∈ E.getLast?, ∀ c ∈ B, re < c.1 →
      l.2.1 = c.1 → l.2.2 ≠ c.2.2)
    (hEkB : ∀ y ∈ E, ∀ b ∈ B, y.1 < b.1) :
    Inv (coalesce_in_range (X ++ E ++ B) rs re) := by
  have hXsortk : X.Pairwise (fun a b => a.1 < b.1) := hXent.imp (fun h => h.2.1)
  have hBsortk : B.Pairwise (fun a b => a.1 < b.1) := hBent.imp (fun h => h.2.1)
  have hEsortk : E.Pairwise (fun a b => a.1 < b.1) :=
    (chain_wf_pairwise E hEwf hEch).imp_of_mem
      (fun ha _ h => lt_of_lt_of_le (hEwf _ ha) h)
  have hXch : X.Chain' pairOK := (hXent.imp (fun h => ⟨h.1, h.2.2.2⟩)).chain'
  have hBch : B.Chain' pairOK := (hBent.imp (fun h => ⟨h.1, h.2.2.2⟩)).chain'
  have hXE : ∀ x ∈ X, ∀ y ∈ E, x.1 < y.1 :=
    fun x hx y hy => lt_of_lt_of_le (hX x hx) (hEkeys y hy).1
  have hXB : ∀ x ∈ X, ∀ b ∈ B, x.1 < b.1 :=
    fun x hx b hb =>
      lt_of_lt_of_le (lt_trans (hX x hx) hlt) (hB b hb)
  obtain ⟨e0, E2, hE0⟩ := List.exists_cons_of_ne_nil hEne
  subst hE0
  have he0 : e0.1 = rs := hEhead e0 rfl
  rcases bsplit B re hB hBsortk with ⟨b, B2, rfl, hbe, hB2⟩ | hBgt
  · -- the first outer entry starts exactly at the window's right end
    have hbwf : b.1 < b.2.1 := hBwf b (List.mem_cons_self _ _)
    have hB2wf : ∀ c ∈ B2, c.1 < c.2.1 :=
      fun c hc => hBwf c (List.mem_cons_of_mem _ hc)
    have hB2ch : B2.Chain' pairOK :=
      ((List.pairwise_cons.1 hBent).2.imp (fun h => ⟨h.1, h.2.2.2⟩)).chain'
    have hbB2 : ∀ c ∈ B2, entRel b c :=
      fun c hc => List.rel_of_pairwise_cons hBent hc
    have hWwf : ∀ w ∈ (e0 :: E2) ++ [b], w.1 < w.2.1 := by
      intro w hw
      rcases List.mem_append.1 hw with h | h
      · exact hEwf w h
      · rcases List.mem_cons.1 h with rfl | h
        · exact hbwf
        · exact absurd h (List.not_mem_nil w)
    have hWch : (((e0 :: E2) ++ [b]) : RMap α V).Chain'
        (fun a b => a.2.1 ≤ b.1) := by
      rw [List.chain'_append]
      refine ⟨hEch, List.chain'_singleton _, ?_⟩
      intro x hx y hy
      simp only [List.head?_cons, Option.mem_def, Option.some.injEq] at hy
      subst hy
      exact hECle x hx b (List.mem_cons_self _ _)
    have hWkeys : ∀ w ∈ (e0 :: E2) ++ [b], rs ≤ w.1 ∧ w.1 ≤ re := by
      intro w hw
      rcases List.mem_append.1 hw with h | h
      · exact ⟨(hEkeys w h).1,
          le_of_lt (hbe ▸ hEkB w h b (List.mem_cons_self _ _))⟩
      · rcases List.mem_cons.1 h with rfl | h
        · exact ⟨le_trans (le_of_lt hlt) (le_of_eq hbe.symm), le_of_eq hbe⟩
        · exact absurd h (List.not_mem_nil w)
    have hWsortk : (((e0 :: E2) ++ [b]) : RMap α V).Pairwise
        (fun a b => a.1 < b.1) := by
      rw [List.pairwise_append]
      refine ⟨hEsortk, List.pairwise_singleton _ _, ?_⟩
      intro y hy z hz
      rcases List.mem_cons.1 hz with rfl | hz
      · exact hEkB y hy z (List.mem_cons_self _ _)
      · exact absurd hz (List.not_mem_nil z)
    have hWC2 : ∀ p ∈ ((((e0 :: E2) ++ [b]) : RMap α V).map
        (fun x => x.2)).getLast?, ∀ c ∈ B2.head?,
        p.1 ≤ c.1 ∧ (p.1 = c.1 → p.2 ≠ c.2.2) := by
      intro p hp c hc
      rw [map2_getLast_concat] at hp
      simp only [Option.mem_def, Option.some.injEq] at hp
      subst hp
      have hcB2 : c ∈ B2 := by
        cases B2 with
        | nil => simp at hc
        | cons c0 cs =>
          simp only [List.head?_cons, Option.mem_def, Option.some.injEq] at hc
          subst hc
          exact List.mem_cons_self _ _
      have h2 := hbB2 c hcB2
      exact ⟨h2.1, h2.2.2.2⟩
    have hB2gt : ∀ c ∈ B2, ∀ w ∈ (e0 :: E2) ++ [b], w.1 < c.1 := by
      intro c hc w hw
      exact lt_of_le_of_lt (hWkeys w hw).2 (hbe ▸ hB2 c hc)
    have hshape : X ++ (e0 :: E2) ++ b :: B2 = X ++ ((e0 :: E2) ++ [b]) ++ B2 := by
      simp
    rw [hshape]
    cases hXl : X.getLast? with
    | none =>
      have hXnil : X = [] := List.getLast?_eq_none.1 hXl
      subst hXnil
      refine inv_fused_final [] ((e0 :: E2) ++ [b]) B2 rs re ?_ ?_ ?_ ?_ ?_ ?_
        ?_ ?_ ?_ ?_ ?_
      · exact window_nopred [] _ B2 rs re (le_of_lt hlt)
          (fun a ha => absurd ha (List.not_mem_nil a))
          (fun a ha => by simp at ha) hWkeys (fun c hc => hbe ▸ hB2 c hc)
      · refine pairwise_three [] _ B2 List.Pairwise.nil hWsortk
          ((List.pairwise_cons.1 hBsortk).2) ?_ ?_ ?_
        · intro a ha
          exact absurd ha (List.not_mem_nil a)
        · intro a ha
          exact absurd ha (List.not_mem_nil a)
        · intro w hw c hc
          exact hB2gt c hc w hw
      · intro a ha
        exact absurd ha (List.not_mem_nil a)
      · exact List.chain'_nil
      · exact hB2wf
      · exact hB2ch
      · exact hWwf
      · exact hWch
      · intro a ha
        simp at ha
      · exact hWC2
      · intro hW
        exact absurd hW (List.append_ne_nil_of_left_ne_nil (List.cons_ne_nil _ _) _)
    | some a =>
      have haers : a.2.1 ≤ rs := hXe a hXl
      have hamem : a ∈ X := getLast?_mem hXl
      have hars : a.1 < rs := hX a hamem
      by_cases hae : a.2.1 = rs
      · -- the prefix's last entry touches the window: it joins it
        obtain ⟨X0, hX0⟩ := getLast?_decomp X a hXl
        subst hX0
        have hsplitX := List.pairwise_append.1 hXent
        have hX0ent : X0.Pairwise entRel := hsplitX.1
        have hX0a_ent : ∀ x ∈ X0, entRel x a :=
          fun x hx => hsplitX.2.2 x hx a (List.mem_cons_self _ _)
        have hX0a : ∀ x ∈ X0, x.1 < a.1 := fun x hx => (hX0a_ent x hx).2.1
        have hX0wf : ∀ x ∈ X0, x.1 < x.2.1 :=
          fun x hx => hXwf x (List.mem_append.2 (Or.inl hx))
        have hX0ch : X0.Chain' pairOK :=
          (hX0ent.imp (fun h => ⟨h.1, h.2.2.2⟩)).chain'
        have hX0rs : ∀ x ∈ X0, x.1 < rs :=
          fun x hx => hX x (List.mem_append.2 (Or.inl hx))
        have hawf : a.1 < a.2.1 := hXwf a hamem
        have hshape2 : (X0 ++ [a]) ++ ((e0 :: E2) ++ [b]) ++ B2 =
            X0 ++ (a :: ((e0 :: E2) ++ [b])) ++ B2 := by
          simp
        rw [hshape2]
        refine inv_fused_final X0 (a :: ((e0 :: E2) ++ [b])) B2 rs re ?_ ?_
          hX0wf hX0ch hB2wf hB2ch ?_ ?_ ?_ ?_ ?_
        · exact window_pred X0 a _ B2 rs re (le_of_lt hlt) hX0a hars
            (le_of_eq hae.symm) hWkeys (fun c hc => hbe ▸ hB2 c hc)
        · refine pairwise_three X0 _ B2 (hX0ent.imp (fun h => h.2.1)) ?_
            ((List.pairwise_cons.1 hBsortk).2) ?_ ?_ ?_
          · refine List.Pairwise.cons ?_ hWsortk
            intro w hw
            exact lt_of_lt_of_le hars (hWkeys w hw).1
          · intro x hx w hw
            rcases List.mem_cons.1 hw with rfl | hw
            · exact hX0a x hx
            · exact lt_of_lt_of_le (hX0rs x hx) (hWkeys w hw).1
          · intro x hx c hc
            exact lt_trans (lt_trans (hX0rs x hx) hlt) (hbe ▸ hB2 c hc)
          · intro w hw c hc
            rcases List.mem_cons.1 hw with rfl | hw
            · exact lt_trans (lt_trans hars hlt) (hbe ▸ hB2 c hc)
            · exact hB2gt c hc w hw
        · intro w hw
          rcases List.mem_cons.1 hw with rfl | hw
          · exact hawf
          · exact hWwf w hw
        · rw [List.chain'_cons']
          refine ⟨?_, hWch⟩
          intro y hy
          simp only [List.cons_append, List.head?_cons, Option.mem_def,
            Option.some.injEq] at hy
          subst hy
          rw [hae, he0]
        · intro x hx w hw
          simp only [List.head?_cons, Option.mem_def, Option.some.injEq] at hw
          subst hw
          have h2 := hX0a_ent x (getLast?_mem hx)
          exact ⟨h2.1, h2.2.2.2⟩
        · intro p hp c hc
          have h3 : ((a :: e0 :: E2) ++ [b]).map (fun x => x.2) =
              (a :: ((e0 :: E2) ++ [b])).map (fun x => x.2) := rfl
          rw [← h3, map2_getLast_concat] at hp
          simp only [Option.mem_def, Option.some.injEq] at hp
          subst hp
          have hcB2 : c ∈ B2 := by
            cases B2 with
            | nil => simp at hc
            | cons c0 cs =>
              simp only [List.head?_cons, Option.mem_def, Option.some.injEq] at hc
              subst hc
              exact List.mem_cons_self _ _
          have h2 := hbB2 c hcB2
          exact ⟨h2.1, h2.2.2.2⟩
        · intro hW
          exact absurd hW (List.cons_ne_nil _ _)
      · -- the prefix ends strictly before the window
        have haelt : a.2.1 < rs := lt_of_le_of_ne haers hae
        refine inv_fused_final X ((e0 :: E2) ++ [b]) B2 rs re ?_ ?_
          hXwf hXch hB2wf hB2ch hWwf hWch ?_ hWC2 ?_
        · refine window_nopred X _ B2 rs re (le_of_lt hlt) hX ?_ hWkeys
            (fun c hc => hbe ▸ hB2 c hc)
          intro x hx
          rw [hXl] at hx
          simp only [Option.mem_def, Option.some.injEq] at hx
          subst hx
          exact haelt
        · refine pairwise_three X _ B2 hXsortk hWsortk
            ((List.pairwise_cons.1 hBsortk).2) ?_ ?_ ?_
          · intro x hx w hw
            exact lt_of_lt_of_le (hX x hx) (hWkeys w hw).1
          · intro x hx c hc
            exact lt_trans (lt_trans (hX x hx) hlt) (hbe ▸ hB2 c hc)
          · intro w hw c hc
            exact hB2gt c hc w hw
        · intro x hx w hw
          rw [hXl] at hx
          simp only [Option.mem_def, Option.some.injEq] at hx
          subst hx
          simp only [List.cons_append, List.head?_cons, Option.mem_def,
            Option.some.injEq] at hw
          subst hw
          have hlt2 : a.2.1 < e0.1 := by
            rw [he0]
            exact haelt
          exact ⟨le_of_lt hlt2, fun heq => absurd heq (ne_of_lt hlt2)⟩
        · intro hW
          exact absurd hW (List.append_ne_nil_of_left_ne_nil
            (List.cons_ne_nil _ _) _)
  · -- everything beyond the window starts strictly after it
    have hWC3 : ∀ p ∈ (((e0 :: E2) : RMap α V).map (fun x => x.2)).getLast?,
        ∀ c ∈ B.head?, p.1 ≤ c.1 ∧ (p.1 = c.1 → p.2 ≠ c.2.2) := by
      intro p hp c hc
      cases hl : ((e0 :: E2) : RMap α V).getLast? with
      | none => exact absurd (List.getLast?_eq_none.1 hl) (List.cons_ne_nil _ _)
      | some l =>
        rw [List.getLast?_map, hl] at hp
        have hp2 : p = l.2 := (Option.some.inj hp).symm
        subst hp2
        have hcB : c ∈ B := by
          cases B with
          | nil => simp at hc
          | cons c0 cs =>
            simp only [List.head?_cons, Option.mem_def, Option.some.injEq] at hc
            subst hc
            exact List.mem_cons_self _ _
        exact ⟨hECle l hl c hcB, fun heq =>
          hECne l hl c hcB (hBgt c hcB) heq⟩
    cases hXl : X.getLast? with
    | none =>
      have hXnil : X = [] := List.getLast?_eq_none.1 hXl
      subst hXnil
      refine inv_fused_final [] (e0 :: E2) B rs re ?_ ?_ ?_ List.chain'_nil
        hBwf hBch hEwf hEch ?_ hWC3 ?_
      · exact window_nopred [] _ B rs re (le_of_lt hlt)
          (fun a ha => absurd ha (List.not_mem_nil a))
          (fun a ha => by simp at ha) hEkeys hBgt
      · refine pairwise_three [] _ B List.Pairwise.nil hEsortk hBsortk ?_ ?_ ?_
        · intro a ha
          exact absurd ha (List.not_mem_nil a)
        · intro a ha
          exact absurd ha (List.not_mem_nil a)
        · exact hEkB
      · intro a ha
        exact absurd ha (List.not_mem_nil a)
      · intro a ha
        simp at ha
      · intro hW
        exact absurd hW (List.cons_ne_nil _ _)
    | some a =>
      have haers : a.2.1 ≤ rs := hXe a hXl
      have hamem : a ∈ X := getLast?_mem hXl
      have hars : a.1 < rs := hX a hamem
      by_cases hae : a.2.1 = rs
      · obtain ⟨X0, hX0⟩ := getLast?_decomp X a hXl
        subst hX0
        have hsplitX := List.pairwise_append.1 hXent
        have hX0ent : X0.Pairwise entRel := hsplitX.1
        have hX0a_ent : ∀ x ∈ X0, entRel x a :=
          fun x hx => hsplitX.2.2 x hx a (List.mem_cons_self _ _)
        have hX0a : ∀ x ∈ X0, x.1 < a.1 := fun x hx => (hX0a_ent x hx).2.1
        have hX0wf : ∀ x ∈ X0, x.1 < x.2.1 :=
          fun x hx => hXwf x (List.mem_append.2 (Or.inl hx))
        have hX0ch : X0.Chain' pairOK :=
          (hX0ent.imp (fun h => ⟨h.1, h.2.2.2⟩)).chain'
        have hX0rs : ∀ x ∈ X0, x.1 < rs :=
          fun x hx => hX x (List.mem_append.2 (Or.inl hx))
        have hawf : a.1 < a.2.1 := hXwf a hamem
        have hshape2 : (X0 ++ [a]) ++ (e0 :: E2) ++ B =
            X0 ++ (a :: (e0 :: E2)) ++ B := by
          simp
        rw [hshape2]
        refine inv_fused_final X0 (a :: (e0 :: E2)) B rs re ?_ ?_
          hX0wf hX0ch hBwf hBch ?_ ?_ ?_ ?_ ?_
        · exact window_pred X0 a _ B rs re (le_of_lt hlt) hX0a hars
            (le_of_eq hae.symm) hEkeys hBgt
        · refine pairwise_three X0 _ B (hX0ent.imp (fun h => h.2.1)) ?_
            hBsortk ?_ ?_ ?_
          · refine List.Pairwise.cons ?_ hEsortk
            intro w hw
            exact lt_of_lt_of_le hars (hEkeys w hw).1
          · intro x hx w hw
            rcases List.mem_cons.1 hw with rfl | hw
            · exact hX0a x hx
            · exact lt_of_lt_of_le (hX0rs x hx) (hEkeys w hw).1
          · intro x hx c hc
            exact lt_trans (lt_trans (hX0rs x hx) hlt) (hBgt c hc)
          · intro w hw c hc
            rcases List.mem_cons.1 hw with rfl | hw
            · exact lt_trans (lt_trans hars hlt) (hBgt c hc)
            · exact hEkB w hw c hc
        · intro w hw
          rcases List.mem_cons.1 hw with rfl | hw
          · exact hawf
          · exact hEwf w hw
        · rw [List.chain'_cons']
          refine ⟨?_, hEch⟩
          intro y hy
          simp only [List.head?_cons, Option.mem_def, Option.some.injEq] at hy
          subst hy
          rw [hae, he0]
        · intro x hx w hw
          simp only [List.head?_cons, Option.mem_def, Option.some.injEq] at hw
          subst hw
          have h2 := hX0a_ent x (getLast?_mem hx)
          exact ⟨h2.1, h2.2.2.2⟩
        · intro p hp c hc
          have hmap : (((a :: e0 :: E2) : RMap α V).map (fun x => x.2)).getLast? =
              (((e0 :: E2) : RMap α V).map (fun x => x.2)).getLast? := by
            rw [show ((a :: e0 :: E2) : RMap α V) = [a] ++ (e0 :: E2) from rfl,
              List.map_append]
            exact List.getLast?_append_of_ne_nil _ (by simp)
          rw [hmap] at hp
          exact hWC3 p hp c hc
        · intro hW
          exact absurd hW (List.cons_ne_nil _ _)
      · have haelt : a.2.1 < rs := lt_of_le_of_ne haers hae
        refine inv_fused_final X (e0 :: E2) B rs re ?_ ?_
          hXwf hXch hBwf hBch hEwf hEch ?_ hWC3 ?_
        · refine window_nopred X _ B rs re (le_of_lt hlt) hX ?_ hEkeys hBgt
          intro x hx
          rw [hXl] at hx
          simp only [Option.mem_def, Option.some.injEq] at hx
          subst hx
          exact haelt
        · refine pairwise_three X _ B hXsortk hEsortk hBsortk ?_ ?_ hEkB
          · intro x hx w hw
            exact lt_of_lt_of_le (hX x hx) (hEkeys w hw).1
          · intro x hx c hc
            exact lt_trans (lt_trans (hX x hx) hlt) (hBgt c hc)
        · intro x hx w hw
          rw [hXl] at hx
          simp only [Option.mem_def, Option.some.injEq] at hx
          subst hx
          simp only [List.head?_cons, Option.mem_def, Option.some.injEq] at hw
          subst hw
          have hlt2 : a.2.1 < e0.1 := by
            rw [he0]
            exact haelt
          exact ⟨le_of_lt hlt2, fun heq => absurd heq (ne_of_lt hlt2)⟩
        · intro hW
          exact absurd hW (List.cons_ne_nil _ _)

/-- The left-coalesce cases: the emitted window opens at the absorbed
predecessor's start, strictly before `range.start`, and joins the window
as the predecessor entry. -/
theorem inv_window_gap (X0 T B : RMap α V) (s e2 : α) (w0v : V) (rs re : α)
    (hlt : rs < re) (hsrs : s < rs) (he2 : rs ≤ e2)
    (hX0wf : ∀ x ∈ X0, x.1 < x.2.1)
    (hX0ent : X0.Pairwise entRel)
    (hX0s : ∀ x ∈ X0, x.1 < s)
    (hAW0 : ∀ a ∈ X0.getLast?, pairOK a (s, e2, w0v))
    (hBwf : ∀ b ∈ B, b.1 < b.2.1)
    (hBent : B.Pairwise entRel)
    (hB : ∀ b ∈ B, re ≤ b.1)
    (hEwf : ∀ y ∈ (s, e2, w0v) :: T, y.1 < y.2.1)
    (hEch : (((s, e2, w0v) :: T) : RMap α V).Chain' fun a b => a.2.1 ≤ b.1)
    (hTkeys : ∀ y ∈ T, rs ≤ y.1 ∧ y.1 ≤ re)
    (hECle : ∀ l ∈ (((s, e2, w0v) :: T) : RMap α V).getLast?, ∀ c ∈ B,
      l.2.1 ≤ c.1)
    (hECne : ∀ l ∈ (((s, e2, w0v) :: T) : RMap α V).getLast?, ∀ c ∈ B,
      re < c.1 → l.2.1 = c.1 → l.2.2 ≠ c.2.2)
    (hEkB : ∀ y ∈ (s, e2, w0v) :: T, ∀ b ∈ B, y.1 < b.1) :
    Inv (coalesce_in_range (X0 ++ ((s, e2, w0v) :: T) ++ B) rs re) := by
  have hX0sortk : X0.Pairwise (fun a b => a.1 < b.1) :=
    hX0ent.imp (fun h => h.2.1)
  have hBsortk : B.Pairwise (fun a b => a.1 < b.1) := hBent.imp (fun h => h.2.1)
  have hX0ch : X0.Chain' pairOK := (hX0ent.imp (fun h => ⟨h.1, h.2.2.2⟩)).chain'
  have hBch : B.Chain' pairOK := (hBent.imp (fun h => ⟨h.1, h.2.2.2⟩)).chain'
  have hEsortk : (((s, e2, w0v) :: T) : RMap α V).Pairwise
      (fun a b => a.1 < b.1) :=
    (chain_wf_pairwise _ hEwf hEch).imp_of_mem
      (fun ha _ h => lt_of_lt_of_le (hEwf _ ha) h)
  have hWC3 : ∀ p ∈ ((((s, e2, w0v) :: T) : RMap α V).map
      (fun x => x.2)).getLast?, ∀ c ∈ B.head?,
      (∀ b ∈ B, re < b.1) → p.1 ≤ c.1 ∧ (p.1 = c.1 → p.2 ≠ c.2.2) := by
    intro p hp c hc hBgt
    cases hl : (((s, e2, w0v) :: T) : RMap α V).getLast? with
    | none => exact absurd (List.getLast?_eq_none.1 hl) (List.cons_ne_nil _ _)
    | some l =>
      rw [List.getLast?_map, hl] at hp
      have hp2 : p = l.2 := (Option.some.inj hp).symm
      subst hp2
      have hcB : c ∈ B := by
        cases B with
        | nil => simp at hc
        | cons c0 cs =>
          simp only [List.head?_cons, Option.mem_def, Option.some.injEq] at hc
          subst hc
          exact List.mem_cons_self _ _
      exact ⟨hECle l hl c hcB, fun heq => hECne l hl c hcB (hBgt c hcB) heq⟩
  rcases bsplit B re hB hBsortk with ⟨b, B2, rfl, hbe, hB2⟩ | hBgt
  · have hbwf : b.1 < b.2.1 := hBwf b (List.mem_cons_self _ _)
    have hB2wf : ∀ c ∈ B2, c.1 < c.2.1 :=
      fun c hc => hBwf c (List.mem_cons_of_mem _ hc)
    have hB2ch : B2.Chain' pairOK :=
      ((List.pairwise_cons.1 hBent).2.imp (fun h => ⟨h.1, h.2.2.2⟩)).chain'
    have hbB2 : ∀ c ∈ B2, entRel b c :=
      fun c hc => List.rel_of_pairwise_cons hBent hc
    have hshape : X0 ++ ((s, e2, w0v) :: T) ++ b :: B2 =
        X0 ++ ((s, e2, w0v) :: (T ++ [b])) ++ B2 := by
      simp
    rw [hshape]
    have hW1keys : ∀ w ∈ T ++ [b], rs ≤ w.1 ∧ w.1 ≤ re := by
      intro w hw
      rcases List.mem_append.1 hw with h | h
      · exact hTkeys w h
      · rcases List.mem_cons.1 h with rfl | h
        · exact ⟨le_trans (le_of_lt hlt) (le_of_eq hbe.symm), le_of_eq hbe⟩
        · exact absurd h (List.not_mem_nil w)
    refine inv_fused_final X0 ((s, e2, w0v) :: (T ++ [b])) B2 rs re ?_ ?_
      hX0wf hX0ch hB2wf hB2ch ?_ ?_ ?_ ?_ ?_
    · exact window_pred X0 (s, e2, w0v) (T ++ [b]) B2 rs re (le_of_lt hlt)
        hX0s hsrs he2 hW1keys (fun c hc => hbe ▸ hB2 c hc)
    · refine pairwise_three X0 _ B2 hX0sortk ?_
        ((List.pairwise_cons.1 hBsortk).2) ?_ ?_ ?_
      · rw [show ((s, e2, w0v) :: (T ++ [b]) : RMap α V) =
          ((s, e2, w0v) :: T) ++ [b] from by simp]
        rw [List.pairwise_append]
        refine ⟨hEsortk, List.pairwise_singleton _ _, ?_⟩
        intro y hy z hz
        rcases List.mem_cons.1 hz with rfl | hz
        · exact hEkB y hy z (List.mem_cons_self _ _)
        · exact absurd hz (List.not_mem_nil z)
      · intro x hx w hw
        rcases List.mem_cons.1 hw with rfl | hw
        · exact hX0s x hx
        · rcases List.mem_append.1 hw with h | h
          · exact lt_of_lt_of_le (lt_trans (hX0s x hx) hsrs) (hTkeys w h).1
          · rcases List.mem_cons.1 h with rfl | h
            · exact lt_of_lt_of_le (lt_trans (lt_trans (hX0s x hx) hsrs) hlt)
                (le_of_eq hbe.symm)
            · exact absurd h (List.not_mem_nil w)
      · intro x hx c hc
        exact lt_trans (lt_trans (lt_trans (hX0s x hx) hsrs) hlt)
          (hbe ▸ hB2 c hc)
      · intro w hw c hc
        have hwre : w.1 ≤ re := by
          rcases List.mem_cons.1 hw with rfl | hw
          · exact le_trans (le_of_lt hsrs) (le_of_lt hlt)
          · exact (hW1keys w hw).2
        exact lt_of_le_of_lt hwre (hB2 c hc)
    · intro w hw
      rcases List.mem_cons.1 hw with rfl | hw
      · exact hEwf _ (List.mem_cons_self _ _)
      · rcases List.mem_append.1 hw with h | h
        · exact hEwf w (List.mem_cons_of_mem _ h)
        · rcases List.mem_cons.1 h with rfl | h
          · exact hbwf
          · exact absurd h (List.not_mem_nil w)
    · rw [show ((s, e2, w0v) :: (T ++ [b]) : RMap α V) =
        ((s, e2, w0v) :: T) ++ [b] from by simp]
      rw [List.chain'_append]
      refine ⟨hEch, List.chain'_singleton _, ?_⟩
      intro x hx y hy
      simp only [List.head?_cons, Option.mem_def, Option.some.injEq] at hy
      subst hy
      exact hECle x hx b (List.mem_cons_self _ _)
    · intro a ha w hw
      simp only [List.head?_cons, Option.mem_def, Option.some.injEq] at hw
      subst hw
      exact hAW0 a ha
    · intro p hp c hc
      rw [show (((s, e2, w0v) :: (T ++ [b]) : RMap α V)).map (fun x => x.2) =
        (((s, e2, w0v) :: T) ++ [b]).map (fun x => x.2) from by simp] at hp
      rw [map2_getLast_concat] at hp
      simp only [Option.mem_def, Option.some.injEq] at hp
      subst hp
      have hcB2 : c ∈ B2 := by
        cases B2 with
        | nil => simp at hc
        | cons c0 cs =>
          simp only [List.head?_cons, Option.mem_def, Option.some.injEq] at hc
          subst hc
          exact List.mem_cons_self _ _
      have h2 := hbB2 c hcB2
      exact ⟨h2.1, h2.2.2.2⟩
    · intro hW
      exact absurd hW (List.cons_ne_nil _ _)
  · refine inv_fused_final X0 ((s, e2, w0v) :: T) B rs re ?_ ?_
      hX0wf hX0ch hBwf hBch hEwf hEch ?_ ?_ ?_
    · exact window_pred X0 (s, e2, w0v) T B rs re (le_of_lt hlt)
        hX0s hsrs he2 hTkeys hBgt
    · refine pairwise_three X0 _ B hX0sortk hEsortk hBsortk ?_ ?_ hEkB
      · intro x hx w hw
        rcases List.mem_cons.1 hw with rfl | hw
        · exact hX0s x hx
        · exact lt_of_lt_of_le (lt_trans (hX0s x hx) hsrs) (hTkeys w hw).1
      · intro x hx c hc
        exact lt_trans (lt_trans (lt_trans (hX0s x hx) hsrs) hlt) (hBgt c hc)
    · intro a ha w hw
      simp only [List.head?_cons, Option.mem_def, Option.some.injEq] at hw
      subst hw
      exact hAW0 a ha
    · intro p hp c hc
      exact hWC3 p hp c hc hBgt
    · intro hW
      exact absurd hW (List.cons_ne_nil _ _)

/-- The full pipeline for the left-boundary no-op cases. -/
theorem insert_with_inv_noop (X M B : RMap α V) (rs re : α) (value : V)
    (mg : V → V → V) (hlt : rs < re)
    (hXwf : ∀ x ∈ X, x.1 < x.2.1)
    (hMwf : ∀ x ∈ M, x.1 < x.2.1)
    (hBwf : ∀ b ∈ B, b.1 < b.2.1)
    (hX : ∀ x ∈ X, x.1 < rs)
    (hMlo : ∀ x ∈ M, rs ≤ x.1)
    (hM : ∀ x ∈ M, x.1 < re)
    (hB : ∀ b ∈ B, re ≤ b.1)
    (hXent : X.Pairwise entRel)
    (hMsort : M.Pairwise fun a b => a.2.1 ≤ b.1)
    (hBent : B.Pairwise entRel)
    (hMBent : ∀ x ∈ M, ∀ b ∈ B, entRel x b)
    (hXe : ∀ a ∈ X.getLast?, a.2.1 ≤ rs)
    (hbet : between (X ++ (M ++ B)) rs re = M)
    (hLB : leftBlock (X ++ (M ++ B)) rs re value mg = (X ++ (M ++ B), [], rs)) :
    Inv (insert_with (X ++ (M ++ B)) rs re value mg) := by
  have hMB : ∀ x ∈ M, ∀ b ∈ B, x.2.1 ≤ b.1 :=
    fun x hx b hb => (hMBent x hx b hb).1
  rw [insert_with_eq (X ++ (M ++ B)) rs re value mg (X ++ (M ++ B)) [] rs hLB,
    hbet]
  rw [show X ++ (M ++ B) = X ++ M ++ B from (List.append_assoc X M B).symm]
  rw [outer_untouched X M B
    (sweep value re mg M rs value).upds (sweep value re mg M rs value).rem
    (sweep_upds_keys value re mg M rs value)
    (sweep_rem_keys value re mg M rs value)
    (fun p hp x hx => ne_of_lt (lt_of_lt_of_le (hX p hp) (hMlo x hx)))
    (fun b hb x hx => ne_of_gt (lt_of_lt_of_le (hM x hx) (hB b hb)))]
  rw [List.nil_append]
  have hsw := sweep_main value re mg M rs value X [] B hMwf hMsort hMlo hM hX
    hB hMB (fun l hl => absurd hl (List.not_mem_nil l)) (by simp)
    (fun h => absurd rfl h)
  rw [List.append_nil] at hsw
  rw [hsw]
  refine inv_window_noop X (emitted value re mg M rs value) B rs re hlt
    hXwf hXent hX hXe hBwf hBent hB
    (emitted_wf value re mg M rs value hMwf hMsort hM)
    (emitted_chain value re mg M rs value hMwf hMsort hM)
    (emitted_keys value re mg M rs value hMwf hMsort hMlo hM (le_of_lt hlt))
    (emitted_ne value re mg M rs value hlt)
    (emitted_head_key value re mg M rs value hMlo)
    ?_ ?_ ?_
  · -- the last emitted entry ends no later than any outer entry starts
    intro l hl c hc
    rcases emitted_last value re mg M rs value hMsort hM l hl with h |
      ⟨x, hx, rfl, h3⟩
    · exact le_trans h (hB c hc)
    · exact hMB x hx c hc
  · -- beyond the window, the last emitted entry cannot fuse outward
    intro l hl c hc hcgt
    rcases emitted_last value re mg M rs value hMsort hM l hl with h |
      ⟨x, hx, rfl, h3⟩
    · intro heq
      exact absurd heq (ne_of_lt (lt_of_le_of_lt h hcgt))
    · intro heq hval
      exact (hMBent x hx c hc).2.2.2 heq hval
  · -- emitted keys stay strictly below every outer key
    intro y hy b hb
    by_cases hbre : b.1 = re
    · have hkey := emitted_key_lt value re mg M rs value hMwf
        (fun x hx => hbre ▸ hMB x hx b hb) y hy
      rw [hbre]
      exact hkey
    · exact lt_of_le_of_lt
        (emitted_keys value re mg M rs value hMwf hMsort hMlo hM
          (le_of_lt hlt) y hy).2
        (lt_of_le_of_ne (hB b hb) (Ne.symm hbre))

/-- The full pipeline for the left-coalesce cases (`range.start` touches
or falls inside a predecessor that carries the inserted value). -/
theorem insert_with_inv_coal (X0 M B : RMap α V) (s e : α) (v : V)
    (rs re : α) (value : V) (mg : V → V → V)
    (hlt : rs < re) (hsrs : s < rs) (hv : v = value)
    (hXwf : ∀ x ∈ X0 ++ [(s, e, v)], x.1 < x.2.1)
    (hMwf : ∀ x ∈ M, x.1 < x.2.1)
    (hBwf : ∀ b ∈ B, b.1 < b.2.1)
    (hX : ∀ x ∈ X0 ++ [(s, e, v)], x.1 < rs)
    (hMlo : ∀ x ∈ M, rs ≤ x.1)
    (hM : ∀ x ∈ M, x.1 < re)
    (hB : ∀ b ∈ B, re ≤ b.1)
    (hXent : (X0 ++ [(s, e, v)]).Pairwise entRel)
    (hMsort : M.Pairwise fun a b => a.2.1 ≤ b.1)
    (hBent : B.Pairwise entRel)
    (hMBent : ∀ x ∈ M, ∀ b ∈ B, entRel x b)
    (hbet : between ((X0 ++ [(s, e, v)]) ++ (M ++ B)) rs re = M)
    (hLB : leftBlock ((X0 ++ [(s, e, v)]) ++ (M ++ B)) rs re value mg =
      (setEntry ((X0 ++ [(s, e, v)]) ++ (M ++ B)) s (e, v), [], s)) :
    Inv (insert_with ((X0 ++ [(s, e, v)]) ++ (M ++ B)) rs re value mg) := by
  have hMB : ∀ x ∈ M, ∀ b ∈ B, x.2.1 ≤ b.1 :=
    fun x hx b hb => (hMBent x hx b hb).1
  have hsplitX := List.pairwise_append.1 hXent
  have hX0ent : X0.Pairwise entRel := hsplitX.1
  have hX0pred : ∀ x ∈ X0, entRel x (s, e, v) :=
    fun x hx => hsplitX.2.2 x hx _ (List.mem_cons_self _ _)
  have hX0s : ∀ x ∈ X0, x.1 < s := fun x hx => (hX0pred x hx).2.1
  have hX0wf : ∀ x ∈ X0, x.1 < x.2.1 :=
    fun x hx => hXwf x (List.mem_append.2 (Or.inl hx))
  have hsetid : setEntry ((X0 ++ [(s, e, v)]) ++ (M ++ B)) s (e, v) =
      (X0 ++ [(s, e, v)]) ++ (M ++ B) := by
    rw [show (X0 ++ [(s, e, v)]) ++ (M ++ B) = X0 ++ ((s, e, v) :: (M ++ B))
      from by simp]
    exact setEntry_eq_self X0 (M ++ B) s e v
      (fun x hx => ne_of_lt (hX0s x hx))
      (fun x hx => by
        rcases List.mem_append.1 hx with h | h
        · exact ne_of_gt (lt_of_lt_of_le hsrs (hMlo x h))
        · exact ne_of_gt (lt_of_lt_of_le (lt_trans hsrs hlt) (hB x h)))
  rw [hsetid] at hLB
  rw [insert_with_eq _ rs re value mg _ [] s hLB, hbet]
  rw [show (X0 ++ [(s, e, v)]) ++ (M ++ B) = (X0 ++ [(s, e, v)]) ++ M ++ B from
    (List.append_assoc _ M B).symm]
  rw [outer_untouched (X0 ++ [(s, e, v)]) M B
    (sweep value re mg M s value).upds (sweep value re mg M s value).rem
    (sweep_upds_keys value re mg M s value)
    (sweep_rem_keys value re mg M s value)
    (fun p hp x hx => ne_of_lt (lt_of_lt_of_le (hX p hp) (hMlo x hx)))
    (fun b hb x hx => ne_of_gt (lt_of_lt_of_le (hM x hx) (hB b hb)))]
  rw [List.nil_append]
  have hMgt : ∀ x ∈ M, s < x.1 := fun x hx => lt_of_lt_of_le hsrs (hMlo x hx)
  have hsw := sweep_main value re mg M s value X0 [(s, e, v)] B hMwf hMsort
    (fun x hx => le_of_lt (hMgt x hx)) hM hX0s hB hMB
    (fun l hl => by
      rcases List.mem_cons.1 hl with rfl | hl
      · rfl
      · exact absurd hl (List.not_mem_nil l))
    (by simp)
    (fun _ => ⟨hMgt, lt_trans hsrs hlt⟩)
  rw [hsw]
  obtain ⟨e2, T, hE, hloc⟩ := emitted_head_gap value re mg M s value hMgt
    (lt_trans hsrs hlt)
  have he2 : rs ≤ e2 := by
    rcases hloc with ⟨x, hx, h2⟩ | h2
    · rw [h2]
      exact hMlo x hx
    · rw [h2]
      exact le_of_lt hlt
  have hEwf2 := emitted_wf value re mg M s value hMwf hMsort hM
  rw [hE] at hEwf2
  have hEch2 := emitted_chain value re mg M s value hMwf hMsort hM
  rw [hE] at hEch2
  have hEkeys2 := emitted_keys value re mg M s value hMwf hMsort
    (fun x hx => le_of_lt (hMgt x hx)) hM (le_of_lt (lt_trans hsrs hlt))
  rw [hE] at hEkeys2
  have hElast2 := emitted_last value re mg M s value hMsort hM
  rw [hE] at hElast2
  have hEpair := chain_wf_pairwise _ hEwf2 hEch2
  have hkb : ∀ y ∈ emitted value re mg M s value, ∀ b ∈ B, y.1 < b.1 := by
    intro y hy b hb
    by_cases hbre : b.1 = re
    · have hkey := emitted_key_lt value re mg M s value hMwf
        (fun x hx => hbre ▸ hMB x hx b hb) y hy
      rw [hbre]
      exact hkey
    · exact lt_of_le_of_lt
        (emitted_keys value re mg M s value hMwf hMsort
          (fun x hx => le_of_lt (hMgt x hx)) hM
          (le_of_lt (lt_trans hsrs hlt)) y hy).2
        (lt_of_le_of_ne (hB b hb) (Ne.symm hbre))
  rw [hE] at hkb
  rw [hE]
  refine inv_window_gap X0 T B s e2 value rs re hlt hsrs he2 hX0wf hX0ent hX0s
    ?_ hBwf hBent hB hEwf2 hEch2 ?_ ?_ ?_ hkb
  · intro a ha
    have h2 := hX0pred a (getLast?_mem ha)
    exact ⟨h2.1, fun heq hvv => h2.2.2.2 heq (hv ▸ hvv)⟩
  · intro y hy
    refine ⟨le_trans he2 (List.rel_of_pairwise_cons hEpair hy), ?_⟩
    exact (hEkeys2 y (List.mem_cons_of_mem _ hy)).2
  · intro l hl c hc
    rcases hElast2 l hl with h | ⟨x, hx, h2, h3⟩
    · exact le_trans h (hB c hc)
    · rw [h2]
      exact hMB x hx c hc
  · intro l hl c hc hcgt
    rcases hElast2 l hl with h | ⟨x, hx, h2, h3⟩
    · intro heq
      exact absurd heq (ne_of_lt (lt_of_le_of_lt h hcgt))
    · rw [h2]
      intro heq hval
      exact (hMBent x hx c hc).2.2.2 heq hval

/-- The full pipeline for the straddle case with a different value: the
predecessor is truncated at `range.start` and the window re-emits the
overlap (and, past `range.end`, the split remainder). -/
theorem insert_with_inv_straddle (X0 M B : RMap α V) (s e : α) (v : V)
    (rs re : α) (value : V) (mg : V → V → V)
    (hlt : rs < re) (hsrs : s < rs) (hrse : rs < e) (hv : ¬ v = value)
    (hXwf : ∀ x ∈ X0 ++ [(s, e, v)], x.1 < x.2.1)
    (hMwf : ∀ x ∈ M, x.1 < x.2.1)
    (hBwf : ∀ b ∈ B, b.1 < b.2.1)
    (hX : ∀ x ∈ X0 ++ [(s, e, v)], x.1 < rs)
    (hMlo : ∀ x ∈ M, rs ≤ x.1)
    (hM : ∀ x ∈ M, x.1 < re)
    (hB : ∀ b ∈ B, re ≤ b.1)
    (hXent : (X0 ++ [(s, e, v)]).Pairwise entRel)
    (hMsort : M.Pairwise fun a b => a.2.1 ≤ b.1)
    (hBent : B.Pairwise entRel)
    (hMBent : ∀ x ∈ M, ∀ b ∈ B, entRel x b)
    (hXMB : ∀ a ∈ X0 ++ [(s, e, v)], ∀ y ∈ M ++ B, entRel a y)
    (hLB : leftBlock ((X0 ++ [(s, e, v)]) ++ (M ++ B)) rs re value mg =
      (setEntry ((X0 ++ [(s, e, v)]) ++ (M ++ B)) s (rs, v),
       (if re < e then [(re, e, v)] else []) ++ [(rs, min e re, mg v value)],
       min e re)) :
    Inv (insert_with ((X0 ++ [(s, e, v)]) ++ (M ++ B)) rs re value mg) := by
  have hMB2 : ∀ x ∈ M, ∀ b ∈ B, x.2.1 ≤ b.1 :=
    fun x hx b hb => (hMBent x hx b hb).1
  have hpredmem : ((s, e, v) : α × α × V) ∈ X0 ++ [(s, e, v)] :=
    List.mem_append.2 (Or.inr (List.mem_cons_self _ _))
  have hprede : ∀ y ∈ M ++ B, entRel (s, e, v) y :=
    fun y hy => hXMB _ hpredmem y hy
  have hMe : ∀ x ∈ M, e ≤ x.1 :=
    fun x hx => (hprede x (List.mem_append.2 (Or.inl hx))).1
  have hBe : ∀ b ∈ B, e ≤ b.1 :=
    fun b hb => (hprede b (List.mem_append.2 (Or.inr hb))).1
  have hsplitX := List.pairwise_append.1 hXent
  have hX0ent : X0.Pairwise entRel := hsplitX.1
  have hX0pred : ∀ x ∈ X0, entRel x (s, e, v) :=
    fun x hx => hsplitX.2.2 x hx _ (List.mem_cons_self _ _)
  have hX0s : ∀ x ∈ X0, x.1 < s := fun x hx => (hX0pred x hx).2.1
  have hX0wf : ∀ x ∈ X0, x.1 < x.2.1 :=
    fun x hx => hXwf x (List.mem_append.2 (Or.inl hx))
  have hAW0 : ∀ a ∈ X0.getLast?, pairOK a (s, rs, v) := by
    intro a ha
    have h2 := hX0pred a (getLast?_mem ha)
    exact ⟨h2.1, fun heq hvv => h2.2.2.2 heq hvv⟩
  have hset : setEntry ((X0 ++ [(s, e, v)]) ++ (M ++ B)) s (rs, v) =
      X0 ++ ((s, rs, v) :: (M ++ B)) := by
    rw [show (X0 ++ [(s, e, v)]) ++ (M ++ B) = X0 ++ ((s, e, v) :: (M ++ B))
      from by simp]
    rw [setEntry_append, setEntry_of_ne X0 s (rs, v)
      (fun x hx => ne_of_lt (hX0s x hx)),
      setEntry_cons_of_eq (s, e, v) (M ++ B) s (rs, v) rfl,
      setEntry_of_ne (M ++ B) s (rs, v) (fun y hy =>
        ne_of_gt (lt_of_lt_of_le (lt_trans hsrs hrse) (hprede y hy).1))]
  rw [hset] at hLB
  have hbet1 : between (X0 ++ ((s, rs, v) :: (M ++ B))) rs re = M := by
    rw [show X0 ++ ((s, rs, v) :: (M ++ B)) = (X0 ++ [(s, rs, v)]) ++ M ++ B
      from by simp]
    refine between_eq_of_split (X0 ++ [(s, rs, v)]) M B rs re ?_
      (fun y hy => ⟨hMlo y hy, hM y hy⟩) hB
    intro x hx
    rcases List.mem_append.1 hx with h | h
    · exact lt_trans (hX0s x h) hsrs
    · rcases List.mem_cons.1 h with rfl | h
      · exact hsrs
      · exact absurd h (List.not_mem_nil x)
  have hP0lt : ∀ p ∈ X0 ++ [(s, rs, v)], p.1 < rs := by
    intro p hp
    rcases List.mem_append.1 hp with h | h
    · exact lt_trans (hX0s p h) hsrs
    · rcases List.mem_cons.1 h with rfl | h
      · exact hsrs
      · exact absurd h (List.not_mem_nil p)
  by_cases he : e ≤ re
  · -- the predecessor's remainder stays inside the window
    have hMgt : ∀ x ∈ M, rs < x.1 :=
      fun x hx => lt_of_lt_of_le hrse (hMe x hx)
    rw [if_neg (not_lt.2 he), List.nil_append, min_eq_left he] at hLB
    rw [insert_with_eq _ rs re value mg _ _ _ hLB, hbet1]
    rw [show X0 ++ ((s, rs, v) :: (M ++ B)) = (X0 ++ [(s, rs, v)]) ++ M ++ B
      from by simp]
    rw [outer_untouched (X0 ++ [(s, rs, v)]) M B
      (sweep value re mg M e value).upds (sweep value re mg M e value).rem
      (sweep_upds_keys value re mg M e value)
      (sweep_rem_keys value re mg M e value)
      (fun p hp x hx => ne_of_lt (lt_of_lt_of_le (hP0lt p hp) (hMlo x hx)))
      (fun b hb x hx => ne_of_gt (lt_of_lt_of_le (hM x hx) (hB b hb)))]
    rw [List.append_assoc [(rs, e, mg v value)], List.singleton_append,
      insApply_cons, List.append_assoc (X0 ++ [(s, rs, v)])]
    rw [btInsert_position (X0 ++ [(s, rs, v)]) _ rs (e, mg v value) hP0lt (by
      intro q hq
      rcases List.mem_append.1 hq with h | h
      · obtain ⟨z, hz, rfl⟩ := List.mem_map.1 (List.mem_of_mem_filter h)
        rw [applyUpds_key]
        exact hMgt z hz
      · exact lt_of_lt_of_le hlt (hB q h))]
    have hsw := sweep_main value re mg M e value
      (X0 ++ [(s, rs, v), (rs, e, mg v value)]) [] B hMwf hMsort hMe hM (by
        intro p hp
        rcases List.mem_append.1 hp with h | h
        · exact lt_trans (lt_trans (hX0s p h) hsrs) hrse
        · rcases List.mem_cons.1 h with rfl | h
          · exact lt_trans hsrs hrse
          · rcases List.mem_cons.1 h with rfl | h
            · exact hrse
            · exact absurd h (List.not_mem_nil p))
      hB hMB2 (fun l hl => absurd hl (List.not_mem_nil l)) (by simp)
      (fun h => absurd rfl h)
    simp only [List.append_assoc, List.cons_append, List.nil_append,
      List.append_nil, List.singleton_append] at hsw ⊢
    rw [hsw]
    have hEwf2 := emitted_wf value re mg M e value hMwf hMsort hM
    have hEch2 := emitted_chain value re mg M e value hMwf hMsort hM
    have hEkeys2 := emitted_keys value re mg M e value hMwf hMsort hMe hM he
    have hElast2 := emitted_last value re mg M e value hMsort hM
    have hkb : ∀ y ∈ emitted value re mg M e value, ∀ b ∈ B, y.1 < b.1 := by
      intro y hy b hb
      by_cases hbre : b.1 = re
      · have hkey := emitted_key_lt value re mg M e value hMwf
          (fun x hx => hbre ▸ hMB2 x hx b hb) y hy
        rw [hbre]
        exact hkey
      · exact lt_of_le_of_lt (hEkeys2 y hy).2
          (lt_of_le_of_ne (hB b hb) (Ne.symm hbre))
    have hfinal := inv_window_gap X0
      ((rs, e, mg v value) :: emitted value re mg M e value) B s rs v rs re
      hlt hsrs (le_refl rs) hX0wf hX0ent hX0s hAW0 hBwf hBent hB
      (by
        intro y hy
        rcases List.mem_cons.1 hy with rfl | hy
        · exact hsrs
        · rcases List.mem_cons.1 hy with rfl | hy
          · exact hrse
          · exact hEwf2 y hy)
      (by
        rw [List.chain'_cons]
        refine ⟨le_refl rs, ?_⟩
        rw [List.chain'_cons']
        refine ⟨?_, hEch2⟩
        intro y hy
        rw [emitted_head_key value re mg M e value hMe y hy])
      (by
        intro y hy
        rcases List.mem_cons.1 hy with rfl | hy
        · exact ⟨le_refl rs, le_of_lt hlt⟩
        · exact ⟨le_trans (le_of_lt hrse) (hEkeys2 y hy).1, (hEkeys2 y hy).2⟩)
      (by
        intro l hl c hc
        rw [List.getLast?_cons_cons] at hl
        cases hEe : emitted value re mg M e value with
        | nil =>
          rw [hEe] at hl
          simp only [List.getLast?_singleton, Option.mem_def,
            Option.some.injEq] at hl
          rw [← hl]
          exact hBe c hc
        | cons r0 R =>
          rw [hEe, List.getLast?_cons_cons, ← hEe] at hl
          rcases hElast2 l hl with h | ⟨x, hx, h2, h3⟩
          · exact le_trans h (hB c hc)
          · rw [h2]
            exact hMB2 x hx c hc)
      (by
        intro l hl c hc hcgt
        rw [List.getLast?_cons_cons] at hl
        cases hEe : emitted value re mg M e value with
        | nil =>
          rw [hEe] at hl
          simp only [List.getLast?_singleton, Option.mem_def,
            Option.some.injEq] at hl
          rw [← hl]
          intro heq
          exact absurd heq (ne_of_lt (lt_of_le_of_lt he hcgt))
        | cons r0 R =>
          rw [hEe, List.getLast?_cons_cons, ← hEe] at hl
          rcases hElast2 l hl with h | ⟨x, hx, h2, h3⟩
          · intro heq
            exact absurd heq (ne_of_lt (lt_of_le_of_lt h hcgt))
          · rw [h2]
            intro heq hval
            exact (hMBent x hx c hc).2.2.2 heq hval)
      (by
        intro y hy b hb
        rcases List.mem_cons.1 hy with rfl | hy
        · exact lt_of_lt_of_le (lt_trans hsrs hlt) (hB b hb)
        · rcases List.mem_cons.1 hy with rfl | hy
          · exact lt_of_lt_of_le hlt (hB b hb)
          · exact hkb y hy b hb)
    simp only [List.append_assoc, List.cons_append, List.nil_append,
      List.append_nil, List.singleton_append] at hfinal ⊢
    exact hfinal
  · -- the predecessor straddles the right boundary: split remainder
    have hree : re < e := not_le.1 he
    have hMnil : M = [] := by
      cases M with
      | nil => rfl
      | cons z zs =>
        exact absurd (hM z (List.mem_cons_self _ _))
          (not_lt.2 (le_trans (le_of_lt hree) (hMe z (List.mem_cons_self _ _))))
    subst hMnil
    have hBgt : ∀ b ∈ B, re < b.1 :=
      fun b hb => lt_of_lt_of_le hree (hBe b hb)
    rw [if_pos hree, min_eq_right (le_of_lt hree)] at hLB
    rw [insert_with_eq _ rs re value mg _ _ _ hLB, hbet1]
    simp only [sweep]
    rw [updApply_nil, remApply_nil, if_neg (lt_irrefl re), List.append_nil,
      List.append_nil]
    rw [show (([(re, e, v)] ++ [(rs, re, mg v value)]) : List (α × α × V)) =
      [(re, e, v), (rs, re, mg v value)] from rfl]
    rw [insApply_cons, insApply_cons, insApply_nil]
    rw [show X0 ++ ((s, rs, v) :: (([] : RMap α V) ++ B)) =
      (X0 ++ [(s, rs, v)]) ++ B from by simp]
    rw [btInsert_position (X0 ++ [(s, rs, v)]) B re (e, v)
      (fun p hp => lt_trans (hP0lt p hp) hlt) hBgt]
    rw [show (X0 ++ [(s, rs, v)]) ++ (re, e, v) :: B =
      (X0 ++ [(s, rs, v)]) ++ ((re, e, v) :: B) from rfl]
    rw [btInsert_position (X0 ++ [(s, rs, v)]) ((re, e, v) :: B) rs
      (re, mg v value) hP0lt (by
        intro q hq
        rcases List.mem_cons.1 hq with rfl | hq
        · exact hlt
        · exact lt_trans hlt (hBgt q hq))]
    have hfinal := inv_window_gap X0 [(rs, re, mg v value), (re, e, v)] B
      s rs v rs re hlt hsrs (le_refl rs) hX0wf hX0ent hX0s hAW0 hBwf hBent hB
      (by
        intro y hy
        rcases List.mem_cons.1 hy with rfl | hy
        · exact hsrs
        · rcases List.mem_cons.1 hy with rfl | hy
          · exact hlt
          · rcases List.mem_cons.1 hy with rfl | hy
            · exact hree
            · exact absurd hy (List.not_mem_nil y))
      (by
        rw [List.chain'_cons, List.chain'_cons]
        exact ⟨le_refl rs, le_refl re, List.chain'_singleton _⟩)
      (by
        intro y hy
        rcases List.mem_cons.1 hy with rfl | hy
        · exact ⟨le_refl rs, le_of_lt hlt⟩
        · rcases List.mem_cons.1 hy with rfl | hy
          · exact ⟨le_of_lt hlt, le_refl re⟩
          · exact absurd hy (List.not_mem_nil y))
      (by
        intro l hl c hc
        rw [List.getLast?_cons_cons, List.getLast?_cons_cons] at hl
        simp only [List.getLast?_singleton, Option.mem_def,
          Option.some.injEq] at hl
        rw [← hl]
        exact hBe c hc)
      (by
        intro l hl c hc hcgt
        rw [List.getLast?_cons_cons, List.getLast?_cons_cons] at hl
        simp only [List.getLast?_singleton, Option.mem_def,
          Option.some.injEq] at hl
        rw [← hl]
        intro heq hval
        exact (hprede c (List.mem_append.2 (Or.inr hc))).2.2.2 heq hval)
      (by
        intro y hy b hb
        rcases List.mem_cons.1 hy with rfl | hy
        · exact lt_trans (lt_trans hsrs hlt) (hBgt b hb)
        · rcases List.mem_cons.1 hy with rfl | hy
          · exact lt_trans hlt (hBgt b hb)
          · rcases List.mem_cons.1 hy with rfl | hy
            · exact hBgt b hb
            · exact absurd hy (List.not_mem_nil y))
    simp only [List.append_assoc, List.cons_append, List.nil_append,
      List.append_nil, List.singleton_append] at hfinal ⊢
    exact hfinal

/-- Inserting a non-degenerate range with `insert_with` preserves the
`RangeMap` invariant. -/
theorem insert_with_inv (m : RMap α V) (rs re : α) (value : V)
    (mg : V → V → V) (hinv : Inv m) (hlt : rs < re) :
    Inv (insert_with m rs re value mg) := by
  have hwfm : ∀ x ∈ m, x.1 < x.2.1 := hinv.1
  have hent : m.Pairwise entRel := inv_pairwise_entRel m hinv
  have hkeys : m.Pairwise (fun a b => a.1 < b.1) := inv_pairwise_keys m hinv
  obtain ⟨X, Y, hm, hX, hYlo⟩ := split_at_key m rs hkeys
  have hYsort : Y.Pairwise (fun a b => a.1 < b.1) := by
    rw [hm] at hkeys
    exact (List.pairwise_append.1 hkeys).2.1
  obtain ⟨M, B, hY2, hM, hB⟩ := split_at_key Y re hYsort
  subst hY2
  subst hm
  -- basic part facts
  have hXwf : ∀ x ∈ X, x.1 < x.2.1 :=
    fun x hx => hwfm x (List.mem_append.2 (Or.inl hx))
  have hMwf : ∀ x ∈ M, x.1 < x.2.1 :=
    fun x hx => hwfm x (List.mem_append.2 (Or.inr (List.mem_append.2 (Or.inl hx))))
  have hBwf : ∀ b ∈ B, b.1 < b.2.1 :=
    fun b hb => hwfm b (List.mem_append.2 (Or.inr (List.mem_append.2 (Or.inr hb))))
  have hMlo : ∀ x ∈ M, rs ≤ x.1 :=
    fun x hx => hYlo x (List.mem_append.2 (Or.inl hx))
  have hBlo : ∀ b ∈ B, rs ≤ b.1 :=
    fun b hb => hYlo b (List.mem_append.2 (Or.inr hb))
  have hentsplit := List.pairwise_append.1 hent
  have hentsplit2 := List.pairwise_append.1 hentsplit.2.1
  have hXent : X.Pairwise entRel := hentsplit.1
  have hMent : M.Pairwise entRel := hentsplit2.1
  have hBent : B.Pairwise entRel := hentsplit2.2.1
  have hXMB : ∀ a ∈ X, ∀ y ∈ M ++ B, entRel a y := hentsplit.2.2
  have hMBent : ∀ x ∈ M, ∀ b ∈ B, entRel x b := hentsplit2.2.2
  have hMsort : M.Pairwise (fun a b => a.2.1 ≤ b.1) := hMent.imp (fun h => h.1)
  have hMB : ∀ x ∈ M, ∀ b ∈ B, x.2.1 ≤ b.1 :=
    fun x hx b hb => (hMBent x hx b hb).1
  have hksplit := List.pairwise_append.1 hkeys
  have hksplit2 := List.pairwise_append.1 hksplit.2.1
  have hXsort : X.Pairwise (fun a b => a.1 < b.1) := hksplit.1
  have hBsortk : B.Pairwise (fun a b => a.1 < b.1) := hksplit2.2.1
  have hpred : btFindPred (X ++ (M ++ B)) rs = X.getLast? :=
    btFindPred_eq_of_split X (M ++ B) rs hX hYlo
  have hbet : between (X ++ (M ++ B)) rs re = M := by
    rw [show X ++ (M ++ B) = X ++ M ++ B from by rw [List.append_assoc]]
    exact between_eq_of_split X M B rs re hX (fun y hy => ⟨hMlo y hy, hM y hy⟩) hB
  cases hXl : X.getLast? with
  | none =>
    have hXnil : X = [] := List.getLast?_eq_none.1 hXl
    subst hXnil
    have hLB : leftBlock ([] ++ (M ++ B)) rs re value mg = ([] ++ (M ++ B), [], rs) :=
      leftBlock_none _ rs re value mg (by rw [hpred, hXl])
    exact insert_with_inv_noop [] M B rs re value mg hlt hXwf hMwf hBwf hX hMlo
      hM hB hXent hMsort hBent hMBent (fun a ha => by simp at ha) hbet hLB
  | some p =>
    obtain ⟨s, e, v⟩ := p
    obtain ⟨X0, hX0⟩ := getLast?_decomp X (s, e, v) hXl
    have hsrs : s < rs := by
      have := hX (s, e, v) (by rw [hX0]; exact List.mem_append.2 (Or.inr (List.mem_cons_self _ _)))
      exact this
    by_cases hre1 : rs = e
    · by_cases hv : v = value
      · -- touch_eq
        have hLB := leftBlock_touch_eq (X ++ (M ++ B)) rs re value mg s e v
          (by rw [hpred, hXl]) hre1 hv
        subst hX0
        exact insert_with_inv_coal X0 M B s e v rs re value mg hlt hsrs hv
          hXwf hMwf hBwf hX hMlo hM hB hXent hMsort hBent hMBent hbet hLB
      · -- touch_ne: no-op
        have hLB := leftBlock_touch_ne (X ++ (M ++ B)) rs re value mg s e v
          (by rw [hpred, hXl]) hre1 hv
        exact insert_with_inv_noop X M B rs re value mg hlt hXwf hMwf hBwf hX
          hMlo hM hB hXent hMsort hBent hMBent
          (fun a ha => by
            rw [hXl] at ha
            simp only [Option.mem_def, Option.some.injEq] at ha
            subst ha
            exact le_of_eq hre1.symm) hbet hLB
    · by_cases hre2 : rs < e
      · by_cases hv : v = value
        · -- straddle_eq
          have hLB := leftBlock_straddle_eq (X ++ (M ++ B)) rs re value mg s e v
            (by rw [hpred, hXl]) hre1 hre2 hv
          subst hX0
          exact insert_with_inv_coal X0 M B s e v rs re value mg hlt hsrs hv
            hXwf hMwf hBwf hX hMlo hM hB hXent hMsort hBent hMBent hbet hLB
        · -- straddle_ne
          have hLB := leftBlock_straddle_ne (X ++ (M ++ B)) rs re value mg s e v
            (by rw [hpred, hXl]) hre1 hre2 hv
          subst hX0
          exact insert_with_inv_straddle X0 M B s e v rs re value mg hlt hsrs
            hre2 hv hXwf hMwf hBwf hX hMlo hM hB hXent hMsort hBent hMBent
            hXMB hLB
      · -- far: e < rs
        have hers : e < rs := lt_of_le_of_ne (not_lt.1 hre2) (fun h => hre1 h.symm)
        have hLB := leftBlock_far (X ++ (M ++ B)) rs re value mg s e v
          (by rw [hpred, hXl]) hers
        exact insert_with_inv_noop X M B rs re value mg hlt hXwf hMwf hBwf hX
          hMlo hM hB hXent hMsort hBent hMBent
          (fun a ha => by
            rw [hXl] at ha
            simp only [Option.mem_def, Option.some.injEq] at ha
            subst ha
            exact le_of_lt hers) hbet hLB

/-- Specialisation of the preservation theorem to a whole operation list. -/
theorem applyOps_inv (ops : List (α × α × V × (V → V → V))) :
    ∀ (m : RMap α V), Inv m → (∀ op ∈ ops, op.1 < op.2.1) →
    Inv (ops.foldl (fun m op => insert_with m op.1 op.2.1 op.2.2.1 op.2.2.2) m) := by
  induction ops with
  | nil =>
    intro m hm _
    exact hm
  | cons op rest ih =>
    intro m hm h
    exact ih _ (insert_with_inv m op.1 op.2.1 op.2.2.1 op.2.2.2 hm
      (h op (List.mem_cons_self _ _)))
      (fun o ho => h o (List.mem_cons_of_mem _ ho))

end RQ

/-- C1: after any sequence of `insert_with` / `insert_replace` calls on an
initially empty `RangeMap`, provided every inserted range is non-degenerate
(`start < end`), the stored invariant holds: every entry satisfies
`start < end`, entries are pairwise disjoint and sorted by start, and no
two adjacent entries with `e1 = s2` are coalesce-fusable (equal values).
As stated the claim fails for zero-width inserts (`RQ.c1_counterexample`). -/
theorem c1_theorem {α V : Type} [LinearOrder α] [DecidableEq V]
    (ops : List (α × α × V × (V → V → V)))
    (h : ∀ op ∈ ops, op.1 < op.2.1) :
    RQ.Inv (RQ.applyOps ops) :=
  RQ.applyOps_inv ops []
    ⟨fun e he => absurd he (List.not_mem_nil e), List.chain'_nil⟩ h

/-- C1 witness: a concrete operation sequence (an `insert_with` with an
additive merge followed by an overlapping `insert_replace`) satisfies the
hypothesis, and the resulting map satisfies the invariant. -/
theorem c1_witness :
    (∀ op ∈ ([(0, 10, 1, fun a b => a + b), (5, 12, 2, fun _ b => b)] :
        List (ℕ × ℕ × ℕ × (ℕ → ℕ → ℕ))), op.1 < op.2.1) ∧
    RQ.Inv (RQ.applyOps
      ([(0, 10, 1, fun a b => a + b), (5, 12, 2, fun _ b => b)] :
        List (ℕ × ℕ × ℕ × (ℕ → ℕ → ℕ)))) :=
  ⟨by decide, c1_theorem _ (by decide)⟩
